import Mathlib

/-!
# Texture-cache building blocks of `video_core/texture_cache`, and helpers around them

A shallow embedding of

* `slot_vector.h`: `SlotId` and `SlotVector<T>`, the stable-handle object pool;
* `image_info_page_table.{h,cpp}`: `ImageInfoPageTable`, the per-pass scratch multimap;
* `texture_cache.h`: the constants and `ForEachPage` of `TextureCache`;
* `common/div_ceil.h`: `DivCeil` and `DivCeilLog2`;
* `command_classes/codecs/vp9.{h,cpp}`: `RemapProbability`, `GetCurrentFrame` and the
  class `VpxBitStreamWriter`;
* `nvdrv/devices/nvhost_vic.{h,cpp}`: `BufferMap` and `FindBufferMap`;

followed by theorems about them.  The functions `texture_cache.h` declares without a
body (`WriteMemory`, `FindOrInsertImage`, `GetFramebuffer`, the rings of deferred
destruction) are defined in files that are not among the sources; their definitions
here follow the description of the specification and say so.

Conventions of the embedding.

* A `u32` or `u64` or `size_t` is a `Nat`; every operation that can leave the range of its
  C++ type is followed by an explicit `% 2 ^ 32` or `% 2 ^ 64`.  An `s32` whose bits
  matter is the `Nat` below `2 ^ 32` of its two's complement bits; an `s32` that is a small
  number is an `Int` or a `Nat`, as said at the definition.
* The raw storage `Entry* values` is a list of slots, one per allocated `Entry`.  A slot
  is `some v` when it holds a constructed `T` and `none` when it is uninitialised or has
  been destroyed and filled with the `0xcc` pattern.
* `DEBUG_ASSERT` is read as in a debug build: a failed assertion stops the call.
* An array is a list of its elements.  The C++ code has undefined behaviour when it
  indexes an array out of bounds; here such a write is dropped and such a read gives a
  fixed value (`none`, `0`, a value-initialised entry, `INVALID_ID`).  The theorems
  about reachable states keep every access in bounds; where a theorem is stated for
  more states, an access out of bounds has the reading given here.
* A loop that need not end takes a bound on its number of iterations and returns
  `none` when the bound is too small.
-/

set_option linter.unusedSectionVars false

namespace VideoCommon

/-! ## slot_vector.h -/

/-- Handle of a pool slot, `struct SlotId`; `index` is a `u32`. -/
structure SlotId where
  index : Nat
deriving DecidableEq, Repr

namespace SlotId

/-- The reserved index `std::numeric_limits<u32>::max()`. -/
def INVALID_INDEX : Nat := 2 ^ 32 - 1

/-- The conversion `explicit operator bool`: `index != INVALID_INDEX`. -/
def toBool (id : SlotId) : Bool := id.index != INVALID_INDEX

/-- The default-constructed handle, `u32 index = INVALID_INDEX`. -/
def invalid : SlotId := ⟨INVALID_INDEX⟩

end SlotId

/-- The data members of `SlotVector<T>`. -/
structure SlotVector (T : Type) where
  /-- Storage `Entry* values`, of `values_capacity` entries. -/
  values : List (Option T)
  /-- Member `size_t values_capacity`. -/
  values_capacity : Nat
  /-- Member `size_t values_size` (never written by the class). -/
  values_size : Nat
  /-- Member `std::vector<u64> stored_bitset`. -/
  stored_bitset : List Nat
  /-- Member `std::vector<u32> free_list`. -/
  free_list : List Nat

/-- The effect of `std::vector::resize(n)` with value-initialised new elements `d`. -/
def vectorResize {α : Type} (l : List α) (n : Nat) (d : α) : List α :=
  l.take n ++ List.replicate (n - l.length) d

/-- The values written by `std::iota` over `count` elements of a `u32` range starting at
`start`: the running value is a `u32` and wraps. -/
def iotaU32 (count start : Nat) : List Nat :=
  (List.range count).map fun j => (start + j) % 2 ^ 32

namespace SlotVector

variable {T : Type}

/-- The pool right after construction: all members at their default initialisers. -/
def empty : SlotVector T :=
  { values := [], values_capacity := 0, values_size := 0, stored_bitset := [], free_list := [] }

/-- One word of the bitset, `stored_bitset[w]`. -/
def word (s : SlotVector T) (w : Nat) : Nat := s.stored_bitset.getD w 0

/-- Function `SetStorageBit`: `stored_bitset[index / 64] |= u64(1) << (index % 64)`. -/
def SetStorageBit (s : SlotVector T) (index : Nat) : SlotVector T :=
  { s with
    stored_bitset :=
      s.stored_bitset.set (index / 64) (s.word (index / 64) ||| (1 <<< (index % 64))) }

/-- Function `ResetStorageBit`: `stored_bitset[index / 64] &= ~(u64(1) << (index % 64))`; the
complement of a `u64` is its exclusive or with `2 ^ 64 - 1`. -/
def ResetStorageBit (s : SlotVector T) (index : Nat) : SlotVector T :=
  { s with
    stored_bitset :=
      s.stored_bitset.set (index / 64)
        (s.word (index / 64) &&& ((2 ^ 64 - 1) ^^^ (1 <<< (index % 64)))) }

/-- Function `ReadStorageBit`: `((stored_bitset[index / 64] >> (index % 64)) & 1) != 0`. -/
def ReadStorageBit (s : SlotVector T) (index : Nat) : Bool :=
  ((s.word (index / 64) >>> (index % 64)) &&& 1) != 0

/-- Function `ValidateIndex`: the three `DEBUG_ASSERT`s in order; `true` when all of them hold.
The conjunction is lazy as the assertions are sequential: the word is only read when
the index lies within the bitset. -/
def ValidateIndex (s : SlotVector T) (id : SlotId) : Bool :=
  id.toBool && decide (id.index / 64 < s.stored_bitset.length) &&
    (((s.word (id.index / 64) >>> (id.index % 64)) &&& 1) != 0)

/-- Operator `operator[]`: `ValidateIndex(id)` and then the object stored in `values[id.index]`.
The result is `none` when an assertion fails, and also when the slot holds no object. -/
def operatorIndex (s : SlotVector T) (id : SlotId) : Option T :=
  if s.ValidateIndex id then (s.values.getD id.index none) else none

/-- The inner loop of `Reserve`,
`for (size_t bit = 0; bits; ++bit, bits >>= 1)`, moving the object of every set bit of
one word to the same index of the new storage.  The first argument bounds the number
of iterations; a `u64` is zero after 64 shifts, so `Reserve` passes 64. -/
def moveBits (values : List (Option T)) (index : Nat) :
    Nat → Nat → Nat → List (Option T) → List (Option T)
  | 0, _, _, new_values => new_values
  | fuel + 1, bit, bits, new_values =>
    if bits = 0 then new_values
    else
      moveBits values index fuel (bit + 1) (bits >>> 1)
        (if bits &&& 1 = 0 then new_values
         else new_values.set (index + bit) (values.getD (index + bit) none))

/-- The outer loop of `Reserve`, `for (u64 bits : stored_bitset)` with `index += 64`. -/
def moveWords (values : List (Option T)) :
    List Nat → Nat → List (Option T) → List (Option T)
  | [], _, new_values => new_values
  | bits :: rest, index, new_values =>
    moveWords values rest (index + 64) (moveBits values index 64 0 bits new_values)

/-- Function `Reserve(new_capacity)`: allocate the new storage, move the present objects, resize
the bitset, append the new indices `values_capacity, ...` to the free list. -/
def Reserve (s : SlotVector T) (new_capacity : Nat) : SlotVector T :=
  let old_free_size := s.free_list.length
  let resized := vectorResize s.free_list
    ((old_free_size + (new_capacity + 2 ^ 64 - s.values_capacity) % 2 ^ 64) % 2 ^ 64) 0
  { values := moveWords s.values s.stored_bitset 0 (List.replicate new_capacity none)
    values_capacity := new_capacity
    values_size := s.values_size
    stored_bitset := vectorResize s.stored_bitset ((new_capacity + 63) % 2 ^ 64 / 64) 0
    free_list := resized.take old_free_size ++
      iotaU32 (resized.length - old_free_size) (s.values_capacity % 2 ^ 32) }

/-- The capacity `FreeValueIndex` asks of `Reserve`:
`values_capacity ? (values_capacity << 1) : 1`, a `size_t`. -/
def grownCapacity (s : SlotVector T) : Nat :=
  if s.values_capacity ≠ 0 then (s.values_capacity <<< 1) % 2 ^ 64 else 1

/-- The pool after the `if (free_list.empty()) Reserve(...)` of `FreeValueIndex`. -/
def ensureFree (s : SlotVector T) : SlotVector T :=
  if s.free_list.isEmpty then s.Reserve s.grownCapacity else s

/-- Function `FreeValueIndex`: grow when the free list is empty, then pop its back.  (`back()` of
an empty vector is undefined; `free_list_ensureFree_ne_nil` shows the list is not
empty here, the `0` is never used for a pool whose capacity is a `size_t`.) -/
def FreeValueIndex (s : SlotVector T) : Nat × SlotVector T :=
  (s.ensureFree.free_list.getLastD 0,
   { s.ensureFree with free_list := s.ensureFree.free_list.dropLast })

/-- Function `insert(args...)`: take a free index, construct the object there, set its bit.
Returns the new pool and the handle `SlotId{index}`. -/
def insert (s : SlotVector T) (v : T) : SlotVector T × SlotId :=
  (SetStorageBit
      { s.FreeValueIndex.2 with
        values := s.FreeValueIndex.2.values.set s.FreeValueIndex.1 (some v) }
      s.FreeValueIndex.1,
   ⟨s.FreeValueIndex.1⟩)

/-- Function `erase(id)`: destroy and poison the object, push the index on the free list, reset
its bit.  The function makes no assertion. -/
def erase (s : SlotVector T) (id : SlotId) : SlotVector T :=
  ResetStorageBit
    { s with
      values := s.values.set id.index none
      free_list := s.free_list ++ [id.index] }
    id.index

/-- Bit `i` of a bitset given as its list of 64-bit words: the word `i / 64` exists and
its bit `i % 64` is set. -/
def bitAt (bs : List Nat) (i : Nat) : Bool :=
  decide (i / 64 < bs.length) && (bs.getD (i / 64) 0).testBit (i % 64)

/-- Slot `i` is marked present: the second and third assertion of `ValidateIndex`. -/
def present (s : SlotVector T) (i : Nat) : Bool :=
  decide (i / 64 < s.stored_bitset.length) && s.ReadStorageBit i

end SlotVector

/-! ## image_info_page_table.h, image_info_page_table.cpp -/

/-- The struct `ImageInfoPageTable::Entry`; `Info` stands for `ImageInfo`, `next` is a
`u32` and `gpu_addr` a `GPUVAddr` (`u64`). -/
structure Entry (Info : Type) where
  info : Info
  next : Nat
  gpu_addr : Nat

/-- The class `ImageInfoPageTable::Iterator` without its `table` pointer: the table is
passed to the member functions. -/
structure Iterator where
  gpu_addr : Nat
  id : Nat
deriving DecidableEq, Repr

/-- The data members of `ImageInfoPageTable`. -/
structure ImageInfoPageTable (Info : Type) where
  /-- Member `size_t entries_capacity`. -/
  entries_capacity : Nat
  /-- Member `std::unique_ptr<Entry[]> entries`, the allocated array. -/
  entries : List (Entry Info)
  /-- Member `u32 free_id`. -/
  free_id : Nat
  /-- Member `std::array<u32, NUM_PAGES> id_page_table`. -/
  id_page_table : List Nat

namespace ImageInfoPageTable

/-- The constant `ADDRESS_SPACE_BITS`. -/
def ADDRESS_SPACE_BITS : Nat := 40

/-- The constant `PAGE_BITS`. -/
def PAGE_BITS : Nat := 20

/-- The constant `NUM_PAGES`: `size_t(1) << (ADDRESS_SPACE_BITS - PAGE_BITS)`. -/
def NUM_PAGES : Nat := 1 <<< (ADDRESS_SPACE_BITS - PAGE_BITS)

/-- The constant `INVALID_ID`: `std::numeric_limits<u32>::max()`. -/
def INVALID_ID : Nat := 2 ^ 32 - 1

variable {Info : Type} [Inhabited Info]

/-- A value-initialised `Entry`, as `std::make_unique<Entry[]>` creates them. -/
def zeroEntry : Entry Info := { info := default, next := 0, gpu_addr := 0 }

/-- The constructor: `id_page_table.fill(INVALID_ID)`, the other members at their default
initialisers. -/
def new : ImageInfoPageTable Info :=
  { entries_capacity := 0
    entries := []
    free_id := INVALID_ID
    id_page_table := List.replicate NUM_PAGES INVALID_ID }

/-- The read `entries[id]`. -/
def entryAt (t : ImageInfoPageTable Info) (id : Nat) : Entry Info :=
  t.entries.getD id zeroEntry

/-- The read `id_page_table[page]`. -/
def headAt (t : ImageInfoPageTable Info) (page : Nat) : Nat :=
  t.id_page_table.getD page INVALID_ID

/-- The loop `while (id != INVALID_ID && entries[id].gpu_addr != gpu_addr) id = entries[id].next`
of `AddressLinkedList`, started at `id`.  The first argument bounds the number of times
the body runs; the result is `none` when that does not suffice. -/
def seek (t : ImageInfoPageTable Info) (gpu_addr : Nat) : Nat → Nat → Option Nat
  | 0, id =>
    if id ≠ INVALID_ID ∧ (t.entryAt id).gpu_addr ≠ gpu_addr then none else some id
  | fuel + 1, id =>
    if id ≠ INVALID_ID ∧ (t.entryAt id).gpu_addr ≠ gpu_addr then
      seek t gpu_addr fuel (t.entryAt id).next
    else some id

/-- The loop `do { id = entries[id].next; } while (id != INVALID_ID && entries[id].gpu_addr
!= gpu_addr)` of `Iterator::Next`, started at `id`.  The first argument bounds the number
of times the body runs. -/
def nextLoop (t : ImageInfoPageTable Info) (gpu_addr : Nat) : Nat → Nat → Option Nat
  | 0, _ => none
  | fuel + 1, id =>
    if (t.entryAt id).next ≠ INVALID_ID ∧
        (t.entryAt (t.entryAt id).next).gpu_addr ≠ gpu_addr then
      nextLoop t gpu_addr fuel (t.entryAt id).next
    else some (t.entryAt id).next

end ImageInfoPageTable

namespace Iterator

/-- Function `Iterator::Valid`: `id != INVALID_ID`. -/
def Valid (it : Iterator) : Bool := it.id != ImageInfoPageTable.INVALID_ID

/-- Function `Iterator::Info`: `table->entries[id].info`.  The table is the first argument. -/
def Info {I : Type} [Inhabited I] (t : ImageInfoPageTable I) (it : Iterator) : I :=
  (t.entryAt it.id).info

/-- Function `Iterator::Next`, with the bound on its loop.  The table is the second argument. -/
def Next {I : Type} [Inhabited I] (fuel : Nat) (t : ImageInfoPageTable I) (it : Iterator) :
    Option Iterator :=
  (t.nextLoop it.gpu_addr fuel it.id).map fun id => { gpu_addr := it.gpu_addr, id := id }

end Iterator

namespace ImageInfoPageTable

variable {Info : Type} [Inhabited Info]

/-- Function `Push(gpu_addr, info)`. -/
def Push (t : ImageInfoPageTable Info) (gpu_addr : Nat) (info : Info) : ImageInfoPageTable Info :=
  { t with
    free_id := (t.free_id + 1) % 2 ^ 32
    id_page_table := t.id_page_table.set (gpu_addr >>> PAGE_BITS) ((t.free_id + 1) % 2 ^ 32)
    entries := t.entries.set ((t.free_id + 1) % 2 ^ 32)
      { info := info, next := t.headAt (gpu_addr >>> PAGE_BITS), gpu_addr := gpu_addr } }

/-- Function `AddressLinkedList(gpu_addr)`, with the bound on its loop. -/
def AddressLinkedList (fuel : Nat) (t : ImageInfoPageTable Info) (gpu_addr : Nat) :
    Option Iterator :=
  (t.seek gpu_addr fuel (t.headAt (gpu_addr >>> PAGE_BITS))).map fun id =>
    { gpu_addr := gpu_addr, id := id }

/-- Function `Prepare(max_entries)`. -/
def Prepare (t : ImageInfoPageTable Info) (max_entries : Nat) : ImageInfoPageTable Info :=
  if t.entries_capacity < max_entries then
    { t with
      free_id := INVALID_ID
      entries_capacity := max_entries
      entries := List.replicate max_entries zeroEntry }
  else { t with free_id := INVALID_ID }

/-- Function `Restore(entry)`. -/
def Restore (t : ImageInfoPageTable Info) (entry : Entry Info) : ImageInfoPageTable Info :=
  { t with id_page_table := t.id_page_table.set (entry.gpu_addr >>> PAGE_BITS) INVALID_ID }

/-- The number of entries between `begin()` and `end()`: `free_id + 1U`, a `u32`. -/
def numEntries (t : ImageInfoPageTable Info) : Nat := (t.free_id + 1) % 2 ^ 32

/-- The entries of the range `[begin(), end())`. -/
def range (t : ImageInfoPageTable Info) : List (Entry Info) := t.entries.take t.numEntries

/-- A sequence of `Push` calls, one per (address, payload) pair, in order. -/
def pushAll (t : ImageInfoPageTable Info) (ps : List (Nat × Info)) : ImageInfoPageTable Info :=
  ps.foldl (fun t q => t.Push q.1 q.2) t

/-- The caller's loop over an iterator, `for (; it.Valid(); it.Next()) use(it.Info())`:
the list of the payloads `Info()` returns.  `fuel` bounds the calls of `Next`, `inner`
each loop inside `Next`. -/
def iterate (t : ImageInfoPageTable Info) (inner : Nat) : Nat → Iterator → Option (List Info)
  | 0, it => if it.Valid then none else some []
  | fuel + 1, it =>
    if it.Valid then
      (it.Next inner t).bind fun it2 => (iterate t inner fuel it2).map fun l => Iterator.Info t it :: l
    else some []

/-- The payloads yielded by `AddressLinkedList(gpu_addr)` and `Next()` until the iterator
is no longer `Valid()`. -/
def yielded (fuel : Nat) (t : ImageInfoPageTable Info) (gpu_addr : Nat) : Option (List Info) :=
  (t.AddressLinkedList fuel gpu_addr).bind fun it => t.iterate fuel fuel it

/-- The end of a pass: `Restore(e)` for every entry `e` of the range `[begin(), end())`,
in order. -/
def restoreAll (t : ImageInfoPageTable Info) : ImageInfoPageTable Info :=
  t.range.foldl Restore t

/-- Well-formed table objects: `entries` is an array of `entries_capacity` elements and
`id_page_table` an array of `NUM_PAGES` elements. -/
structure WF (t : ImageInfoPageTable Info) : Prop where
  len_entries : t.entries.length = t.entries_capacity
  len_heads : t.id_page_table.length = NUM_PAGES

/-- The two array accesses of `Push(gpu_addr, info)` are within bounds: `entries[free_id]`,
with the incremented `free_id`, and `id_page_table[gpu_addr >> PAGE_BITS]`. -/
def PushInBounds (t : ImageInfoPageTable Info) (gpu_addr : Nat) : Bool :=
  decide ((t.free_id + 1) % 2 ^ 32 < t.entries.length) &&
    decide (gpu_addr >>> PAGE_BITS < t.id_page_table.length)

/-- The payloads of the pushes `ps` made under the address `a`, most recent first. -/
def pushedUnder (ps : List (Nat × Info)) (a : Nat) : List Info :=
  ((ps.filter fun q => decide (q.1 = a)).map Prod.snd).reverse

/-- The invariant of a table in a pass that has seen `k` pushes since `Prepare`, the
page heads having been all empty at `Prepare`: the next push writes entry `k`, and
heads and links are empty or refer to earlier entries of the pass. -/
structure Pass (t : ImageInfoPageTable Info) (k : Nat) : Prop where
  wf : t.WF
  k_le : k ≤ t.entries.length
  k_lt : k < 2 ^ 32
  next_idx : (t.free_id + 1) % 2 ^ 32 = k
  heads : ∀ pg, t.headAt pg = INVALID_ID ∨ t.headAt pg < k
  links : ∀ i, i < k → (t.entryAt i).next = INVALID_ID ∨ (t.entryAt i).next < i

end ImageInfoPageTable

/-! ## texture_cache.h -/

namespace TextureCache

/-- The constant `PAGE_SHIFT`. -/
def PAGE_SHIFT : Nat := 20

/-- The constant `TICKS_TO_DESTROY`. -/
def TICKS_TO_DESTROY : Nat := 6

/-- The constant `RETURNS_BOOL` of `ForEachPage`,
`std::is_same_v<std::invoke_result<Func, u64>, bool>`: it compares the class
`std::invoke_result<Func, u64>` itself, not its member `type`, with `bool`, and these
are different types for every `Func`. -/
def RETURNS_BOOL : Bool := false

/-- The loop `for (u64 page = addr >> PAGE_SHIFT; page <= page_end; ++page)` of
`ForEachPage`, started at `page`.  The callback `func` is given by what it returns and
what it does to the state `σ` it captures.  The first argument bounds the number of
iterations. -/
def ForEachPageLoop {σ : Type} (page_end : Nat) (func : Nat → σ → Bool × σ) :
    Nat → Nat → σ → σ
  | 0, _, st => st
  | fuel + 1, page, st =>
    if page ≤ page_end then
      if RETURNS_BOOL then
        if (func page st).1 then (func page st).2
        else ForEachPageLoop page_end func fuel ((page + 1) % 2 ^ 64) (func page st).2
      else ForEachPageLoop page_end func fuel ((page + 1) % 2 ^ 64) (func page st).2
    else st

/-- The value `page_end` of `ForEachPage`: `(addr + size - 1) >> PAGE_SHIFT` in `u64`
arithmetic. -/
def pageEnd (addr size : Nat) : Nat :=
  (((addr + size) % 2 ^ 64 + 2 ^ 64 - 1) % 2 ^ 64) >>> PAGE_SHIFT

/-- `ForEachPage(addr, size, func)`.  The loop gets the bound `page_end + 1 - first`,
the number of pages from the first one to `page_end`; `ForEachPageLoop_fuel` shows that
the loop ends by its own condition within it. -/
def ForEachPage {σ : Type} (addr size : Nat) (func : Nat → σ → Bool × σ) (st : σ) : σ :=
  ForEachPageLoop (pageEnd addr size) func
    (pageEnd addr size + 1 - (addr >>> PAGE_SHIFT)) (addr >>> PAGE_SHIFT) st

/-- Modelled from the spec: the class `DelayedDestructionRing<T, TICKS_TO_DESTROY>` of
delayed_destruction_ring.h, which is not among the sources; texture_cache.h declares the
three rings `sentenced_images`, `sentenced_image_view` and `sentenced_framebuffers`
with `TICKS_TO_DESTROY = 6`.  The spec: an erased object "is moved into a fixed-depth
ring (depth = a small constant, e.g. 6) indexed by a monotonically advancing tick".
The ring has one slot per tick of its depth; slot `tick % TICKS_TO_DESTROY` is the one
of the current tick. -/
structure DelayedDestructionRing (T : Type) where
  tick : Nat
  elements : List (List T)

namespace DelayedDestructionRing

variable {T : Type}

/-- Modelled from the spec: the ring at construction, all slots empty. -/
def new : DelayedDestructionRing T :=
  { tick := 0, elements := List.replicate TICKS_TO_DESTROY [] }

/-- Modelled from the spec: the move of an erased object into the ring ("it is moved
into a fixed-depth ring ... indexed by a monotonically advancing tick"): the object
joins the slot of the current tick. -/
def Push (r : DelayedDestructionRing T) (object : T) : DelayedDestructionRing T :=
  { r with
    elements := r.elements.set (r.tick % TICKS_TO_DESTROY)
      (r.elements.getD (r.tick % TICKS_TO_DESTROY) [] ++ [object]) }

/-- Modelled from the spec: the part of `TickFrame` on one ring, which "advances the tick
and destroys whatever fell out of the ring's trailing edge": the slot the new tick takes
over held the objects moved in `TICKS_TO_DESTROY` ticks ago.  Returns the ring and
the objects destroyed. -/
def Tick (r : DelayedDestructionRing T) : DelayedDestructionRing T × List T :=
  ({ tick := r.tick + 1
     elements := r.elements.set ((r.tick + 1) % TICKS_TO_DESTROY) [] },
   r.elements.getD ((r.tick + 1) % TICKS_TO_DESTROY) [])

/-- A sequence of operations on one ring: `some y` moves the erased object `y` into
the ring, `none` is a `TickFrame`.  Returns the ring and, in order, the objects
destroyed on the way. -/
def run (r : DelayedDestructionRing T) : List (Option T) → DelayedDestructionRing T × List T
  | [] => (r, [])
  | some y :: ops => run (r.Push y) ops
  | none :: ops => ((run r.Tick.1 ops).1, r.Tick.2 ++ (run r.Tick.1 ops).2)

/-- The number of `TickFrame`s in a sequence of operations on a ring. -/
def ticks : List (Option T) → Nat
  | [] => 0
  | some _ :: ops => ticks ops
  | none :: ops => ticks ops + 1

end DelayedDestructionRing

/-- Two guest ranges `[a, a + s)` and `[b, b + t)` intersect. -/
def rangesIntersect (a s b t : Nat) : Bool := decide (a < b + t) && decide (b < a + s)

/-- Modelled from the spec: the flags of an Image, "flags {registered, tracked,
gpu-modified, cpu-modified}" (the class `ImageBase` is not among the sources). -/
structure ImageFlags where
  registered : Bool
  tracked : Bool
  gpu_modified : Bool
  cpu_modified : Bool
deriving DecidableEq, Repr

/-- Modelled from the spec: an Image, "Attributes: guest GPU virtual address, guest CPU
virtual address (for invalidation), shape/format/mip-level descriptor (ImageInfo), a
modification tick, flags".  Its guest ranges are `[gpu_addr, gpu_addr + guest_size_bytes)`
and `[cpu_addr, cpu_addr + guest_size_bytes)`. -/
structure ImageBase (Info : Type) where
  info : Info
  gpu_addr : Nat
  cpu_addr : Nat
  guest_size_bytes : Nat
  modification_tick : Nat
  flags : ImageFlags
deriving DecidableEq, Repr

/-- The image with its cpu-modified flag set. -/
def ImageBase.markCpuModified {Info : Type} (image : ImageBase Info) : ImageBase Info :=
  { image with flags := { image.flags with cpu_modified := true } }

namespace ImageRegistry

variable {Info : Type}

end ImageRegistry

/-- Modelled from the spec: what overlap resolution does with an Image it removes:
"copy the old Image's content into it via the backend's copy path, and evict the old
Image" (merge), or "if the existing Image is GPU-modified, flush its content back to
guest memory before unregistering it" (flush), or unregister it alone (drop). -/
inductive Resolution where
  | merge (old : SlotId)
  | flush (old : SlotId)
  | drop (old : SlotId)
deriving DecidableEq, Repr

/-- Modelled from the spec: the collaborators `FindOrInsertImage` asks: the size of
the guest range of an image of a given ImageInfo, the translation of a GPU address to
the CPU address, the relaxed compatibility rule selected by the options ("a relaxed
subset allowing mip/layer/format differences the backend can reinterpret"), and whether
two formats are copy-compatible. -/
structure ImageRules (Info Options : Type) where
  guestSize : Info → Nat
  toCpu : Nat → Nat
  relaxed : Options → Info → Nat → ImageBase Info → Bool
  copyCompatible : Info → Info → Bool

/-- Modelled from the spec: the images of the cache as `FindOrInsertImage` sees them: the
pool `slot_images`, the live (registered) Images with their handles, the counter
`modification_tick`, and the log of what overlap resolution asked of the backend.  The
functions are declared in texture_cache.h and defined in texture_cache.inl, which is
not among the sources. -/
structure ImageCache (Info : Type) where
  slot_images : SlotVector (ImageBase Info)
  live : List (SlotId × ImageBase Info)
  modification_tick : Nat
  resolved : List Resolution

namespace ImageCache

variable {Info Options : Type} [DecidableEq Info]

/-- Modelled from the spec: the cache without images. -/
def new : ImageCache Info :=
  { slot_images := SlotVector.empty, live := [], modification_tick := 0, resolved := [] }

/-- Modelled from the spec: step 1, "all Image handles whose range intersects
`[gpu_addr, gpu_addr+size)`", the size being that of the requested `info`. -/
def candidates (rules : ImageRules Info Options) (c : ImageCache Info) (info : Info)
    (gpu_addr : Nat) : List (SlotId × ImageBase Info) :=
  c.live.filter fun e =>
    rangesIntersect e.2.gpu_addr e.2.guest_size_bytes gpu_addr (rules.guestSize info)

/-- Modelled from the spec: the exact match of a candidate with the request. -/
def exact (info : Info) (gpu_addr : Nat) (e : SlotId × ImageBase Info) : Bool :=
  decide (e.2.gpu_addr = gpu_addr) && decide (e.2.info = info)

/-- Modelled from the spec: "among relaxed matches, the most recently modified candidate
wins". -/
def mostRecent : List (SlotId × ImageBase Info) → Option (SlotId × ImageBase Info)
  | [] => none
  | e :: es =>
    match mostRecent es with
    | none => some e
    | some b => if b.2.modification_tick ≤ e.2.modification_tick then some e else some b

/-- Modelled from the spec: `FindImage`, step 2 with the tie-break rule: a candidate that
matches `info` under the rule selected by `options` is returned, "exact-info matches are
always preferred over relaxed matches; among relaxed matches, the most recently modified
candidate wins". -/
def FindImage (rules : ImageRules Info Options) (c : ImageCache Info) (info : Info)
    (gpu_addr : Nat) (options : Options) : Option SlotId :=
  match (candidates rules c info gpu_addr).find? (exact info gpu_addr) with
  | some e => some e.1
  | none =>
    (mostRecent ((candidates rules c info gpu_addr).filter
      fun e => rules.relaxed options info gpu_addr e.2)).map Prod.fst

/-- Modelled from the spec: what step 3 decides for a candidate: merge "if the new
request's range is a superset of an existing Image's range and formats are
copy-compatible", evict otherwise, with a flush if the image is GPU-modified. -/
def resolve (rules : ImageRules Info Options) (info : Info) (gpu_addr : Nat)
    (e : SlotId × ImageBase Info) : Resolution :=
  if gpu_addr ≤ e.2.gpu_addr ∧
      e.2.gpu_addr + e.2.guest_size_bytes ≤ gpu_addr + rules.guestSize info ∧
      rules.copyCompatible info e.2.info = true then Resolution.merge e.1
  else if e.2.flags.gpu_modified then Resolution.flush e.1
  else Resolution.drop e.1

/-- Modelled from the spec: `InsertImage`, steps 3 and 4: "for every candidate whose range
intersects but does not exactly match" the merge or the eviction, both of which remove the
old Image; then "Insert a new Image (fresh Slot Pool entry), register it across every
page it overlaps, and return its handle". -/
def InsertImage (rules : ImageRules Info Options) (c : ImageCache Info) (info : Info)
    (gpu_addr : Nat) : ImageCache Info × SlotId :=
  let victims := (candidates rules c info gpu_addr).filter fun e => !exact info gpu_addr e
  let pool := victims.foldl (fun sv e => sv.erase e.1) c.slot_images
  let image : ImageBase Info :=
    { info := info, gpu_addr := gpu_addr, cpu_addr := rules.toCpu gpu_addr,
      guest_size_bytes := rules.guestSize info, modification_tick := c.modification_tick + 1,
      flags := { registered := true, tracked := true, gpu_modified := false,
                 cpu_modified := true } }
  ({ slot_images := (pool.insert image).1
     live := ((pool.insert image).2, image) ::
       c.live.filter fun e =>
         !(rangesIntersect e.2.gpu_addr e.2.guest_size_bytes gpu_addr (rules.guestSize info) &&
           !exact info gpu_addr e)
     modification_tick := c.modification_tick + 1
     resolved := c.resolved ++ victims.map (resolve rules info gpu_addr) },
   (pool.insert image).2)

/-- Modelled from the spec: `FindOrInsertImage(info, gpu_addr, options)`: the cache hit
of step 2, or else the overlap resolution and the insertion. -/
def FindOrInsertImage (rules : ImageRules Info Options) (c : ImageCache Info) (info : Info)
    (gpu_addr : Nat) (options : Options) : ImageCache Info × SlotId :=
  match FindImage rules c info gpu_addr options with
  | some id => (c, id)
  | none => InsertImage rules c info gpu_addr

/-- A sequence of `FindOrInsertImage` calls, each with its `info`, address and options. -/
def findOrInsertAll (rules : ImageRules Info Options) (c : ImageCache Info)
    (requests : List (Info × Nat × Options)) : ImageCache Info :=
  requests.foldl (fun c r => (FindOrInsertImage rules c r.1 r.2.1 r.2.2).1) c

/-- No two live Images have intersecting guest ranges. -/
def NoOverlap (c : ImageCache Info) : Prop :=
  c.live.Pairwise fun a b =>
    rangesIntersect a.2.gpu_addr a.2.guest_size_bytes b.2.gpu_addr b.2.guest_size_bytes = false

/-- An example of collaborators: the ImageInfo is the size in bytes, addresses translate to
themselves, nothing matches but the exact image. -/
def exampleRules : ImageRules Nat Unit :=
  { guestSize := fun info => info, toCpu := fun a => a, relaxed := fun _ _ _ _ => false,
    copyCompatible := fun _ _ => false }

end ImageCache

/-- Modelled from the spec: the framebuffer cache.  texture_cache.h declares the members
`render_targets`, `framebuffers` (an `unordered_map<RenderTargets, FramebufferId>`, here
an association list) and `slot_framebuffers`; the bodies of `GetFramebuffer` and
`GetFramebufferId` are in texture_cache.inl, which is not among the sources.  The
field `created` counts the framebuffers the backend has been asked to construct. -/
structure FramebufferCache (RenderTargets Framebuffer : Type) where
  render_targets : RenderTargets
  framebuffers : List (RenderTargets × SlotId)
  slot_framebuffers : SlotVector Framebuffer
  created : Nat

namespace FramebufferCache

variable {RenderTargets Framebuffer : Type} [DecidableEq RenderTargets]

/-- Modelled from the spec: a cache with no framebuffer, bound to the render targets
`key`. -/
def new (key : RenderTargets) : FramebufferCache RenderTargets Framebuffer :=
  { render_targets := key, framebuffers := [], slot_framebuffers := SlotVector.empty,
    created := 0 }

/-- Modelled from the spec: `GetFramebufferId(key)`, "on hit return the cached handle; on
miss, ask the backend collaborator to construct a new Framebuffer from the bound
ImageViews and insert it".  The backend constructor is `create`; the new framebuffer
goes into the pool `slot_framebuffers` through `SlotVector::insert`. -/
def GetFramebufferId (create : RenderTargets → Framebuffer)
    (c : FramebufferCache RenderTargets Framebuffer) (key : RenderTargets) :
    FramebufferCache RenderTargets Framebuffer × SlotId :=
  match c.framebuffers.lookup key with
  | some id => (c, id)
  | none =>
    ({ c with
       framebuffers := (key, (c.slot_framebuffers.insert (create key)).2) :: c.framebuffers
       slot_framebuffers := (c.slot_framebuffers.insert (create key)).1
       created := c.created + 1 },
     (c.slot_framebuffers.insert (create key)).2)

/-- Modelled from the spec: `GetFramebuffer()`, which looks up "the current RenderTargets
key", the member `render_targets`. -/
def GetFramebuffer (create : RenderTargets → Framebuffer)
    (c : FramebufferCache RenderTargets Framebuffer) :
    FramebufferCache RenderTargets Framebuffer × SlotId :=
  GetFramebufferId create c c.render_targets

/-- Requests for the framebuffers of the keys `ks`, one after the other. -/
def requestAll (create : RenderTargets → Framebuffer)
    (c : FramebufferCache RenderTargets Framebuffer) (ks : List RenderTargets) :
    FramebufferCache RenderTargets Framebuffer :=
  ks.foldl (fun c k => (GetFramebufferId create c k).1) c

end FramebufferCache

end TextureCache

/-- The pools a sequence of `insert` and `erase` calls produces from the empty pool, where
every `erase` is applied to a live handle.  `Reach s L p`: the calls lead to the pool `s`,
`L` lists the live handles (returned by an `insert` and not erased since, most recent
first) and `p` is the largest number of handles that were live at the same time. -/
inductive Reach {T : Type} : SlotVector T → List SlotId → Nat → Prop
  | empty : Reach SlotVector.empty [] 0
  | insert {s : SlotVector T} {L : List SlotId} {p : Nat} (v : T) :
      Reach s L p → Reach (s.insert v).1 ((s.insert v).2 :: L) (max p (L.length + 1))
  | erase {s : SlotVector T} {L : List SlotId} {p : Nat} (h : SlotId) :
      Reach s L p → h ∈ L → Reach (s.erase h) (L.erase h) p

/-- The representation invariant of a pool `s` with live handles `L` of which at most
`p` were live at the same time.  The fields before `strong` hold while the `size_t`
arithmetic is exact; `strong` holds while the `u32` indices have not wrapped. -/
structure Inv {T : Type} (s : SlotVector T) (L : List SlotId) (p : Nat) : Prop where
  len_values : s.values.length = s.values_capacity
  words_lt : ∀ w ∈ s.stored_bitset, w < 2 ^ 64
  len_bitset : s.stored_bitset.length = (s.values_capacity + 63) / 64
  count : L.length + s.free_list.length = s.values_capacity
  len_le : L.length ≤ p
  cap_pow : s.values_capacity = 0 ∨
    ((∃ k, s.values_capacity = 2 ^ k) ∧ s.values_capacity < 2 * p)
  free_lt : ∀ x ∈ s.free_list, x < 2 ^ 32
  live_lt : ∀ h ∈ L, h.index < 2 ^ 32
  bit_lt : ∀ i, SlotVector.bitAt s.stored_bitset i = true → i < 2 ^ 32
  strong : p ≤ 2 ^ 32 →
    (s.free_list ++ L.map SlotId.index).Perm (List.range s.values_capacity) ∧
    (∀ i, SlotVector.bitAt s.stored_bitset i = true ↔ (⟨i⟩ : SlotId) ∈ L) ∧
    (∀ h ∈ L, ∃ v, s.values.getD h.index none = some v)

/-- The pool and the list of live handles after `n` calls `insert(v)` on the empty pool. -/
def SlotVector.insertMany {T : Type} (v : T) : Nat → SlotVector T × List SlotId
  | 0 => (SlotVector.empty, [])
  | n + 1 =>
    (((SlotVector.insertMany v n).1.insert v).1,
     ((SlotVector.insertMany v n).1.insert v).2 :: (SlotVector.insertMany v n).2)

end VideoCommon

/-! ## common/div_ceil.h -/

namespace Common

/-- Function `DivCeil(number, divisor)`: `(number + divisor - 1) / divisor`, here for
`number` and `divisor` of one unsigned type of `w` bits, in which the sum and the
difference wrap.  A division by zero is undefined: `none`. -/
def DivCeil (w number divisor : Nat) : Option Nat :=
  if divisor = 0 then none
  else some ((((number + divisor) % 2 ^ w + 2 ^ w - 1) % 2 ^ w) / divisor)

/-- Function `DivCeilLog2(value, alignment_log2)`:
`(value + (N(1) << alignment_log2) - 1) >> alignment_log2`, for an unsigned type `N` of `w`
bits.  A shift by `w` or more is undefined: `none`. -/
def DivCeilLog2 (w value alignment_log2 : Nat) : Option Nat :=
  if w ≤ alignment_log2 then none
  else some
    ((((value + (1 <<< alignment_log2) % 2 ^ w) % 2 ^ w + 2 ^ w - 1) % 2 ^ w) >>>
      alignment_log2)

end Common

/-! ## video_core/command_classes/codecs/vp9.h, vp9.cpp, vp9_types.h -/

namespace Tegra.Decoder

namespace VP9

/-- The table `map_lut` of 254 entries. -/
def map_lut : List Int :=
  [20,  21,  22,  23,  24,  25,  0,   26,  27,  28,  29,  30,  31,  32,  33,  34,  35,
   36,  37,  1,   38,  39,  40,  41,  42,  43,  44,  45,  46,  47,  48,  49,  2,   50,
   51,  52,  53,  54,  55,  56,  57,  58,  59,  60,  61,  3,   62,  63,  64,  65,  66,
   67,  68,  69,  70,  71,  72,  73,  4,   74,  75,  76,  77,  78,  79,  80,  81,  82,
   83,  84,  85,  5,   86,  87,  88,  89,  90,  91,  92,  93,  94,  95,  96,  97,  6,
   98,  99,  100, 101, 102, 103, 104, 105, 106, 107, 108, 109, 7,   110, 111, 112, 113,
   114, 115, 116, 117, 118, 119, 120, 121, 8,   122, 123, 124, 125, 126, 127, 128, 129,
   130, 131, 132, 133, 9,   134, 135, 136, 137, 138, 139, 140, 141, 142, 143, 144, 145,
   10,  146, 147, 148, 149, 150, 151, 152, 153, 154, 155, 156, 157, 11,  158, 159, 160,
   161, 162, 163, 164, 165, 166, 167, 168, 169, 12,  170, 171, 172, 173, 174, 175, 176,
   177, 178, 179, 180, 181, 13,  182, 183, 184, 185, 186, 187, 188, 189, 190, 191, 192,
   193, 14,  194, 195, 196, 197, 198, 199, 200, 201, 202, 203, 204, 205, 15,  206, 207,
   208, 209, 210, 211, 212, 213, 214, 215, 216, 217, 16,  218, 219, 220, 221, 222, 223,
   224, 225, 226, 227, 228, 229, 17,  230, 231, 232, 233, 234, 235, 236, 237, 238, 239,
   240, 241, 18,  242, 243, 244, 245, 246, 247, 248, 249, 250, 251, 252, 253, 19]

/-- Function `RecenterNonNeg(new_prob, old_prob)`.  The `s32` arguments are integers; the
callers pass values between -1 and 254, for which no operation overflows. -/
def RecenterNonNeg (new_prob old_prob : Int) : Int :=
  if new_prob > old_prob * 2 then new_prob
  else if new_prob ≥ old_prob then (new_prob - old_prob) * 2
  else (old_prob - new_prob) * 2 - 1

/-- The local `index` of `RemapProbability(new_prob, old_prob)`, computed after the two
decrements `new_prob--` and `old_prob--`. -/
def remapIndex (new_prob old_prob : Int) : Int :=
  if (old_prob - 1) * 2 ≤ 0xff then RecenterNonNeg (new_prob - 1) (old_prob - 1) - 1
  else RecenterNonNeg (0xff - 1 - (new_prob - 1)) (0xff - 1 - (old_prob - 1)) - 1

/-- Function `RemapProbability(new_prob, old_prob)`: `map_lut[index]`; `none` when the
index is outside of the array. -/
def RemapProbability (new_prob old_prob : Int) : Option Int :=
  if 0 ≤ remapIndex new_prob old_prob then map_lut[(remapIndex new_prob old_prob).toNat]?
  else none

end VP9

/-- The operation `x >> s` on an `s32`, which is here the number below `2 ^ 32` of its two's
complement bits: the arithmetic shift, which copies the sign bit into the vacated
positions.  For `x` of at least `2 ^ 31`, a negative `s32`, the `s` bits above the 32 are
set before the shift. -/
def sar32 (x s : Nat) : Nat :=
  if x < 2 ^ 31 then x >>> s else (x + (2 ^ s - 1) * 2 ^ 32) >>> s

/-- The data members of `VpxBitStreamWriter`.  The `s32` members `buffer_size` and
`buffer_pos` are counters that stay between 0 and 8; `buffer` is the number of its bits;
the bytes of `byte_array` are numbers. -/
structure VpxBitStreamWriter where
  buffer_size : Nat
  buffer : Nat
  buffer_pos : Nat
  byte_array : List Nat
deriving DecidableEq, Repr

namespace VpxBitStreamWriter

/-- The writer at construction: `buffer_size{8}`, `buffer{}`, `buffer_pos{}`, no byte. -/
def new : VpxBitStreamWriter :=
  { buffer_size := 8, buffer := 0, buffer_pos := 0, byte_array := [] }

/-- Function `Flush()`; `static_cast<u8>(buffer)` keeps the low 8 bits. -/
def Flush (w : VpxBitStreamWriter) : VpxBitStreamWriter :=
  if w.buffer_pos = 0 then w
  else { w with byte_array := w.byte_array ++ [w.buffer % 2 ^ 8], buffer := 0, buffer_pos := 0 }

/-- Function `GetFreeBufferBits()`: the writer, flushed if the buffer was full, and
`buffer_size - buffer_pos`. -/
def GetFreeBufferBits (w : VpxBitStreamWriter) : VpxBitStreamWriter × Nat :=
  if w.buffer_pos = w.buffer_size then (w.Flush, w.Flush.buffer_size - w.Flush.buffer_pos)
  else (w, w.buffer_size - w.buffer_pos)

/-- The loop `while (remaining > 0)` of `WriteBits(value, bit_count)`, with the locals
`value_pos` and `remaining`.  `value` is an `s32`, the counters are `s32` that stay
between 0 and 32, so that no difference is negative.  The first argument bounds the
number of times the body runs; the result is `none` when that does not suffice. -/
def WriteBitsLoop (value bit_count : Nat) :
    Nat → VpxBitStreamWriter → Nat → Nat → Option VpxBitStreamWriter
  | 0, w, _, remaining => if remaining > 0 then none else some w
  | fuel + 1, w, value_pos, remaining =>
    if remaining > 0 then
      let free := (GetFreeBufferBits w).2
      let w := (GetFreeBufferBits w).1
      let copy_size := if remaining > free then free else remaining
      let mask := (1 <<< copy_size) % 2 ^ 32 - 1
      let src_shift := (bit_count - value_pos) - copy_size
      let dst_shift := (w.buffer_size - w.buffer_pos) - copy_size
      WriteBitsLoop value bit_count fuel
        { w with
          buffer := w.buffer ||| (((sar32 value src_shift) &&& mask) <<< dst_shift) % 2 ^ 32
          buffer_pos := w.buffer_pos + copy_size }
        (value_pos + copy_size) (remaining - copy_size)
    else some w

/-- Function `WriteBits(value, bit_count)`.  The loop copies at least one bit each time
its body runs, so `bit_count` bounds its runs. -/
def WriteBits (w : VpxBitStreamWriter) (value bit_count : Nat) : Option VpxBitStreamWriter :=
  WriteBitsLoop value bit_count bit_count w 0 bit_count

/-- Function `WriteU(value, valueSize)`. -/
def WriteU (w : VpxBitStreamWriter) (value valueSize : Nat) : Option VpxBitStreamWriter :=
  w.WriteBits value valueSize

/-- A sequence of `WriteU(v, n)` calls, one per pair `(v, n)`, in order. -/
def writeAll : VpxBitStreamWriter → List (Nat × Nat) → Option VpxBitStreamWriter
  | w, [] => some w
  | w, c :: cs => (w.WriteU c.1 c.2).bind fun w2 => writeAll w2 cs

end VpxBitStreamWriter

/-- As the claim words it: the low `n` bits of `v`, the most significant first. -/
def lowBits (v n : Nat) : List Bool :=
  (List.range n).map fun j => v.testBit (n - 1 - j)

/-- As the claim words it: the byte of eight bits, packed from the most significant bit
down. -/
def byteOfBits (b0 b1 b2 b3 b4 b5 b6 b7 : Bool) : Nat :=
  b0.toNat * 128 + b1.toNat * 64 + b2.toNat * 32 + b3.toNat * 16 + b4.toNat * 8 +
    b5.toNat * 4 + b6.toNat * 2 + b7.toNat

/-- As the claim words it: the bits packed into bytes, eight per byte, the last byte
padded with zero bits when fewer than eight bits are left for it; the number of bytes
is the ceiling of the number of bits over 8. -/
def packBits (bits : List Bool) : List Nat :=
  (List.range ((bits.length + 7) / 8)).map fun i =>
    byteOfBits (bits.getD (8 * i) false) (bits.getD (8 * i + 1) false)
      (bits.getD (8 * i + 2) false) (bits.getD (8 * i + 3) false)
      (bits.getD (8 * i + 4) false) (bits.getD (8 * i + 5) false)
      (bits.getD (8 * i + 6) false) (bits.getD (8 * i + 7) false)

/-- The writer `w` holds the bits `bs`: the bytes flushed hold the first bits, eight
each, and the top `buffer_pos` bits of the low byte of `buffer` the rest; all other bits
of `buffer` are zero. -/
structure VpxBitStreamWriter.Rep (w : VpxBitStreamWriter) (bs : List Bool) : Prop where
  size : w.buffer_size = 8
  pos_le : w.buffer_pos ≤ 8
  len : bs.length = 8 * w.byte_array.length + w.buffer_pos
  bytes : ∀ i, i < w.byte_array.length → ∀ m,
    (w.byte_array.getD i 0).testBit m = (decide (m < 8) && bs.getD (8 * i + (7 - m)) false)
  buf : ∀ m,
    w.buffer.testBit m =
      (decide (m < 8) && bs.getD (8 * w.byte_array.length + (7 - m)) false)

/-- The members of `Vp9PictureInfo` that `GetCurrentFrame` reads or writes;
`bitstream_size` is a `u32`, and `rest` stands for the other members, which the function
only copies. -/
structure Vp9PictureInfo (Rest : Type) where
  last_frame_shown : Bool
  show_frame : Bool
  bitstream_size : Nat
  rest : Rest

/-- The struct `Vp9FrameContainer`; the bytes of `bit_stream` are numbers. -/
structure Vp9FrameContainer (Rest : Type) where
  info : Vp9PictureInfo Rest
  bit_stream : List Nat

/-- The members `next_frame` and `next_next_frame` of the class `VP9`. -/
structure VP9 (Rest : Type) where
  next_frame : Vp9FrameContainer Rest
  next_next_frame : Vp9FrameContainer Rest

namespace VP9

variable {Rest : Type}

/-- The value-initialised container, `Vp9FrameContainer frame{}`. -/
def emptyFrame [Inhabited Rest] : Vp9FrameContainer Rest :=
  { info := { last_frame_shown := false, show_frame := false, bitstream_size := 0,
              rest := default },
    bit_stream := [] }

/-- The two members at construction, `next_frame{}` and `next_next_frame{}`. -/
def new [Inhabited Rest] : VP9 Rest :=
  { next_frame := emptyFrame, next_next_frame := emptyFrame }

/-- The first block of `GetCurrentFrame`, which fills `frame`: `info` is what
`GetVp9PictureInfo(state)` returns and `memory i` the byte that `ReadBlock` reads at
`state.frame_bitstream_offset + i`; the bit stream is resized to `bitstream_size`
bytes and read. -/
def readFrame (info : Vp9PictureInfo Rest) (memory : Nat → Nat) : Vp9FrameContainer Rest :=
  { info := info, bit_stream := (List.range info.bitstream_size).map memory }

/-- Function `GetCurrentFrame(state)`, after the read of `frame`.  Returns the frame and
the two members. -/
def GetCurrentFrame (c : VP9 Rest) (info : Vp9PictureInfo Rest) (memory : Nat → Nat) :
    Vp9FrameContainer Rest × VP9 Rest :=
  let frame := readFrame info memory
  if c.next_next_frame.bit_stream.length ≠ 0 then
    let temp := frame
    let next_next_frame : Vp9FrameContainer Rest :=
      { c.next_next_frame with
        info := { c.next_next_frame.info with show_frame := frame.info.last_frame_shown } }
    let frame := next_next_frame
    let next_next_frame := temp
    if c.next_frame.bit_stream.length ≠ 0 then
      let temp := frame
      let next_frame : Vp9FrameContainer Rest :=
        { c.next_frame with
          info := { c.next_frame.info with show_frame := frame.info.last_frame_shown } }
      let frame := next_frame
      let next_frame := temp
      (frame, { next_frame := next_frame, next_next_frame := next_next_frame })
    else
      (frame, { next_frame := frame, next_next_frame := next_next_frame })
  else
    (frame, { c with next_next_frame := frame })

/-- The frames returned by successive calls of `GetCurrentFrame`, one per submitted
frame. -/
def getFrames (c : VP9 Rest) :
    List (Vp9PictureInfo Rest × (Nat → Nat)) → List (Vp9FrameContainer Rest)
  | [] => []
  | x :: xs => (GetCurrentFrame c x.1 x.2).1 :: getFrames (GetCurrentFrame c x.1 x.2).2 xs

/-- The frame `f` with its `show_frame` flag replaced. -/
def withShowFrame (f : Vp9FrameContainer Rest) (show_frame : Bool) : Vp9FrameContainer Rest :=
  { f with info := { f.info with show_frame := show_frame } }

/-- The frames two frames behind: for the submitted frames `a`, `b` and then `xs`, the
frame `a` with the flag of `b`, the frame `b` with the flag of the first of `xs`, and so
on, one per element of `xs`. -/
def delayed (a b : Vp9PictureInfo Rest × (Nat → Nat)) :
    List (Vp9PictureInfo Rest × (Nat → Nat)) → List (Vp9FrameContainer Rest)
  | [] => []
  | x :: xs => withShowFrame (readFrame a.1 a.2) b.1.last_frame_shown :: delayed b x xs

/-- An example: three submitted frames of 1, 2 and 1 bytes, the second with
`last_frame_shown` set. -/
def exampleFrames : List (Vp9PictureInfo Unit × (Nat → Nat)) :=
  [({ last_frame_shown := false, show_frame := false, bitstream_size := 1, rest := () },
    fun _ => 0x11),
   ({ last_frame_shown := true, show_frame := false, bitstream_size := 2, rest := () },
    fun _ => 0x22),
   ({ last_frame_shown := false, show_frame := false, bitstream_size := 1, rest := () },
    fun _ => 0x33)]

end VP9

end Tegra.Decoder

/-! ## core/hle/service/nvdrv/devices/nvhost_vic.h, nvhost_vic.cpp -/

namespace Service.Nvidia.Devices

namespace nvhost_vic

/-- The data members of the class `BufferMap`; the addresses are `u64`. -/
structure BufferMap where
  start_addr : Nat
  end_addr : Nat
  cpu_addr : Nat
  is_allocated : Bool
deriving DecidableEq, Repr

namespace BufferMap

/-- The constructor `BufferMap(start_addr, size, cpu_addr, is_allocated)`:
`end_addr{start_addr + size}`, a `u64` sum. -/
def new (start_addr size cpu_addr : Nat) (is_allocated : Bool) : BufferMap :=
  { start_addr := start_addr, end_addr := (start_addr + size) % 2 ^ 64, cpu_addr := cpu_addr,
    is_allocated := is_allocated }

/-- Function `StartAddr()`. -/
def StartAddr (m : BufferMap) : Nat := m.start_addr

/-- Function `EndAddr()`. -/
def EndAddr (m : BufferMap) : Nat := m.end_addr

end BufferMap

/-- The call `buffer_mappings.upper_bound(key)` of the `std::map<GPUVAddr, BufferMap>`
member `buffer_mappings`.  The map is the list of its (key, value) pairs in ascending
order of the keys; an iterator is a position in it, `end()` is its length.  The result
is the position of the first pair whose key is greater than `key`, or `end()`. -/
def upper_bound (buffer_mappings : List (Nat × BufferMap)) (key : Nat) : Nat :=
  buffer_mappings.findIdx fun entry => decide (key < entry.1)

/-- The call `std::find_if(begin(), last, pred)`: the first position before `last` whose
pair satisfies `pred`, or `last`. -/
def find_if (buffer_mappings : List (Nat × BufferMap)) (last : Nat)
    (pred : Nat × BufferMap → Bool) : Nat :=
  (buffer_mappings.take last).findIdx pred

/-- Function `FindBufferMap(gpu_addr)`.  The outer `none` is the failure of
`ASSERT(it != buffer_mappings.end())`, which stops the call; otherwise the result is the
`std::optional<BufferMap>` returned, `it->second`. -/
def FindBufferMap (buffer_mappings : List (Nat × BufferMap)) (gpu_addr : Nat) :
    Option (Option BufferMap) :=
  if find_if buffer_mappings (upper_bound buffer_mappings gpu_addr)
      (fun entry => decide (gpu_addr ≥ entry.2.StartAddr) && decide (gpu_addr < entry.2.EndAddr)) =
      buffer_mappings.length then none
  else
    some ((buffer_mappings[find_if buffer_mappings (upper_bound buffer_mappings gpu_addr)
      (fun entry => decide (gpu_addr ≥ entry.2.StartAddr) &&
        decide (gpu_addr < entry.2.EndAddr))]?).map Prod.snd)

/-- The call `insert_or_assign(key, value)` of the ordered map. -/
def insert_or_assign : List (Nat × BufferMap) → Nat → BufferMap → List (Nat × BufferMap)
  | [], key, value => [(key, value)]
  | entry :: rest, key, value =>
    if key < entry.1 then (key, value) :: entry :: rest
    else if key = entry.1 then (key, value) :: rest
    else entry :: insert_or_assign rest key value

/-- Function `AddBufferMap(gpu_addr, size, cpu_addr, is_allocated)`. -/
def AddBufferMap (buffer_mappings : List (Nat × BufferMap)) (gpu_addr size cpu_addr : Nat)
    (is_allocated : Bool) : List (Nat × BufferMap) :=
  insert_or_assign buffer_mappings gpu_addr (BufferMap.new gpu_addr size cpu_addr is_allocated)

end nvhost_vic

end Service.Nvidia.Devices

namespace VideoCommon

/-! # Theorems -/

/-! ### Bit-level facts -/

theorem shiftRight_and_one_ne_zero (w k : Nat) :
    (((w >>> k) &&& 1) != 0) = w.testBit k := by
  unfold Nat.testBit
  rw [Nat.and_comm]

theorem getD_set_eq {α : Type} (l : List α) (i j : Nat) (a d : α) :
    (l.set i a).getD j d = if i = j ∧ i < l.length then a else l.getD j d := by
  simp only [List.getD_eq_getElem?_getD, List.getElem?_set]
  by_cases h : i = j
  · subst h
    by_cases h2 : i < l.length
    · simp [h2]
    · simp [h2, List.getElem?_eq_none (Nat.le_of_not_lt h2)]
  · simp [h]

theorem getD_word_lt {bs : List Nat} (h : ∀ w ∈ bs, w < 2 ^ 64) (j : Nat) :
    bs.getD j 0 < 2 ^ 64 := by
  by_cases hj : j < bs.length
  · rw [List.getD_eq_getElem _ _ hj]
    exact h _ (List.getElem_mem hj)
  · rw [List.getD_eq_default _ _ (Nat.le_of_not_lt hj)]
    exact Nat.two_pow_pos 64

theorem index_eq_iff (i k : Nat) : (k / 64 = i / 64 ∧ i % 64 = k % 64) ↔ i = k := by
  omega

theorem bitAt_set_or (bs : List Nat) (k i : Nat) :
    SlotVector.bitAt (bs.set (k / 64) (bs.getD (k / 64) 0 ||| (1 <<< (k % 64)))) i =
      ((decide (i = k) && decide (k / 64 < bs.length)) || SlotVector.bitAt bs i) := by
  unfold SlotVector.bitAt
  rw [getD_set_eq, List.length_set]
  by_cases hb : i / 64 < bs.length
  · by_cases hw : k / 64 = i / 64
    · have hk : k / 64 < bs.length := by omega
      simp only [hw, hb, and_self, if_true, decide_True, Bool.true_and, Bool.and_true,
        Nat.testBit_or, Nat.one_shiftLeft, Nat.testBit_two_pow]
      by_cases hm : k % 64 = i % 64
      · have : i = k := by omega
        simp [this]
      · have : ¬ i = k := by omega
        simp [this, hm]
    · have : ¬ i = k := by
        intro h
        exact hw (by rw [h])
      simp [hw, this]
  · by_cases hik : i = k
    · subst hik
      simp [hb]
    · simp [hb, hik]

theorem bitAt_set_andnot (bs : List Nat) (k i : Nat) :
    SlotVector.bitAt
        (bs.set (k / 64) (bs.getD (k / 64) 0 &&& ((2 ^ 64 - 1) ^^^ (1 <<< (k % 64))))) i =
      (decide (i ≠ k) && SlotVector.bitAt bs i) := by
  unfold SlotVector.bitAt
  rw [getD_set_eq, List.length_set]
  by_cases hb : i / 64 < bs.length
  · by_cases hw : k / 64 = i / 64
    · have hk : k / 64 < bs.length := by omega
      have h64 : i % 64 < 64 := Nat.mod_lt _ (by decide)
      simp only [hw, hb, and_self, if_true, decide_True, Bool.true_and,
        Nat.testBit_and, Nat.testBit_xor, Nat.testBit_two_pow_sub_one, Nat.one_shiftLeft,
        Nat.testBit_two_pow, h64]
      by_cases hm : k % 64 = i % 64
      · have : i = k := by omega
        simp [this]
      · have : ¬ i = k := by omega
        simp [this, hm]
    · have : ¬ i = k := by
        intro h
        exact hw (by rw [h])
      simp [hw, this]
  · simp [hb]

theorem getD_vectorResize (bs : List Nat) (n j : Nat) :
    (vectorResize bs n 0).getD j 0 = if j < n then bs.getD j 0 else 0 := by
  unfold vectorResize
  simp only [List.getD_eq_getElem?_getD]
  by_cases h1 : j < (bs.take n).length
  · rw [List.getElem?_append_left h1]
    have h2 : j < n := by
      rw [List.length_take] at h1
      omega
    simp [List.getElem?_take, h2]
  · rw [List.getElem?_append_right (Nat.le_of_not_lt h1)]
    rw [List.length_take] at h1
    have h0 : ∀ c : Prop, [Decidable c] →
        (if c then some 0 else (none : Option Nat)).getD 0 = 0 := by
      intro c _
      split <;> rfl
    by_cases h2 : j < n
    · have h3 : bs.length ≤ j := by omega
      simp only [List.getElem?_replicate, h0, h2, if_true, List.getElem?_eq_none h3,
        Option.getD_none]
    · simp only [List.getElem?_replicate, h0, h2, if_false]

theorem length_vectorResize {α : Type} (l : List α) (n : Nat) (d : α) :
    (vectorResize l n d).length = n := by
  unfold vectorResize
  simp only [List.length_append, List.length_take, List.length_replicate]
  omega

theorem bitAt_vectorResize (bs : List Nat) (n i : Nat) :
    SlotVector.bitAt (vectorResize bs n 0) i =
      (decide (i / 64 < n) && SlotVector.bitAt bs i) := by
  unfold SlotVector.bitAt
  rw [getD_vectorResize, length_vectorResize]
  by_cases h : i / 64 < n
  · by_cases h2 : i / 64 < bs.length
    · simp [h, h2]
    · simp [h, h2, List.getD_eq_getElem?_getD, List.getElem?_eq_none (Nat.le_of_not_lt h2)]
  · simp [h]

/-! ### The relocation loops of `Reserve` -/

namespace SlotVector

variable {T : Type}

theorem length_moveBits (values : List (Option T)) (index : Nat) :
    ∀ (fuel bit bits : Nat) (nv : List (Option T)),
      (moveBits values index fuel bit bits nv).length = nv.length := by
  intro fuel
  induction fuel with
  | zero => intro bit bits nv; rfl
  | succ fuel ih =>
    intro bit bits nv
    unfold moveBits
    by_cases hb : bits = 0
    · simp [hb]
    · simp only [hb, if_false]
      rw [ih]
      split
      · rfl
      · exact List.length_set _ _ _

theorem length_moveWords (values : List (Option T)) :
    ∀ (words : List Nat) (index : Nat) (nv : List (Option T)),
      (moveWords values words index nv).length = nv.length := by
  intro words
  induction words with
  | nil => intro index nv; rfl
  | cons w rest ih =>
    intro index nv
    unfold moveWords
    rw [ih, length_moveBits]

/-- One word of `Reserve`: slot `i` of the new storage receives the old object exactly
when bit `i - (index + bit)` of the remaining word is set. -/
theorem getD_moveBits (values : List (Option T)) (index : Nat) :
    ∀ (fuel bit bits : Nat) (nv : List (Option T)) (i : Nat), bits < 2 ^ fuel →
      (moveBits values index fuel bit bits nv).getD i none =
        if index + bit ≤ i ∧ bits.testBit (i - (index + bit)) = true ∧ i < nv.length
        then values.getD i none else nv.getD i none := by
  intro fuel
  induction fuel with
  | zero =>
    intro bit bits nv i hlt
    have hz : bits = 0 := by omega
    subst hz
    simp [moveBits]
  | succ fuel ih =>
    intro bit bits nv i hlt
    unfold moveBits
    by_cases hb : bits = 0
    · subst hb
      simp
    · simp only [hb, if_false]
      have hlt2 : bits >>> 1 < 2 ^ fuel := by
        rw [Nat.shiftRight_eq_div_pow]
        have : 2 ^ (fuel + 1) = 2 * 2 ^ fuel := by ring
        omega
      rw [ih (bit + 1) (bits >>> 1) _ i hlt2, Nat.testBit_shiftRight]
      have hlow : (bits &&& 1 = 0) ↔ bits.testBit 0 = false := by
        rw [Nat.and_one_is_mod, Nat.testBit_zero]
        simp
      rcases Nat.lt_trichotomy i (index + bit) with hlt3 | heq | hgt
      · have h1 : ¬ (index + (bit + 1) ≤ i) := by omega
        have h2 : ¬ (index + bit ≤ i) := by omega
        have h3 : ¬ (index + bit = i) := by omega
        simp only [h1, h2, false_and, if_false]
        split
        · rfl
        · rw [getD_set_eq]
          simp [h3]
      · have h1 : ¬ (index + (bit + 1) ≤ i) := by omega
        have h2 : index + bit ≤ i := by omega
        have h4 : i - (index + bit) = 0 := by omega
        simp only [h1, h2, h4, false_and, true_and, if_false]
        by_cases h0 : bits &&& 1 = 0
        · have := hlow.mp h0
          simp [h0, this]
        · have h5 : bits.testBit 0 = true := by
            cases hx : bits.testBit 0
            · exact absurd (hlow.mpr hx) h0
            · rfl
          simp only [h0, if_false, h5, true_and]
          rw [getD_set_eq, heq]
          simp
      · have h1 : index + (bit + 1) ≤ i := by omega
        have h2 : index + bit ≤ i := by omega
        have h3 : ¬ (index + bit = i) := by omega
        have h4 : 1 + (i - (index + (bit + 1))) = i - (index + bit) := by omega
        simp only [h1, h2, h4, true_and]
        have h5 : (if bits &&& 1 = 0 then nv
            else nv.set (index + bit) (values.getD (index + bit) none)).length = nv.length := by
          split
          · rfl
          · exact List.length_set _ _ _
        have h6 : (if bits &&& 1 = 0 then nv
            else nv.set (index + bit) (values.getD (index + bit) none)).getD i none =
            nv.getD i none := by
          split
          · rfl
          · rw [getD_set_eq]
            simp [h3]
        rw [h5, h6]

/-- All words of `Reserve`: slot `i` of the new storage receives the old object exactly
when bit `i - index` of the bitset is set. -/
theorem getD_moveWords (values : List (Option T)) :
    ∀ (words : List Nat) (index : Nat) (nv : List (Option T)) (i : Nat),
      (∀ w ∈ words, w < 2 ^ 64) →
      (moveWords values words index nv).getD i none =
        if index ≤ i ∧ bitAt words (i - index) = true ∧ i < nv.length
        then values.getD i none else nv.getD i none := by
  intro words
  induction words with
  | nil =>
    intro index nv i _
    simp [moveWords, bitAt]
  | cons w rest ih =>
    intro index nv i hw
    unfold moveWords
    have hw0 : w < 2 ^ 64 := hw w (List.mem_cons_self _ _)
    have hrest : ∀ x ∈ rest, x < 2 ^ 64 := fun x hx => hw x (List.mem_cons_of_mem _ hx)
    rw [ih (index + 64) _ i hrest, length_moveBits, getD_moveBits values index 64 0 w nv i hw0]
    rcases Nat.lt_or_ge i index with h1 | h1
    · have h2 : ¬ (index + 64 ≤ i) := by omega
      have h3 : ¬ (index + 0 ≤ i) := by omega
      have h4 : ¬ (index ≤ i) := by omega
      simp only [h2, h3, h4, false_and, if_false]
    · rcases Nat.lt_or_ge i (index + 64) with h2 | h2
      · have h3 : ¬ (index + 64 ≤ i) := by omega
        have h4 : (i - index) / 64 = 0 := by omega
        have h5 : (i - index) % 64 = i - index := by omega
        have h6 : index + 0 ≤ i := by omega
        simp only [h3, false_and, if_false, h6, h1, true_and, bitAt, h4, h5,
          List.length_cons, Nat.add_zero, Nat.zero_lt_succ, decide_True, Bool.true_and,
          List.getD_cons_zero]
      · have h4 : (i - index) / 64 = (i - (index + 64)) / 64 + 1 := by omega
        have h5 : (i - index) % 64 = (i - (index + 64)) % 64 := by omega
        have h6 : w.testBit (i - (index + 0)) = false :=
          Nat.testBit_lt_two_pow (Nat.lt_of_lt_of_le hw0
            (Nat.pow_le_pow_right (by decide) (by omega)))
        simp only [h2, h1, true_and, h6, Bool.false_eq_true, false_and, and_false, if_false,
          bitAt, h4, h5, List.length_cons, Nat.add_lt_add_iff_right, List.getD_cons_succ]

end SlotVector

/-! ### The representation invariant -/

theorem SlotId.index_injective : Function.Injective SlotId.index := by
  intro a b h
  cases a
  cases b
  simp only at h
  rw [h]

theorem SlotId.mem_map_index (L : List SlotId) (i : Nat) :
    i ∈ L.map SlotId.index ↔ (⟨i⟩ : SlotId) ∈ L := by
  constructor
  · intro h
    obtain ⟨a, ha, hai⟩ := List.mem_map.mp h
    cases a
    simp only at hai
    rw [← hai]
    exact ha
  · intro h
    exact List.mem_map.mpr ⟨⟨i⟩, h, rfl⟩

namespace Inv

variable {T : Type} {s : SlotVector T} {L : List SlotId} {p : Nat}

theorem mono (h : Inv s L p) {q : Nat} (hq : p ≤ q) : Inv s L q where
  len_values := h.len_values
  words_lt := h.words_lt
  len_bitset := h.len_bitset
  count := h.count
  len_le := Nat.le_trans h.len_le hq
  cap_pow := by
    rcases h.cap_pow with h0 | ⟨hk, hlt⟩
    · exact Or.inl h0
    · exact Or.inr ⟨hk, by omega⟩
  free_lt := h.free_lt
  live_lt := h.live_lt
  bit_lt := h.bit_lt
  strong := fun hq2 => h.strong (Nat.le_trans hq hq2)

theorem nodup (h : Inv s L p) (hp : p ≤ 2 ^ 32) : L.Nodup := by
  have h1 := (h.strong hp).1
  have h2 : (s.free_list ++ L.map SlotId.index).Nodup :=
    h1.nodup_iff.mpr (List.nodup_range _)
  exact List.Nodup.of_map _ (List.nodup_append.mp h2).2.1

theorem index_lt_capacity (h : Inv s L p) (hp : p ≤ 2 ^ 32) {g : SlotId} (hg : g ∈ L) :
    g.index < s.values_capacity := by
  have h1 := (h.strong hp).1
  have h2 : g.index ∈ s.free_list ++ L.map SlotId.index :=
    List.mem_append_right _ (List.mem_map_of_mem _ hg)
  exact List.mem_range.mp (h1.mem_iff.mp h2)

theorem free_lt_capacity (h : Inv s L p) (hp : p ≤ 2 ^ 32) {x : Nat} (hx : x ∈ s.free_list) :
    x < s.values_capacity := by
  have h1 := (h.strong hp).1
  exact List.mem_range.mp (h1.mem_iff.mp (List.mem_append_left _ hx))

theorem free_not_live (h : Inv s L p) (hp : p ≤ 2 ^ 32) {x : Nat} (hx : x ∈ s.free_list) :
    (⟨x⟩ : SlotId) ∉ L := by
  have h1 := (h.strong hp).1
  have h2 : (s.free_list ++ L.map SlotId.index).Nodup :=
    h1.nodup_iff.mpr (List.nodup_range _)
  intro hL
  exact (List.nodup_append.mp h2).2.2 hx ((SlotId.mem_map_index L x).mpr hL)

/-- The invariant is kept by `erase` of a live handle. -/
theorem erase (h : Inv s L p) {g : SlotId} (hg : g ∈ L) : Inv (s.erase g) (L.erase g) p where
  len_values := by
    simp only [SlotVector.erase, SlotVector.ResetStorageBit, List.length_set]
    exact h.len_values
  words_lt := by
    intro w hw
    simp only [SlotVector.erase, SlotVector.ResetStorageBit] at hw
    rcases List.mem_or_eq_of_mem_set hw with h1 | h1
    · exact h.words_lt w h1
    · rw [h1]
      exact Nat.lt_of_le_of_lt Nat.and_le_left (getD_word_lt h.words_lt _)
  len_bitset := by
    simp only [SlotVector.erase, SlotVector.ResetStorageBit, List.length_set]
    exact h.len_bitset
  count := by
    have h1 := List.length_erase_of_mem hg
    have h2 : 0 < L.length := List.length_pos_of_mem hg
    have h3 := h.count
    simp only [SlotVector.erase, SlotVector.ResetStorageBit, List.length_append,
      List.length_singleton]
    omega
  len_le := by
    have h1 := List.length_erase_of_mem hg
    have h2 := h.len_le
    omega
  cap_pow := h.cap_pow
  free_lt := by
    intro x hx
    simp only [SlotVector.erase, SlotVector.ResetStorageBit, List.mem_append,
      List.mem_singleton] at hx
    rcases hx with h1 | h1
    · exact h.free_lt x h1
    · rw [h1]
      exact h.live_lt g hg
  live_lt := fun x hx => h.live_lt x (List.mem_of_mem_erase hx)
  bit_lt := by
    intro i hi
    simp only [SlotVector.erase, SlotVector.ResetStorageBit, SlotVector.word,
      bitAt_set_andnot, Bool.and_eq_true] at hi
    exact h.bit_lt i hi.2
  strong := by
    intro hp
    obtain ⟨hperm, hbit, hval⟩ := h.strong hp
    have hnd := h.nodup hp
    refine ⟨?_, ?_, ?_⟩
    · simp only [SlotVector.erase, SlotVector.ResetStorageBit]
      have h1 : (L.map SlotId.index).Perm (g.index :: (L.erase g).map SlotId.index) :=
        (List.perm_cons_erase hg).map SlotId.index
      have h2 : (s.free_list ++ [g.index] ++ (L.erase g).map SlotId.index).Perm
          (s.free_list ++ L.map SlotId.index) := by
        rw [List.append_assoc]
        exact (List.Perm.append_left _ h1).symm
      exact h2.trans hperm
    · intro i
      simp only [SlotVector.erase, SlotVector.ResetStorageBit, SlotVector.word,
        bitAt_set_andnot, Bool.and_eq_true, decide_eq_true_eq]
      rw [hbit i, List.Nodup.mem_erase_iff hnd]
      constructor
      · rintro ⟨h1, h2⟩
        refine ⟨?_, h2⟩
        intro h3
        exact h1 (congrArg SlotId.index h3)
      · rintro ⟨h1, h2⟩
        refine ⟨?_, h2⟩
        intro h3
        exact h1 (by rw [h3])
    · intro x hx
      have hxL := List.mem_of_mem_erase hx
      have hne : x ≠ g := ((List.Nodup.mem_erase_iff hnd).mp hx).1
      have hne2 : ¬ (g.index = x.index ∧ g.index < s.values.length) := by
        rintro ⟨h1, _⟩
        exact hne (SlotId.index_injective h1.symm)
      simp only [SlotVector.erase, SlotVector.ResetStorageBit, getD_set_eq, hne2, if_false]
      exact hval x hxL

end Inv

/-! ### Growth -/

namespace SlotVector

variable {T : Type}

theorem iotaU32_eq_range (count start : Nat) (h : start + count ≤ 2 ^ 32) :
    iotaU32 count start = List.range' start count := by
  rw [List.range'_eq_map_range]
  unfold iotaU32
  apply List.map_congr_left
  intro j hj
  have := List.mem_range.mp hj
  exact Nat.mod_eq_of_lt (by omega)

theorem length_iotaU32 (count start : Nat) : (iotaU32 count start).length = count := by
  simp [iotaU32]

theorem mem_iotaU32_lt {count start x : Nat} (h : x ∈ iotaU32 count start) : x < 2 ^ 32 := by
  unfold iotaU32 at h
  obtain ⟨j, _, hj⟩ := List.mem_map.mp h
  rw [← hj]
  exact Nat.mod_lt _ (Nat.two_pow_pos 32)

/-- With an empty free list, `Reserve` leaves exactly the new indices on the free list. -/
theorem free_list_Reserve_of_nil (s : SlotVector T) (n : Nat) (hf : s.free_list = [])
    (h1 : s.values_capacity ≤ n) (h2 : n < 2 ^ 64) :
    (s.Reserve n).free_list = iotaU32 (n - s.values_capacity) (s.values_capacity % 2 ^ 32) := by
  have h3 : (0 + (n + 2 ^ 64 - s.values_capacity) % 2 ^ 64) % 2 ^ 64 = n - s.values_capacity := by
    omega
  simp only [Reserve, hf, List.length_nil, h3, length_vectorResize, List.take_zero,
    List.nil_append, Nat.sub_zero]

/-- The call `free_list.back()` of `FreeValueIndex` is defined: after its growth check the
free list is not empty, in every pool whose capacity is in the range of `size_t`. -/
theorem free_list_ensureFree_ne_nil (s : SlotVector T) (h : s.values_capacity < 2 ^ 64) :
    s.ensureFree.free_list ≠ [] := by
  unfold ensureFree
  cases hf : s.free_list with
  | cons x xs =>
    simp only [List.isEmpty_cons, Bool.false_eq_true, if_false]
    rw [hf]
    exact List.cons_ne_nil _ _
  | nil =>
    simp only [List.isEmpty_nil, if_true]
    intro h0
    have h1 := congrArg List.length h0
    simp only [Reserve, hf, List.length_nil, List.take_zero, List.nil_append, length_iotaU32,
      length_vectorResize, Nat.sub_zero, grownCapacity, Nat.shiftLeft_eq] at h1
    split at h1 <;> omega

theorem getD_values_Reserve (s : SlotVector T) (n i : Nat) (hw : ∀ w ∈ s.stored_bitset, w < 2 ^ 64) :
    (s.Reserve n).values.getD i none =
      if bitAt s.stored_bitset i = true ∧ i < n then s.values.getD i none else none := by
  simp only [Reserve]
  rw [getD_moveWords _ _ _ _ _ hw]
  simp only [Nat.zero_le, true_and, Nat.sub_zero, List.length_replicate]
  have : (List.replicate n (none : Option T)).getD i none = none := by
    rw [List.getD_eq_getElem?_getD, List.getElem?_replicate]
    split <;> rfl
  rw [this]

theorem length_values_Reserve (s : SlotVector T) (n : Nat) :
    (s.Reserve n).values.length = n := by
  simp only [Reserve, length_moveWords, List.length_replicate]

theorem bitAt_Reserve (s : SlotVector T) (n i : Nat) :
    bitAt (s.Reserve n).stored_bitset i =
      (decide (i / 64 < (n + 63) % 2 ^ 64 / 64) && bitAt s.stored_bitset i) := by
  simp only [Reserve, bitAt_vectorResize]

theorem words_lt_Reserve (s : SlotVector T) (n : Nat) (hw : ∀ w ∈ s.stored_bitset, w < 2 ^ 64) :
    ∀ w ∈ (s.Reserve n).stored_bitset, w < 2 ^ 64 := by
  intro w hmem
  simp only [Reserve, vectorResize, List.mem_append] at hmem
  rcases hmem with h1 | h1
  · exact hw w (List.mem_of_mem_take h1)
  · rw [(List.mem_replicate.mp h1).2]
    exact Nat.two_pow_pos 64

end SlotVector

namespace Inv

variable {T : Type} {s : SlotVector T} {L : List SlotId} {p : Nat}

theorem grownCapacity_cases (h : Inv s L p) (hf : s.free_list = []) (hL : L.length < 2 ^ 63) :
    L.length = s.values_capacity ∧ s.grownCapacity ≤ 2 ^ 63 ∧
    ((s.values_capacity = 0 ∧ s.grownCapacity = 1) ∨
     (s.values_capacity ≠ 0 ∧ s.grownCapacity = 2 * s.values_capacity)) := by
  have hc := h.count
  rw [hf] at hc
  simp only [List.length_nil, Nat.add_zero] at hc
  refine ⟨hc, ?_⟩
  by_cases h0 : s.values_capacity = 0
  · have h1 : s.grownCapacity = 1 := by simp [SlotVector.grownCapacity, h0]
    exact ⟨by omega, Or.inl ⟨h0, h1⟩⟩
  · have h1 : s.grownCapacity = 2 * s.values_capacity := by
      simp only [SlotVector.grownCapacity, h0, ne_eq, not_false_eq_true, if_true,
        Nat.shiftLeft_eq]
      omega
    refine ⟨?_, Or.inr ⟨h0, h1⟩⟩
    rcases h.cap_pow with h2 | ⟨⟨k, hk⟩, _⟩
    · exact absurd h2 h0
    · have hk2 : 2 ^ k < 2 ^ 63 := by omega
      have hk3 : k < 63 := (Nat.pow_lt_pow_iff_right (by decide)).mp hk2
      have hk4 : 2 ^ (k + 1) ≤ 2 ^ 63 := Nat.pow_le_pow_right (by decide) hk3
      rw [h1, hk]
      have : 2 ^ (k + 1) = 2 * 2 ^ k := by ring
      omega

/-- The invariant is kept when `FreeValueIndex` grows the pool. -/
theorem reserve (h : Inv s L p) (hf : s.free_list = []) (hL : L.length < 2 ^ 63) :
    Inv (s.Reserve s.grownCapacity) L (max p (L.length + 1)) := by
  obtain ⟨hlen, hg63, hcase⟩ := h.grownCapacity_cases hf hL
  have hle : s.values_capacity ≤ s.grownCapacity := by omega
  have hlt64 : s.grownCapacity < 2 ^ 64 := by omega
  have hfree := SlotVector.free_list_Reserve_of_nil s _ hf hle hlt64
  have hcap : (s.Reserve s.grownCapacity).values_capacity = s.grownCapacity := rfl
  have hmod : (s.grownCapacity + 63) % 2 ^ 64 = s.grownCapacity + 63 :=
    Nat.mod_eq_of_lt (by omega)
  have hbits : ∀ i, SlotVector.bitAt (s.Reserve s.grownCapacity).stored_bitset i =
      SlotVector.bitAt s.stored_bitset i := by
    intro i
    rw [SlotVector.bitAt_Reserve, hmod]
    cases hb : SlotVector.bitAt s.stored_bitset i
    · simp
    · have h1 : i / 64 < s.stored_bitset.length := by
        unfold SlotVector.bitAt at hb
        simp only [Bool.and_eq_true, decide_eq_true_eq] at hb
        exact hb.1
      rw [h.len_bitset] at h1
      have h2 : i / 64 < (s.grownCapacity + 63) / 64 := by omega
      simp [h2]
  refine
    { len_values := SlotVector.length_values_Reserve s _
      words_lt := SlotVector.words_lt_Reserve s _ h.words_lt
      len_bitset := ?_
      count := ?_
      len_le := by omega
      cap_pow := ?_
      free_lt := ?_
      live_lt := h.live_lt
      bit_lt := ?_
      strong := ?_ }
  · simp only [SlotVector.Reserve, length_vectorResize, hmod]
  · rw [hfree, SlotVector.length_iotaU32, hcap]
    omega
  · right
    rw [hcap]
    rcases hcase with ⟨h0, h1⟩ | ⟨h0, h1⟩
    · exact ⟨⟨0, by rw [h1]; rfl⟩, by omega⟩
    · rcases h.cap_pow with h2 | ⟨⟨k, hk⟩, _⟩
      · exact absurd h2 h0
      · refine ⟨⟨k + 1, ?_⟩, by omega⟩
        rw [h1, hk]
        ring
  · intro x hx
    rw [hfree] at hx
    exact SlotVector.mem_iotaU32_lt hx
  · intro i hi
    rw [hbits i] at hi
    exact h.bit_lt i hi
  · intro hp
    have hp1 : p ≤ 2 ^ 32 := by omega
    have hL1 : L.length + 1 ≤ 2 ^ 32 := by omega
    obtain ⟨hperm, hbit, hval⟩ := h.strong hp1
    have hg32 : s.grownCapacity ≤ 2 ^ 32 := by
      rcases hcase with ⟨_, h1⟩ | ⟨h0, h1⟩
      · omega
      · rcases h.cap_pow with h2 | ⟨⟨k, hk⟩, _⟩
        · exact absurd h2 h0
        · have hk2 : 2 ^ k < 2 ^ 32 := by omega
          have hk3 : k < 32 := (Nat.pow_lt_pow_iff_right (by decide)).mp hk2
          have hk4 : 2 ^ (k + 1) ≤ 2 ^ 32 := Nat.pow_le_pow_right (by decide) hk3
          rw [h1, hk]
          have : 2 ^ (k + 1) = 2 * 2 ^ k := by ring
          omega
    refine ⟨?_, ?_, ?_⟩
    · rw [hfree, hcap, Nat.mod_eq_of_lt (by omega : s.values_capacity < 2 ^ 32),
        SlotVector.iotaU32_eq_range _ _ (by omega)]
      rw [hf, List.nil_append] at hperm
      have h1 : List.range s.grownCapacity =
          List.range s.values_capacity ++
            List.range' s.values_capacity (s.grownCapacity - s.values_capacity) := by
        rw [List.range_eq_range', List.range_eq_range']
        have := List.range'_append 0 s.values_capacity
          (s.grownCapacity - s.values_capacity) 1
        simp only [Nat.zero_add, Nat.one_mul] at this
        rw [this]
        congr 1
        omega
      rw [h1]
      exact List.perm_append_comm.trans (List.Perm.append_right _ hperm)
    · intro i
      rw [hbits i]
      exact hbit i
    · intro g hg
      have hgi : SlotVector.bitAt s.stored_bitset g.index = true := (hbit g.index).mpr hg
      have hgc : g.index < s.values_capacity := h.index_lt_capacity hp1 hg
      rw [SlotVector.getD_values_Reserve s _ _ h.words_lt]
      simp only [hgi, (by omega : g.index < s.grownCapacity), and_self, if_true]
      exact hval g hg

/-- After the growth check of `FreeValueIndex` the invariant holds and the free list is
not empty. -/
theorem ensureFree (h : Inv s L p) (hL : L.length < 2 ^ 63) :
    Inv s.ensureFree L (max p (L.length + 1)) ∧ s.ensureFree.free_list ≠ [] := by
  unfold SlotVector.ensureFree
  cases hf : s.free_list with
  | nil =>
    simp only [List.isEmpty_nil, if_true]
    refine ⟨h.reserve hf hL, ?_⟩
    obtain ⟨hlen, hg63, hcase⟩ := h.grownCapacity_cases hf hL
    rw [SlotVector.free_list_Reserve_of_nil s _ hf (by omega) (by omega)]
    intro h0
    have := congrArg List.length h0
    rw [SlotVector.length_iotaU32] at this
    simp only [List.length_nil] at this
    omega
  | cons x xs =>
    simp only [List.isEmpty_cons, Bool.false_eq_true, if_false]
    exact ⟨h.mono (Nat.le_max_left _ _), by rw [hf]; exact List.cons_ne_nil _ _⟩

theorem bitAt_ensureFree (h : Inv s L p) (hL : L.length < 2 ^ 63) (i : Nat) :
    SlotVector.bitAt s.ensureFree.stored_bitset i = SlotVector.bitAt s.stored_bitset i := by
  unfold SlotVector.ensureFree
  cases hf : s.free_list with
  | nil =>
    simp only [List.isEmpty_nil, if_true]
    obtain ⟨hlen, hg63, hcase⟩ := h.grownCapacity_cases hf hL
    rw [SlotVector.bitAt_Reserve, Nat.mod_eq_of_lt (by omega : s.grownCapacity + 63 < 2 ^ 64)]
    cases hb : SlotVector.bitAt s.stored_bitset i
    · simp
    · have h1 : i / 64 < s.stored_bitset.length := by
        unfold SlotVector.bitAt at hb
        simp only [Bool.and_eq_true, decide_eq_true_eq] at hb
        exact hb.1
      rw [h.len_bitset] at h1
      have h2 : i / 64 < (s.grownCapacity + 63) / 64 := by omega
      simp [h2]
  | cons x xs =>
    simp only [List.isEmpty_cons, Bool.false_eq_true, if_false]

theorem values_ensureFree (h : Inv s L p) (hp : max p (L.length + 1) ≤ 2 ^ 32) {g : SlotId}
    (hg : g ∈ L) :
    s.ensureFree.values.getD g.index none = s.values.getD g.index none := by
  have hp1 : p ≤ 2 ^ 32 := by omega
  unfold SlotVector.ensureFree
  cases hf : s.free_list with
  | nil =>
    simp only [List.isEmpty_nil, if_true]
    obtain ⟨hlen, hg63, hcase⟩ := h.grownCapacity_cases hf (by omega)
    have hgi : SlotVector.bitAt s.stored_bitset g.index = true :=
      ((h.strong hp1).2.1 g.index).mpr hg
    have hgc : g.index < s.values_capacity := h.index_lt_capacity hp1 hg
    rw [SlotVector.getD_values_Reserve s _ _ h.words_lt]
    simp only [hgi, (by omega : g.index < s.grownCapacity), and_self, if_true]
  | cons x xs =>
    simp only [List.isEmpty_cons, Bool.false_eq_true, if_false]

end Inv

theorem getLastD_mem {l : List Nat} (h : l ≠ []) : l.getLastD 0 ∈ l := by
  rw [List.getLastD_eq_getLast?, List.getLast?_eq_getLast l h]
  exact List.getLast_mem h

theorem dropLast_append_getLastD {l : List Nat} (h : l ≠ []) :
    l.dropLast ++ [l.getLastD 0] = l := by
  rw [List.getLastD_eq_getLast?, List.getLast?_eq_getLast l h]
  exact List.dropLast_append_getLast h

namespace Inv

variable {T : Type} {s : SlotVector T} {L : List SlotId} {p : Nat}

/-- The invariant is kept by `insert`. -/
theorem insert (h : Inv s L p) (hL : L.length < 2 ^ 63) (v : T) :
    Inv (s.insert v).1 ((s.insert v).2 :: L) (max p (L.length + 1)) := by
  obtain ⟨h1, hne⟩ := h.ensureFree hL
  have hmem := getLastD_mem hne
  have hsplit := dropLast_append_getLastD hne
  refine
    { len_values := ?_
      words_lt := ?_
      len_bitset := ?_
      count := ?_
      len_le := ?_
      cap_pow := h1.cap_pow
      free_lt := ?_
      live_lt := ?_
      bit_lt := ?_
      strong := ?_ }
  · simp only [SlotVector.insert, SlotVector.FreeValueIndex, SlotVector.SetStorageBit,
      List.length_set]
    exact h1.len_values
  · intro w hw
    simp only [SlotVector.insert, SlotVector.FreeValueIndex, SlotVector.SetStorageBit] at hw
    rcases List.mem_or_eq_of_mem_set hw with h2 | h2
    · exact h1.words_lt w h2
    · rw [h2]
      refine Nat.or_lt_two_pow (getD_word_lt h1.words_lt _) ?_
      rw [Nat.one_shiftLeft]
      exact Nat.pow_lt_pow_right (by decide) (Nat.mod_lt _ (by decide))
  · simp only [SlotVector.insert, SlotVector.FreeValueIndex, SlotVector.SetStorageBit,
      List.length_set]
    exact h1.len_bitset
  · have h2 := h1.count
    have h3 : 0 < s.ensureFree.free_list.length := List.length_pos.mpr hne
    simp only [SlotVector.insert, SlotVector.FreeValueIndex, SlotVector.SetStorageBit,
      List.length_cons, List.length_dropLast]
    omega
  · simp only [List.length_cons]
    omega
  · intro x hx
    simp only [SlotVector.insert, SlotVector.FreeValueIndex, SlotVector.SetStorageBit] at hx
    exact h1.free_lt x (List.mem_of_mem_dropLast hx)
  · intro g hg
    rcases List.mem_cons.mp hg with h2 | h2
    · rw [h2]
      exact h1.free_lt _ hmem
    · exact h.live_lt g h2
  · intro i hi
    simp only [SlotVector.insert, SlotVector.FreeValueIndex, SlotVector.SetStorageBit,
      SlotVector.word, bitAt_set_or, Bool.or_eq_true, Bool.and_eq_true,
      decide_eq_true_eq] at hi
    rcases hi with ⟨h2, _⟩ | h2
    · rw [h2]
      exact h1.free_lt _ hmem
    · exact h1.bit_lt i h2
  · intro hp
    obtain ⟨hperm, hbit, hval⟩ := h1.strong hp
    have hidx : s.ensureFree.free_list.getLastD 0 < s.ensureFree.values_capacity :=
      h1.free_lt_capacity hp hmem
    have hnl : (⟨s.ensureFree.free_list.getLastD 0⟩ : SlotId) ∉ L := h1.free_not_live hp hmem
    refine ⟨?_, ?_, ?_⟩
    · simp only [SlotVector.insert, SlotVector.FreeValueIndex, SlotVector.SetStorageBit,
        List.map_cons]
      refine List.Perm.trans ?_ hperm
      conv_rhs => rw [← hsplit]
      rw [List.append_assoc]
      rfl
    · intro i
      have hw : s.ensureFree.free_list.getLastD 0 / 64 < s.ensureFree.stored_bitset.length := by
        rw [h1.len_bitset]
        omega
      simp only [SlotVector.insert, SlotVector.FreeValueIndex, SlotVector.SetStorageBit,
        SlotVector.word, bitAt_set_or, Bool.or_eq_true, Bool.and_eq_true,
        decide_eq_true_eq, hw, and_true, List.mem_cons, hbit i, SlotId.mk.injEq]
    · intro g hg
      simp only [SlotVector.insert, SlotVector.FreeValueIndex, SlotVector.SetStorageBit,
        getD_set_eq]
      rcases List.mem_cons.mp hg with h2 | h2
      · refine ⟨v, ?_⟩
        rw [h2]
        simp only [SlotVector.insert, SlotVector.FreeValueIndex, h1.len_values, hidx,
          and_self, if_true]
      · have hne2 : ¬ (s.ensureFree.free_list.getLastD 0 = g.index ∧
            s.ensureFree.free_list.getLastD 0 < s.ensureFree.values.length) := by
          rintro ⟨h3, _⟩
          apply hnl
          rw [h3]
          exact h2
        simp only [hne2, if_false]
        exact hval g h2

end Inv

/-- Every pool reached while at most `2 ^ 63` handles were live at the same time satisfies
the invariant. -/
theorem Reach.inv {T : Type} {s : SlotVector T} {L : List SlotId} {p : Nat}
    (h : Reach s L p) : p ≤ 2 ^ 63 → Inv s L p := by
  induction h with
  | empty =>
    intro _
    exact
      { len_values := rfl
        words_lt := by intro w hw; cases hw
        len_bitset := by simp [SlotVector.empty]
        count := rfl
        len_le := Nat.le_refl _
        cap_pow := Or.inl rfl
        free_lt := by intro x hx; cases hx
        live_lt := by intro x hx; cases hx
        bit_lt := by intro i hi; simp [SlotVector.empty, SlotVector.bitAt] at hi
        strong := by
          intro _
          refine ⟨?_, ?_, ?_⟩
          · exact List.Perm.refl _
          · intro i
            simp [SlotVector.empty, SlotVector.bitAt]
          · intro x hx
            cases hx }
  | insert v _ ih =>
    intro hp
    exact (ih (by omega)).insert (by omega) v
  | erase g _ hg ih =>
    intro hp
    exact (ih hp).erase hg

/-! ### Runs of `insert` alone -/

namespace SlotVector

variable {T : Type}

theorem length_insertMany (v : T) (n : Nat) : (insertMany v n).2.length = n := by
  induction n with
  | zero => rfl
  | succ n ih =>
    rw [insertMany, List.length_cons, ih]

theorem reach_insertMany (v : T) (n : Nat) :
    Reach (insertMany v n).1 (insertMany v n).2 n := by
  induction n with
  | zero => exact Reach.empty
  | succ n ih =>
    have h := Reach.insert v ih
    rw [length_insertMany, Nat.max_eq_right (Nat.le_succ n)] at h
    rw [insertMany]
    exact h

/-- After `n` inserts, with `n` a power of two up to `2 ^ 62`, the pool is full. -/
theorem insertMany_full (v : T) (k : Nat) (hk : k ≤ 62) :
    (insertMany v (2 ^ k)).1.values_capacity = 2 ^ k ∧ (insertMany v (2 ^ k)).1.free_list = [] := by
  have hle : 2 ^ k ≤ 2 ^ 62 := Nat.pow_le_pow_right (by decide) hk
  have hinv := (reach_insertMany v (2 ^ k)).inv (by omega)
  have hlen := length_insertMany v (2 ^ k)
  have hcount := hinv.count
  have hpos : 0 < 2 ^ k := Nat.two_pow_pos k
  have hcap : (insertMany v (2 ^ k)).1.values_capacity = 2 ^ k := by
    rcases hinv.cap_pow with h0 | ⟨⟨j, hj⟩, hlt⟩
    · omega
    · have h1 : 2 ^ k ≤ 2 ^ j := by omega
      have h2 : 2 ^ j < 2 ^ (k + 1) := by
        have : 2 ^ (k + 1) = 2 * 2 ^ k := by ring
        omega
      have h3 : k ≤ j := (Nat.pow_le_pow_iff_right (by decide)).mp h1
      have h4 : j < k + 1 := (Nat.pow_lt_pow_iff_right (by decide)).mp h2
      have h5 : j = k := by omega
      rw [hj, h5]
  refine ⟨hcap, ?_⟩
  apply List.eq_nil_of_length_eq_zero
  omega

end SlotVector

/-! ### Facts about `insert`, `erase` and `ValidateIndex` -/

namespace SlotVector

variable {T : Type}

theorem present_eq_bitAt (s : SlotVector T) (i : Nat) :
    s.present i = bitAt s.stored_bitset i := by
  simp only [present, ReadStorageBit, bitAt, word, shiftRight_and_one_ne_zero]

theorem ValidateIndex_eq (s : SlotVector T) (id : SlotId) :
    s.ValidateIndex id = (id.toBool && s.present id.index) := by
  simp only [ValidateIndex, present, ReadStorageBit, Bool.and_assoc]

theorem ValidateIndex_invalid (s : SlotVector T) : s.ValidateIndex ⟨2 ^ 32 - 1⟩ = false := by
  simp [ValidateIndex, SlotId.toBool, SlotId.INVALID_INDEX]

theorem operatorIndex_invalid (s : SlotVector T) : s.operatorIndex ⟨2 ^ 32 - 1⟩ = none := by
  unfold operatorIndex
  rw [ValidateIndex_invalid]
  rfl

theorem insert_index (s : SlotVector T) (v : T) :
    (s.insert v).2.index = s.ensureFree.free_list.getLastD 0 := rfl

theorem insert_values (s : SlotVector T) (v : T) :
    (s.insert v).1.values = s.ensureFree.values.set (s.insert v).2.index (some v) := rfl

theorem insert_free_list (s : SlotVector T) (v : T) :
    (s.insert v).1.free_list = s.ensureFree.free_list.dropLast := rfl

theorem insert_capacity (s : SlotVector T) (v : T) :
    (s.insert v).1.values_capacity = s.ensureFree.values_capacity := rfl

theorem insert_capacity_of_nil (s : SlotVector T) (v : T) (hf : s.free_list = []) :
    (s.insert v).1.values_capacity = s.grownCapacity := by
  rw [insert_capacity]
  simp only [ensureFree, hf, List.isEmpty_nil, if_true]
  rfl

theorem insert_bitAt (s : SlotVector T) (v : T) (i : Nat) :
    bitAt (s.insert v).1.stored_bitset i =
      ((decide (i = (s.insert v).2.index) &&
          decide ((s.insert v).2.index / 64 < s.ensureFree.stored_bitset.length)) ||
        bitAt s.ensureFree.stored_bitset i) := by
  simp only [insert, FreeValueIndex, SetStorageBit, word, bitAt_set_or]

theorem erase_bitAt (s : SlotVector T) (h : SlotId) (i : Nat) :
    bitAt (s.erase h).stored_bitset i = (decide (i ≠ h.index) && bitAt s.stored_bitset i) := by
  simp only [erase, ResetStorageBit, word, bitAt_set_andnot]

theorem erase_values (s : SlotVector T) (h : SlotId) :
    (s.erase h).values = s.values.set h.index none := rfl

theorem erase_capacity (s : SlotVector T) (h : SlotId) :
    (s.erase h).values_capacity = s.values_capacity := rfl

theorem getLastD_iotaU32 (n start : Nat) :
    (iotaU32 (n + 1) start).getLastD 0 = (start + n) % 2 ^ 32 := by
  simp [iotaU32, List.range_succ, List.getLastD_eq_getLast?]

theorem dropLast_iotaU32 (n start : Nat) :
    (iotaU32 (n + 1) start).dropLast = iotaU32 n start := by
  simp [iotaU32, List.range_succ, List.dropLast_concat]

end SlotVector

namespace Inv

variable {T : Type} {s : SlotVector T} {L : List SlotId} {p : Nat}

/-- What `insert` does to the slot it returns, while the indices have not wrapped. -/
theorem insert_self (h : Inv s L p) (hp : max p (L.length + 1) ≤ 2 ^ 32) (v : T) :
    (s.insert v).2.index < (s.insert v).1.values_capacity ∧
    (s.insert v).2 ∉ L ∧
    (s.insert v).1.values.getD (s.insert v).2.index none = some v ∧
    SlotVector.bitAt (s.insert v).1.stored_bitset (s.insert v).2.index = true := by
  have hi := h.insert (by omega : L.length < 2 ^ 63) v
  obtain ⟨h1, hne⟩ := h.ensureFree (by omega : L.length < 2 ^ 63)
  have hmem := getLastD_mem hne
  have hlt : (s.insert v).2.index < (s.insert v).1.values_capacity :=
    hi.index_lt_capacity hp (List.mem_cons_self _ _)
  refine ⟨hlt, h1.free_not_live hp hmem, ?_, ?_⟩
  · rw [SlotVector.insert_values, getD_set_eq]
    rw [SlotVector.insert_capacity, ← h1.len_values] at hlt
    simp only [hlt, and_self, if_true]
  · exact ((hi.strong hp).2.1 _).mpr (List.mem_cons_self _ _)

/-- What `insert` does to the other live slots, while the indices have not wrapped. -/
theorem insert_other (h : Inv s L p) (hp : max p (L.length + 1) ≤ 2 ^ 32) (v : T) {g : SlotId}
    (hg : g ∈ L) :
    (s.insert v).1.values.getD g.index none = s.values.getD g.index none ∧
    SlotVector.bitAt (s.insert v).1.stored_bitset g.index = true ∧
    SlotVector.bitAt s.stored_bitset g.index = true := by
  have hp1 : p ≤ 2 ^ 32 := by omega
  have hself := h.insert_self hp v
  have hne : ¬ ((s.insert v).2.index = g.index ∧
      (s.insert v).2.index < s.ensureFree.values.length) := by
    rintro ⟨h1, _⟩
    apply hself.2.1
    have : (s.insert v).2 = g := SlotId.index_injective h1
    rw [this]
    exact hg
  have hbit : SlotVector.bitAt s.stored_bitset g.index = true :=
    ((h.strong hp1).2.1 g.index).mpr hg
  refine ⟨?_, ?_, hbit⟩
  · rw [SlotVector.insert_values, getD_set_eq]
    simp only [hne, if_false]
    exact h.values_ensureFree hp hg
  · rw [SlotVector.insert_bitAt, h.bitAt_ensureFree (by omega), hbit, Bool.or_true]

/-- What `erase` of a live handle does to the other live slots. -/
theorem erase_other (h : Inv s L p) (hp : p ≤ 2 ^ 32) {g x : SlotId} (hg : g ∈ L)
    (hne : x ≠ g) :
    (s.erase x).values.getD g.index none = s.values.getD g.index none ∧
    SlotVector.bitAt (s.erase x).stored_bitset g.index = true ∧
    SlotVector.bitAt s.stored_bitset g.index = true := by
  have hbit : SlotVector.bitAt s.stored_bitset g.index = true :=
    ((h.strong hp).2.1 g.index).mpr hg
  have hni : g.index ≠ x.index := fun h1 => hne (SlotId.index_injective h1.symm)
  refine ⟨?_, ?_, hbit⟩
  · rw [SlotVector.erase_values, getD_set_eq]
    have : ¬ (x.index = g.index ∧ x.index < s.values.length) := fun h1 => hni h1.1.symm
    simp only [this, if_false]
  · rw [SlotVector.erase_bitAt, hbit]
    simp [hni]

end Inv

/-- The insert that follows `2 ^ 31` inserts grows the pool to `2 ^ 32` slots and
returns the last new index, `0xFFFFFFFF`. -/
theorem SlotVector.insertMany_overflow_handle {T : Type} (v : T) :
    ((SlotVector.insertMany v (2 ^ 31)).1.insert v).2 = ⟨2 ^ 32 - 1⟩ := by
  obtain ⟨hcap, hfree⟩ := SlotVector.insertMany_full v 31 (by decide)
  have h1 : ((SlotVector.insertMany v (2 ^ 31)).1.insert v).2.index = 2 ^ 32 - 1 := by
    rw [SlotVector.insert_index]
    simp only [SlotVector.ensureFree, hfree, List.isEmpty_nil, if_true]
    have hg : (SlotVector.insertMany v (2 ^ 31)).1.grownCapacity = 2 ^ 32 := by
      simp only [SlotVector.grownCapacity, hcap, Nat.shiftLeft_eq]
      norm_num
    rw [hg, SlotVector.free_list_Reserve_of_nil _ _ hfree (by rw [hcap]; norm_num)
      (by norm_num), hcap]
    have h2 : 2 ^ 32 - 2 ^ 31 = (2 ^ 31 - 1) + 1 := by norm_num
    rw [h2, SlotVector.getLastD_iotaU32]
    norm_num
  exact SlotId.index_injective h1

/-! ### C1: uniqueness of live handles -/

/-- C1, as amended: for every sequence of `insert` and `erase` calls from the empty pool
in which each `erase` is applied to a live handle and at most `2 ^ 32` handles are live
at any time, the live handles are pairwise distinct at every point of the sequence. -/
theorem SlotVector.live_handles_nodup {T : Type} (s : SlotVector T) (L : List SlotId) (p : Nat)
    (h : Reach s L p) (hp : p ≤ 2 ^ 32) : L.Nodup :=
  (h.inv (by omega)).nodup hp

/-- Witness for C1: two inserts into an empty `SlotVector<Nat>`. -/
theorem SlotVector.live_handles_nodup_witness :
    Reach ((SlotVector.empty.insert 7).1.insert 8).1
        [((SlotVector.empty.insert 7).1.insert 8).2, (SlotVector.empty.insert (7 : Nat)).2] 2 ∧
      [((SlotVector.empty.insert 7).1.insert 8).2,
        (SlotVector.empty.insert (7 : Nat)).2].Nodup :=
  ⟨Reach.insert 8 (Reach.insert 7 Reach.empty),
   SlotVector.live_handles_nodup _ _ _ (Reach.insert 8 (Reach.insert 7 Reach.empty))
     (by decide)⟩

/-- Counterexample to C1 as stated: after `2 ^ 32 + 1` inserts into an empty pool (and no
erase) the live handles are not pairwise distinct, there being only `2 ^ 32` values of
the `u32` index. -/
theorem SlotVector.live_handles_collide :
    Reach (SlotVector.insertMany () (2 ^ 32 + 1)).1 (SlotVector.insertMany () (2 ^ 32 + 1)).2
        (2 ^ 32 + 1) ∧
      ¬ (SlotVector.insertMany () (2 ^ 32 + 1)).2.Nodup := by
  refine ⟨SlotVector.reach_insertMany _ _, ?_⟩
  intro hnd
  have hinv := (SlotVector.reach_insertMany () (2 ^ 32 + 1)).inv (by norm_num)
  have hlen := SlotVector.length_insertMany () (2 ^ 32 + 1)
  have h1 : ((SlotVector.insertMany () (2 ^ 32 + 1)).2.map SlotId.index).Nodup :=
    List.Nodup.map SlotId.index_injective hnd
  have h2 : (SlotVector.insertMany () (2 ^ 32 + 1)).2.map SlotId.index ⊆ List.range (2 ^ 32) := by
    intro x hx
    obtain ⟨g, hg, hgx⟩ := List.mem_map.mp hx
    rw [← hgx]
    exact List.mem_range.mpr (hinv.live_lt g hg)
  have h3 := (List.Nodup.subperm h1 h2).length_le
  rw [List.length_map, hlen, List.length_range] at h3
  omega

/-! ### C2: `insert` followed by `operator[]` -/

/-- C2, as amended: for every pool state reached while at most `2 ^ 32` handles are live
at any time (the new one included) and every value `v`, if `h = insert(v)` then the slot
of `h` is marked present and holds `v`, also when the insert grows the storage, and
`operator[](h)` returns `v` unless `h` is the invalid handle; `h` is not the invalid
handle while at most `2 ^ 31` handles are live at any time. -/
theorem SlotVector.insert_then_index {T : Type} (s : SlotVector T) (L : List SlotId) (p : Nat)
    (v : T) (hr : Reach s L p) (hp : max p (L.length + 1) ≤ 2 ^ 32) :
    (s.insert v).1.present (s.insert v).2.index = true ∧
    (s.insert v).1.values.getD (s.insert v).2.index none = some v ∧
    ((s.insert v).2.toBool = true → (s.insert v).1.operatorIndex (s.insert v).2 = some v) ∧
    (max p (L.length + 1) ≤ 2 ^ 31 → (s.insert v).2.toBool = true ∧
      (s.insert v).1.operatorIndex (s.insert v).2 = some v) := by
  have hinv := hr.inv (by omega)
  obtain ⟨hlt, _, hval, hbit⟩ := hinv.insert_self hp v
  have hpres : (s.insert v).1.present (s.insert v).2.index = true := by
    rw [SlotVector.present_eq_bitAt]
    exact hbit
  have hop : (s.insert v).2.toBool = true →
      (s.insert v).1.operatorIndex (s.insert v).2 = some v := by
    intro hb
    simp only [SlotVector.operatorIndex, SlotVector.ValidateIndex_eq, hb, hpres, Bool.and_self,
      if_true]
    exact hval
  refine ⟨hpres, hval, hop, ?_⟩
  intro hp31
  have hi := hinv.insert (by omega : L.length < 2 ^ 63) v
  have hb : (s.insert v).2.toBool = true := by
    have hc : (s.insert v).1.values_capacity < 2 ^ 32 := by
      rcases hi.cap_pow with h0 | ⟨_, h1⟩
      · omega
      · omega
    simp only [SlotId.toBool, SlotId.INVALID_INDEX, bne_iff_ne, ne_eq]
    omega
  exact ⟨hb, hop hb⟩

/-- Witness for C2: the third insert into an empty `SlotVector<Nat>`, which grows the
storage from two to four slots. -/
theorem SlotVector.insert_then_index_witness :
    (((SlotVector.empty.insert 7).1.insert 8).1.insert 9).1.operatorIndex
        (((SlotVector.empty.insert 7).1.insert 8).1.insert (9 : Nat)).2 = some 9 :=
  ((SlotVector.insert_then_index _ _ _ 9 (Reach.insert 8 (Reach.insert 7 Reach.empty))
    (by decide)).2.2.2 (by decide)).2

/-- Counterexample to C2 as stated: the insert that follows `2 ^ 31` inserts into an
empty pool returns the handle with index `0xFFFFFFFF`, the invalid handle, for which
`operator[]` fails its first assertion. -/
theorem SlotVector.insert_then_index_fails :
    Reach (SlotVector.insertMany () (2 ^ 31)).1 (SlotVector.insertMany () (2 ^ 31)).2 (2 ^ 31) ∧
    ((SlotVector.insertMany () (2 ^ 31)).1.insert ()).2 = SlotId.invalid ∧
    ((SlotVector.insertMany () (2 ^ 31)).1.insert ()).1.operatorIndex
      ((SlotVector.insertMany () (2 ^ 31)).1.insert ()).2 = none := by
  refine ⟨SlotVector.reach_insertMany _ _, SlotVector.insertMany_overflow_handle (), ?_⟩
  rw [SlotVector.insertMany_overflow_handle ()]
  exact SlotVector.operatorIndex_invalid _

/-! ### C3: the other live slots are untouched -/

/-- C3, as amended: in every pool state reached while at most `2 ^ 32` handles are live at
any time, every live handle `g` denotes a slot that holds an object, and after
`insert(v)` (also when it reallocates the storage by growth, as long as fewer than
`2 ^ 32` handles are live before it) and after `erase(h)` for a live `h` other than `g`,
`g` is still present, its slot holds the same object and `operator[](g)` gives the same
result as before. -/
theorem SlotVector.others_unchanged {T : Type} (s : SlotVector T) (L : List SlotId) (p : Nat)
    (g : SlotId) (hr : Reach s L p) (hp : p ≤ 2 ^ 32) (hg : g ∈ L) :
    (∃ w, s.values.getD g.index none = some w ∧
      (g.toBool = true → s.operatorIndex g = some w)) ∧
    (∀ v, L.length < 2 ^ 32 →
      (s.insert v).1.present g.index = true ∧
      (s.insert v).1.values.getD g.index none = s.values.getD g.index none ∧
      (s.insert v).1.operatorIndex g = s.operatorIndex g) ∧
    (∀ h, h ∈ L → h ≠ g →
      (s.erase h).present g.index = true ∧
      (s.erase h).values.getD g.index none = s.values.getD g.index none ∧
      (s.erase h).operatorIndex g = s.operatorIndex g) := by
  have hinv := hr.inv (by omega)
  refine ⟨?_, ?_, ?_⟩
  · obtain ⟨w, hw⟩ := (hinv.strong hp).2.2 g hg
    refine ⟨w, hw, ?_⟩
    intro hb
    have hbit := ((hinv.strong hp).2.1 g.index).mpr hg
    simp only [SlotVector.operatorIndex, SlotVector.ValidateIndex_eq,
      SlotVector.present_eq_bitAt, hb, hbit, Bool.and_self, if_true]
    exact hw
  · intro v hL
    obtain ⟨h1, h2, h3⟩ := hinv.insert_other (by omega : max p (L.length + 1) ≤ 2 ^ 32) v hg
    refine ⟨by rw [SlotVector.present_eq_bitAt]; exact h2, h1, ?_⟩
    simp only [SlotVector.operatorIndex, SlotVector.ValidateIndex_eq,
      SlotVector.present_eq_bitAt, h1, h2, h3]
  · intro h hh hne
    obtain ⟨h1, h2, h3⟩ := hinv.erase_other hp hg hne
    refine ⟨by rw [SlotVector.present_eq_bitAt]; exact h2, h1, ?_⟩
    simp only [SlotVector.operatorIndex, SlotVector.ValidateIndex_eq,
      SlotVector.present_eq_bitAt, h1, h2, h3]

/-- Witness for C3: after two inserts into an empty `SlotVector<Nat>`, the first handle
keeps its object over a third insert, which grows the storage. -/
theorem SlotVector.others_unchanged_witness :
    (((SlotVector.empty.insert 7).1.insert 8).1.insert 9).1.operatorIndex
        (SlotVector.empty.insert (7 : Nat)).2 =
      ((SlotVector.empty.insert 7).1.insert 8).1.operatorIndex
        (SlotVector.empty.insert (7 : Nat)).2 :=
  ((SlotVector.others_unchanged _ _ _ (SlotVector.empty.insert (7 : Nat)).2
    (Reach.insert 8 (Reach.insert 7 Reach.empty)) (by decide)
    (List.mem_cons_of_mem _ (List.mem_cons_self _ _))).2.1 9 (by decide)).2.2

/-- In a full pool of `2 ^ 32` slots the next insert wraps the new free indices, and the
insert after it overwrites the live slot `2 ^ 32 - 2`. -/
theorem SlotVector.wrap_overwrites {T : Type} (s : SlotVector T) (L : List SlotId) (p : Nat)
    (hinv : Inv s L p) (hp : p ≤ 2 ^ 32) (hcap : s.values_capacity = 2 ^ 32)
    (hfree : s.free_list = []) (a : T) :
    (⟨2 ^ 32 - 2⟩ : SlotId) ∈ L ∧
    (∃ w, (s.insert a).1.operatorIndex ⟨2 ^ 32 - 2⟩ = some w) ∧
    ∀ v, ((s.insert a).1.insert v).1.operatorIndex ⟨2 ^ 32 - 2⟩ = some v := by
  obtain ⟨hperm, hbit, hval⟩ := hinv.strong hp
  have hgL : (⟨2 ^ 32 - 2⟩ : SlotId) ∈ L := by
    rw [hfree, List.nil_append, hcap] at hperm
    exact (SlotId.mem_map_index L _).mp
      (hperm.mem_iff.mpr (List.mem_range.mpr (by norm_num)))
  have hg0 : SlotVector.bitAt s.stored_bitset (2 ^ 32 - 2) = true := (hbit _).mpr hgL
  obtain ⟨w, hw⟩ := hval _ hgL
  have hgrow : s.grownCapacity = 2 ^ 33 := by
    simp only [SlotVector.grownCapacity, hcap, Nat.shiftLeft_eq]
    norm_num
  have hens : s.ensureFree = s.Reserve (2 ^ 33) := by
    simp only [SlotVector.ensureFree, hfree, List.isEmpty_nil, if_true, hgrow]
  have hRfree : (s.Reserve (2 ^ 33)).free_list = iotaU32 ((2 ^ 32 - 1) + 1) 0 := by
    rw [SlotVector.free_list_Reserve_of_nil _ _ hfree (by rw [hcap]; norm_num) (by norm_num),
      hcap]
    norm_num
  have hidx1 : (s.insert a).2.index = 2 ^ 32 - 1 := by
    rw [SlotVector.insert_index, hens, hRfree, SlotVector.getLastD_iotaU32]
    norm_num
  have hfree1 : (s.insert a).1.free_list = iotaU32 ((2 ^ 32 - 2) + 1) 0 := by
    rw [SlotVector.insert_free_list, hens, hRfree, SlotVector.dropLast_iotaU32]
    norm_num
  have hbits1 : SlotVector.bitAt (s.insert a).1.stored_bitset (2 ^ 32 - 2) = true := by
    rw [SlotVector.insert_bitAt, hens, SlotVector.bitAt_Reserve, hg0]
    norm_num
  have hlen1 : (s.insert a).1.values.length = 2 ^ 33 := by
    rw [SlotVector.insert_values, List.length_set, hens, SlotVector.length_values_Reserve]
  have hval1 : (s.insert a).1.values.getD (2 ^ 32 - 2) none = some w := by
    rw [SlotVector.insert_values, getD_set_eq, hidx1, hens,
      SlotVector.getD_values_Reserve _ _ _ hinv.words_lt, hg0,
      if_neg (fun h => absurd h.1 (by norm_num)), if_pos ⟨rfl, by norm_num⟩]
    exact hw
  have hvalid : (⟨2 ^ 32 - 2⟩ : SlotId).toBool = true := by
    simp [SlotId.toBool, SlotId.INVALID_INDEX]
  have hens1 : (s.insert a).1.ensureFree = (s.insert a).1 := by
    simp only [SlotVector.ensureFree, hfree1, iotaU32, List.range_succ, List.map_append,
      List.map_cons, List.map_nil, List.isEmpty_eq_true, List.append_eq_nil, and_false,
      if_false]
    simp
  have hidx2 : ∀ v, ((s.insert a).1.insert v).2.index = 2 ^ 32 - 2 := by
    intro v
    rw [SlotVector.insert_index, hens1, hfree1, SlotVector.getLastD_iotaU32]
    norm_num
  refine ⟨hgL, ⟨w, ?_⟩, ?_⟩
  · simp only [SlotVector.operatorIndex, SlotVector.ValidateIndex_eq,
      SlotVector.present_eq_bitAt, hvalid, hbits1, Bool.and_self, if_true]
    exact hval1
  · intro v
    have hb2 : SlotVector.bitAt ((s.insert a).1.insert v).1.stored_bitset (2 ^ 32 - 2) = true := by
      rw [SlotVector.insert_bitAt, hens1, hbits1, Bool.or_true]
    have hv2 : ((s.insert a).1.insert v).1.values.getD (2 ^ 32 - 2) none = some v := by
      rw [SlotVector.insert_values, getD_set_eq, hidx2 v, hens1, hlen1]
      norm_num
    simp only [SlotVector.operatorIndex, SlotVector.ValidateIndex_eq,
      SlotVector.present_eq_bitAt, hvalid, hb2, Bool.and_self, if_true]
    exact hv2

/-- Counterexample to C3 as stated: in the pool reached by `2 ^ 32 + 1` inserts the handle
with index `2 ^ 32 - 2` is live and valid, and `operator[]` does not give the same result
for it after `insert(true)` and after `insert(false)` as before: the insert reuses
its index and overwrites its object. -/
theorem SlotVector.others_overwritten :
    Reach (SlotVector.insertMany false (2 ^ 32 + 1)).1 (SlotVector.insertMany false (2 ^ 32 + 1)).2
        (2 ^ 32 + 1) ∧
    (⟨2 ^ 32 - 2⟩ : SlotId) ∈ (SlotVector.insertMany false (2 ^ 32 + 1)).2 ∧
    ¬ ∀ v : Bool,
      ((SlotVector.insertMany false (2 ^ 32 + 1)).1.insert v).1.operatorIndex ⟨2 ^ 32 - 2⟩ =
        (SlotVector.insertMany false (2 ^ 32 + 1)).1.operatorIndex ⟨2 ^ 32 - 2⟩ := by
  obtain ⟨hcap, hfree⟩ := SlotVector.insertMany_full false 32 (by decide)
  have hinv := (SlotVector.reach_insertMany false (2 ^ 32)).inv (by norm_num)
  obtain ⟨hgL, ⟨w, hw⟩, hov⟩ :=
    SlotVector.wrap_overwrites _ _ _ hinv (Nat.le_refl _) hcap hfree false
  refine ⟨SlotVector.reach_insertMany _ _, ?_, ?_⟩
  · rw [SlotVector.insertMany]
    exact List.mem_cons_of_mem _ hgL
  · rw [SlotVector.insertMany]
    intro hall
    have h1 := hall (!w)
    rw [hov (!w), hw] at h1
    cases w <;> simp at h1

/-! ### C4: reuse of the erased index -/

/-- C4: in every pool state, `erase(h)` followed immediately by `insert(v)` returns a
handle with the index of `h` and leaves the capacity unchanged; in particular so for a
reachable state and a present handle `h`. -/
theorem SlotVector.erase_then_insert_reuses {T : Type} (s : SlotVector T) (h : SlotId) (v : T) :
    ((s.erase h).insert v).2.index = h.index ∧
      ((s.erase h).insert v).1.values_capacity = s.values_capacity := by
  have h1 : (s.erase h).ensureFree = s.erase h := by
    simp [SlotVector.ensureFree, SlotVector.erase, SlotVector.ResetStorageBit]
  constructor
  · simp only [SlotVector.insert, SlotVector.FreeValueIndex, h1]
    simp [SlotVector.erase, SlotVector.ResetStorageBit]
  · simp only [SlotVector.insert, SlotVector.FreeValueIndex, h1, SlotVector.SetStorageBit]
    rfl

/-! ### C5: growth and the capacity bound -/

theorem Reach.capacity_lt {T : Type} {s : SlotVector T} {L : List SlotId} {p : Nat}
    (h : Reach s L p) : s.values_capacity < 2 ^ 64 := by
  induction h with
  | empty => exact Nat.two_pow_pos 64
  | @insert s L p v _ ih =>
    rw [SlotVector.insert_capacity]
    unfold SlotVector.ensureFree
    split
    · show s.grownCapacity < 2 ^ 64
      unfold SlotVector.grownCapacity
      split
      · exact Nat.mod_lt _ (Nat.two_pow_pos 64)
      · norm_num
    · exact ih
  | erase g _ _ ih => exact ih

/-- C5, as amended: the capacity of a pool changes only when an `insert` finds the free
list empty, and then exactly doubles (0 becomes 1) as long as fewer than `2 ^ 63`
handles have been live at a time; while at most `2 ^ 32` handles have been live at a
time, the free list is empty only when every index below the capacity is present; and
for every sequence of `insert` and `erase` in which at most `K` handles are live at any
time, the capacity does not exceed any power of two that is at least `K`, hence not
the smallest one. -/
theorem SlotVector.capacity_growth {T : Type} (s : SlotVector T) (L : List SlotId)
    (p K m : Nat) (hr : Reach s L p) (hK : p ≤ K) (hm : K ≤ 2 ^ m) :
    s.values_capacity ≤ 2 ^ m ∧
    (∀ h, (s.erase h).values_capacity = s.values_capacity) ∧
    (∀ v, s.free_list ≠ [] → (s.insert v).1.values_capacity = s.values_capacity) ∧
    (∀ v, s.free_list = [] → p < 2 ^ 63 →
      (s.insert v).1.values_capacity =
        if s.values_capacity = 0 then 1 else 2 * s.values_capacity) ∧
    (s.free_list = [] → p ≤ 2 ^ 32 → ∀ i, i < s.values_capacity → s.present i = true) := by
  refine ⟨?_, fun _ => rfl, ?_, ?_, ?_⟩
  · rcases Nat.lt_or_ge m 64 with h1 | h1
    · have h2 : 2 ^ m ≤ 2 ^ 63 := Nat.pow_le_pow_right (by decide) (by omega)
      have hinv := hr.inv (by omega)
      rcases hinv.cap_pow with h0 | ⟨⟨k, hk⟩, hlt⟩
      · omega
      · rw [hk]
        apply Nat.pow_le_pow_right (by decide)
        have h3 : 2 ^ k < 2 ^ (m + 1) := by
          have : 2 ^ (m + 1) = 2 * 2 ^ m := by ring
          omega
        have := (Nat.pow_lt_pow_iff_right (by decide)).mp h3
        omega
    · have h2 : 2 ^ 64 ≤ 2 ^ m := Nat.pow_le_pow_right (by decide) h1
      have := hr.capacity_lt
      omega
  · intro v hne
    rw [SlotVector.insert_capacity]
    unfold SlotVector.ensureFree
    cases hf : s.free_list with
    | nil => exact absurd hf hne
    | cons x xs => rfl
  · intro v hf hp
    have hinv := hr.inv (by omega)
    obtain ⟨_, _, hcase⟩ := hinv.grownCapacity_cases hf
      (Nat.lt_of_le_of_lt hinv.len_le hp)
    rw [SlotVector.insert_capacity]
    simp only [SlotVector.ensureFree, hf, List.isEmpty_nil, if_true]
    show s.grownCapacity = _
    rcases hcase with ⟨h0, h1⟩ | ⟨h0, h1⟩
    · rw [h1, if_pos h0]
    · rw [h1, if_neg h0]
  · intro hf hp i hi
    have hinv := hr.inv (by omega)
    obtain ⟨hperm, hbit, _⟩ := hinv.strong hp
    rw [hf, List.nil_append] at hperm
    rw [SlotVector.present_eq_bitAt, hbit i]
    exact (SlotId.mem_map_index L i).mp (hperm.mem_iff.mpr (List.mem_range.mpr hi))

/-- Witness for C5: after two inserts into an empty `SlotVector<Nat>`, with at most
`2 = 2 ^ 1` live handles, the capacity is at most 2. -/
theorem SlotVector.capacity_growth_witness :
    ((SlotVector.empty.insert 7).1.insert (8 : Nat)).1.values_capacity ≤ 2 ^ 1 :=
  (SlotVector.capacity_growth _ _ _ 2 1 (Reach.insert 8 (Reach.insert 7 Reach.empty))
    (by decide) (by decide)).1

/-- Counterexample to C5 as stated: after `2 ^ 33` inserts into an empty pool the free
list is empty and the next insert doubles the capacity, although index `2 ^ 32`, which
lies below the capacity, is not present (no `u32` index reaches it). -/
theorem SlotVector.growth_without_full_bitset :
    Reach (SlotVector.insertMany () (2 ^ 33)).1 (SlotVector.insertMany () (2 ^ 33)).2 (2 ^ 33) ∧
    (SlotVector.insertMany () (2 ^ 33)).1.free_list = [] ∧
    ((SlotVector.insertMany () (2 ^ 33)).1.insert ()).1.values_capacity =
      2 * (SlotVector.insertMany () (2 ^ 33)).1.values_capacity ∧
    2 ^ 32 < (SlotVector.insertMany () (2 ^ 33)).1.values_capacity ∧
    (SlotVector.insertMany () (2 ^ 33)).1.present (2 ^ 32) = false := by
  obtain ⟨hcap, hfree⟩ := SlotVector.insertMany_full () 33 (by decide)
  have hr := SlotVector.reach_insertMany () (2 ^ 33)
  have hinv := hr.inv (by norm_num)
  refine ⟨hr, hfree, ?_, by rw [hcap]; norm_num, ?_⟩
  · obtain ⟨_, _, hcase⟩ := hinv.grownCapacity_cases hfree
      (by rw [SlotVector.length_insertMany]; norm_num)
    rw [SlotVector.insert_capacity_of_nil _ _ hfree]
    rcases hcase with ⟨h0, _⟩ | ⟨_, h1⟩
    · rw [hcap] at h0
      exact absurd h0 (by norm_num)
    · exact h1
  · rw [SlotVector.present_eq_bitAt]
    cases hb : SlotVector.bitAt (SlotVector.insertMany () (2 ^ 33)).1.stored_bitset (2 ^ 32)
    · rfl
    · exact absurd (hinv.bit_lt _ hb) (Nat.lt_irrefl _)

/-! ### C6: the presence bitset and `ValidateIndex` -/

/-- C6, as amended: in every pool state reached by `insert` and by `erase` of present
handles while at most `2 ^ 32` handles are live at any time, bit `i` of `stored_bitset`
is set if and only if index `i` was returned by `insert` and not erased since; the three
assertions of `ValidateIndex(id)` all hold exactly when `id` denotes a present slot and
is not the invalid handle, which no present slot has while at most `2 ^ 31` handles
are live at any time; they fail for the invalid handle, for an index beyond the bitset
and for an erased or never-inserted index. -/
theorem SlotVector.bitset_tracks_live {T : Type} (s : SlotVector T) (L : List SlotId) (p : Nat)
    (hr : Reach s L p) (hp : p ≤ 2 ^ 32) :
    (∀ i, s.present i = true ↔ (⟨i⟩ : SlotId) ∈ L) ∧
    (∀ id, s.ValidateIndex id = true ↔ (id ∈ L ∧ id ≠ SlotId.invalid)) ∧
    (p ≤ 2 ^ 31 → ∀ id, s.ValidateIndex id = true ↔ id ∈ L) ∧
    s.ValidateIndex SlotId.invalid = false ∧
    (∀ id, s.stored_bitset.length ≤ id.index / 64 → s.ValidateIndex id = false) ∧
    (∀ id, id ∉ L → s.ValidateIndex id = false) := by
  have hinv := hr.inv (by omega)
  obtain ⟨hperm, hbit, _⟩ := hinv.strong hp
  have hpres : ∀ i, s.present i = true ↔ (⟨i⟩ : SlotId) ∈ L := by
    intro i
    rw [SlotVector.present_eq_bitAt]
    exact hbit i
  have hvalid : ∀ id, s.ValidateIndex id = true ↔ (id ∈ L ∧ id ≠ SlotId.invalid) := by
    intro id
    rw [SlotVector.ValidateIndex_eq, Bool.and_eq_true, hpres id.index]
    have h1 : id.toBool = true ↔ id ≠ SlotId.invalid := by
      simp only [SlotId.toBool, bne_iff_ne, ne_eq, SlotId.invalid]
      constructor
      · intro h2 h3
        exact h2 (by rw [h3])
      · intro h2 h3
        exact h2 (SlotId.index_injective h3)
    rw [h1]
    exact And.comm
  refine ⟨hpres, hvalid, ?_, ?_, ?_, ?_⟩
  · intro hp31 id
    rw [hvalid id]
    constructor
    · exact fun h => h.1
    · intro h
      refine ⟨h, ?_⟩
      intro h2
      have h3 := hinv.index_lt_capacity hp h
      rw [h2] at h3
      simp only [SlotId.invalid, SlotId.INVALID_INDEX] at h3
      rcases hinv.cap_pow with h0 | ⟨_, h1⟩
      · omega
      · omega
  · exact SlotVector.ValidateIndex_invalid s
  · intro id hlen
    simp only [SlotVector.ValidateIndex, Nat.not_lt.mpr hlen, decide_False, Bool.and_false,
      Bool.false_and]
  · intro id hid
    cases hv : s.ValidateIndex id
    · rfl
    · exact absurd ((hvalid id).mp hv).1 hid

/-- Witness for C6: after one insert into an empty `SlotVector<Nat>` the returned handle
passes `ValidateIndex`. -/
theorem SlotVector.bitset_tracks_live_witness :
    (SlotVector.empty.insert (7 : Nat)).1.ValidateIndex (SlotVector.empty.insert (7 : Nat)).2 =
      true :=
  ((SlotVector.bitset_tracks_live _ _ _ (Reach.insert 7 Reach.empty) (by decide)).2.2.1
    (by decide) _).mpr (List.mem_cons_self _ _)

/-- Counterexample to C6 as stated: after `2 ^ 31 + 1` inserts into an empty pool the
handle with index `0xFFFFFFFF` was returned by `insert` and not erased and its bit is
set, yet the first assertion of `ValidateIndex` fails for it. -/
theorem SlotVector.present_slot_fails_validation :
    Reach (SlotVector.insertMany () (2 ^ 31 + 1)).1 (SlotVector.insertMany () (2 ^ 31 + 1)).2
        (2 ^ 31 + 1) ∧
    (⟨2 ^ 32 - 1⟩ : SlotId) ∈ (SlotVector.insertMany () (2 ^ 31 + 1)).2 ∧
    (SlotVector.insertMany () (2 ^ 31 + 1)).1.present (2 ^ 32 - 1) = true ∧
    (SlotVector.insertMany () (2 ^ 31 + 1)).1.ValidateIndex ⟨2 ^ 32 - 1⟩ = false := by
  have hr := SlotVector.reach_insertMany () (2 ^ 31 + 1)
  have hinv := hr.inv (by norm_num)
  have hmem : (⟨2 ^ 32 - 1⟩ : SlotId) ∈ (SlotVector.insertMany () (2 ^ 31 + 1)).2 := by
    rw [SlotVector.insertMany, SlotVector.insertMany_overflow_handle ()]
    exact List.mem_cons_self _ _
  refine ⟨hr, hmem, ?_, SlotVector.ValidateIndex_invalid _⟩
  rw [SlotVector.present_eq_bitAt]
  exact ((hinv.strong (by norm_num)).2.1 _).mpr hmem

/-! ### C7: `erase` makes no assertion -/

/-- C7, evaluated on the code: in a `SlotVector<Nat>` holding one object, a second
`erase` of the same handle (which `ValidateIndex` rejects) returns normally with the
index pushed on the free list once more, and the next two inserts return the same
handle. -/
theorem SlotVector.double_erase_unchecked :
    ((SlotVector.empty.insert (7 : Nat)).1.erase ⟨0⟩).ValidateIndex ⟨0⟩ = false ∧
    (((SlotVector.empty.insert (7 : Nat)).1.erase ⟨0⟩).erase ⟨0⟩).free_list = [0, 0] ∧
    ((((SlotVector.empty.insert (7 : Nat)).1.erase ⟨0⟩).erase ⟨0⟩).insert 8).2 = ⟨0⟩ ∧
    (((((SlotVector.empty.insert (7 : Nat)).1.erase ⟨0⟩).erase ⟨0⟩).insert 8).1.insert 9).2 =
      ⟨0⟩ := by
  decide


/-! ### The scratch table: basic facts -/

namespace ImageInfoPageTable

variable {Info : Type}

theorem wf_new : (new : ImageInfoPageTable Info).WF :=
  ⟨rfl, by simp only [new, List.length_replicate]⟩

theorem wf_Push {t : ImageInfoPageTable Info} (h : t.WF) (b : Nat) (p : Info) : (t.Push b p).WF :=
  ⟨by simp only [Push, List.length_set]; exact h.len_entries,
   by simp only [Push, List.length_set]; exact h.len_heads⟩

theorem wf_Restore {t : ImageInfoPageTable Info} (h : t.WF) (e : Entry Info) : (t.Restore e).WF :=
  ⟨h.len_entries, by simp only [Restore, List.length_set]; exact h.len_heads⟩

theorem pushAll_append (t : ImageInfoPageTable Info) (ps qs : List (Nat × Info)) :
    t.pushAll (ps ++ qs) = (t.pushAll ps).pushAll qs := by
  simp only [pushAll, List.foldl_append]

theorem free_id_Push (t : ImageInfoPageTable Info) (b : Nat) (p : Info) :
    (t.Push b p).free_id = (t.free_id + 1) % 2 ^ 32 := rfl

theorem entries_capacity_Push (t : ImageInfoPageTable Info) (b : Nat) (p : Info) :
    (t.Push b p).entries_capacity = t.entries_capacity := rfl

theorem headAt_Push (t : ImageInfoPageTable Info) (b : Nat) (p : Info) (pg : Nat) :
    (t.Push b p).headAt pg =
      if b >>> PAGE_BITS = pg ∧ b >>> PAGE_BITS < t.id_page_table.length then
        (t.free_id + 1) % 2 ^ 32
      else t.headAt pg := by
  simp only [headAt, Push, getD_set_eq]

variable [Inhabited Info]

theorem page_lt (a : Nat) (h : a < 2 ^ 40) : a >>> PAGE_BITS < NUM_PAGES := by
  simp only [PAGE_BITS, NUM_PAGES, ADDRESS_SPACE_BITS, Nat.shiftRight_eq_div_pow,
    Nat.one_shiftLeft]
  omega

theorem wf_Prepare {t : ImageInfoPageTable Info} (h : t.WF) (n : Nat) : (t.Prepare n).WF := by
  unfold Prepare
  split
  · exact ⟨by simp only [List.length_replicate], h.len_heads⟩
  · exact ⟨h.len_entries, h.len_heads⟩

theorem wf_pushAll (ps : List (Nat × Info)) :
    ∀ {t : ImageInfoPageTable Info}, t.WF → (t.pushAll ps).WF := by
  induction ps with
  | nil => intro t h; exact h
  | cons q ps ih => intro t h; exact ih (wf_Push h q.1 q.2)

theorem pushAll_concat (t : ImageInfoPageTable Info) (ps : List (Nat × Info)) (q : Nat × Info) :
    t.pushAll (ps ++ [q]) = (t.pushAll ps).Push q.1 q.2 := by
  rw [pushAll_append]
  rfl

theorem free_id_pushAll (ps : List (Nat × Info)) :
    ∀ t : ImageInfoPageTable Info, (t.pushAll ps).free_id = (t.free_id + ps.length) % 2 ^ 32 ∨
      (ps = [] ∧ (t.pushAll ps).free_id = t.free_id) := by
  induction ps with
  | nil => intro t; exact Or.inr ⟨rfl, rfl⟩
  | cons q ps ih =>
    intro t
    left
    have h1 : (t.pushAll (q :: ps)) = (t.Push q.1 q.2).pushAll ps := rfl
    rw [h1]
    rcases ih (t.Push q.1 q.2) with h2 | ⟨h2, h3⟩
    · rw [h2, free_id_Push, List.length_cons]
      omega
    · rw [h3, free_id_Push, h2, List.length_cons, List.length_nil]

theorem free_id_Prepare (t : ImageInfoPageTable Info) (n : Nat) :
    (t.Prepare n).free_id = INVALID_ID := by
  unfold Prepare
  split <;> rfl

theorem id_page_table_Prepare (t : ImageInfoPageTable Info) (n : Nat) :
    (t.Prepare n).id_page_table = t.id_page_table := by
  unfold Prepare
  split <;> rfl

theorem entries_capacity_Prepare (t : ImageInfoPageTable Info) (n : Nat) :
    (t.Prepare n).entries_capacity = max t.entries_capacity n := by
  unfold Prepare
  split
  · simp only
    omega
  · simp only
    omega

theorem entries_capacity_pushAll (ps : List (Nat × Info)) :
    ∀ t : ImageInfoPageTable Info, (t.pushAll ps).entries_capacity = t.entries_capacity := by
  induction ps with
  | nil => intro t; rfl
  | cons q ps ih =>
    intro t
    have h1 : (t.pushAll (q :: ps)) = (t.Push q.1 q.2).pushAll ps := rfl
    rw [h1, ih, entries_capacity_Push]

/-- The index of the next push in a pass that has seen `k < 2 ^ 32` pushes. -/
theorem next_index_pass (t0 : ImageInfoPageTable Info) (n : Nat) (ps : List (Nat × Info))
    (h : ps.length < 2 ^ 32) :
    (((t0.Prepare n).pushAll ps).free_id + 1) % 2 ^ 32 = ps.length := by
  rcases free_id_pushAll ps (t0.Prepare n) with h1 | ⟨h1, h2⟩
  · rw [h1, free_id_Prepare]
    simp only [INVALID_ID]
    omega
  · rw [h2, free_id_Prepare, h1]
    simp only [INVALID_ID, List.length_nil]
    omega

theorem entryAt_Push (t : ImageInfoPageTable Info) (b : Nat) (p : Info) (i : Nat) :
    (t.Push b p).entryAt i =
      if (t.free_id + 1) % 2 ^ 32 = i ∧ (t.free_id + 1) % 2 ^ 32 < t.entries.length then
        { info := p, next := t.headAt (b >>> PAGE_BITS), gpu_addr := b }
      else t.entryAt i := by
  simp only [entryAt, Push, getD_set_eq]

theorem seek_of_match (t : ImageInfoPageTable Info) (a fuel id : Nat)
    (h : id = INVALID_ID ∨ (t.entryAt id).gpu_addr = a) : t.seek a fuel id = some id := by
  have h1 : ¬ (id ≠ INVALID_ID ∧ (t.entryAt id).gpu_addr ≠ a) := by
    rintro ⟨h2, h3⟩
    rcases h with h4 | h4
    · exact h2 h4
    · exact h3 h4
  cases fuel <;> simp only [seek, h1, if_false]

theorem seek_result (t : ImageInfoPageTable Info) (a : Nat) :
    ∀ (fuel id r : Nat), t.seek a fuel id = some r →
      r = INVALID_ID ∨ (t.entryAt r).gpu_addr = a := by
  intro fuel
  induction fuel with
  | zero =>
    intro id r h
    simp only [seek] at h
    split at h
    · cases h
    · rename_i hc
      cases h
      by_cases h1 : id = INVALID_ID
      · exact Or.inl h1
      · right
        by_contra h2
        exact hc ⟨h1, h2⟩
  | succ fuel ih =>
    intro id r h
    simp only [seek] at h
    split at h
    · exact ih _ _ h
    · rename_i hc
      cases h
      by_cases h1 : id = INVALID_ID
      · exact Or.inl h1
      · right
        by_contra h2
        exact hc ⟨h1, h2⟩

/-- The `do ... while` of `Next` is the `while` of `AddressLinkedList` started at the
next link. -/
theorem nextLoop_succ (t : ImageInfoPageTable Info) (a : Nat) :
    ∀ (fuel id : Nat), t.nextLoop a (fuel + 1) id = t.seek a fuel (t.entryAt id).next := by
  intro fuel
  induction fuel with
  | zero =>
    intro id
    simp only [nextLoop, seek]
  | succ fuel ih =>
    intro id
    rw [nextLoop, seek]
    split
    · exact ih _
    · rfl

theorem nextLoop_result (t : ImageInfoPageTable Info) (a fuel id r : Nat)
    (h : t.nextLoop a fuel id = some r) : r = INVALID_ID ∨ (t.entryAt r).gpu_addr = a := by
  cases fuel with
  | zero => simp [nextLoop] at h
  | succ fuel =>
    rw [nextLoop_succ] at h
    exact seek_result t a _ _ _ h

end ImageInfoPageTable

/-! ### C8: `Push` followed by `AddressLinkedList` -/

/-- C8, as amended: for every table state after `Prepare(max_entries)` with fewer than
`max_entries` and fewer than `2 ^ 32 - 1` pushes so far, and every address
`addr < 2 ^ 40` and payload `p`: `Push(addr, p)` followed immediately by
`AddressLinkedList(addr)` yields (whatever the bound on the loop) an iterator that is
`Valid()` and whose `Info()` equals `p`. -/
theorem ImageInfoPageTable.push_then_lookup {Info : Type} [Inhabited Info]
    (t0 : ImageInfoPageTable Info) (max_entries : Nat) (ps : List (Nat × Info))
    (addr : Nat) (p : Info) (fuel : Nat) (hwf : t0.WF) (hk : ps.length < max_entries)
    (h32 : ps.length < 2 ^ 32 - 1) (ha : addr < 2 ^ 40) :
    ∃ it, (((t0.Prepare max_entries).pushAll ps).Push addr p).AddressLinkedList fuel addr =
        some it ∧
      it.Valid = true ∧
      it.Info (((t0.Prepare max_entries).pushAll ps).Push addr p) = p := by
  have hwf1 := wf_pushAll ps (wf_Prepare hwf max_entries)
  have hidx := next_index_pass t0 max_entries ps (by omega)
  have hlen : ps.length < ((t0.Prepare max_entries).pushAll ps).entries.length := by
    rw [hwf1.len_entries, entries_capacity_pushAll, entries_capacity_Prepare]
    omega
  have hpage := page_lt addr ha
  have hentry : (((t0.Prepare max_entries).pushAll ps).Push addr p).entryAt ps.length =
      { info := p
        next := ((t0.Prepare max_entries).pushAll ps).headAt (addr >>> PAGE_BITS)
        gpu_addr := addr } := by
    rw [entryAt_Push, hidx, if_pos ⟨rfl, hlen⟩]
  have hhead : (((t0.Prepare max_entries).pushAll ps).Push addr p).headAt (addr >>> PAGE_BITS) =
      ps.length := by
    rw [headAt_Push, hidx, if_pos ⟨rfl, by rw [hwf1.len_heads]; exact hpage⟩]
  refine ⟨{ gpu_addr := addr, id := ps.length }, ?_, ?_, ?_⟩
  · unfold AddressLinkedList
    rw [hhead, seek_of_match _ _ _ _ (Or.inr (by rw [hentry]))]
    rfl
  · simp only [Iterator.Valid, INVALID_ID, bne_iff_ne, ne_eq]
    omega
  · simp only [Iterator.Info, hentry]

/-- Witness for C8: a new table, `Prepare(4)`, one push, then the push of payload 12
under address 5. -/
theorem ImageInfoPageTable.push_then_lookup_witness :
    ∃ it, ((((new : ImageInfoPageTable Nat).Prepare 4).pushAll [(7, 11)]).Push 5 12).AddressLinkedList
        3 5 = some it ∧
      it.Valid = true ∧
      it.Info ((((new : ImageInfoPageTable Nat).Prepare 4).pushAll [(7, 11)]).Push 5 12) = 12 :=
  ImageInfoPageTable.push_then_lookup new 4 [(7, 11)] 5 12 3 wf_new (by decide) (by decide)
    (by decide)

/-- Counterexample to C8 as stated: on a new table, after `Prepare(2 ^ 32)` and
`2 ^ 32 - 1` pushes, the next `Push(0, p)` gets the index `0xFFFFFFFF`, which is
`INVALID_ID`, and `AddressLinkedList(0)` yields no valid iterator. -/
theorem ImageInfoPageTable.push_then_lookup_fails :
    (List.replicate (2 ^ 32 - 1) ((0 : Nat), ())).length < 2 ^ 32 ∧
    ¬ ∃ fuel it,
      ((((new : ImageInfoPageTable Unit).Prepare (2 ^ 32)).pushAll
          (List.replicate (2 ^ 32 - 1) (0, ()))).Push 0 ()).AddressLinkedList fuel 0 = some it ∧
      it.Valid = true := by
  refine ⟨by rw [List.length_replicate]; norm_num, ?_⟩
  rintro ⟨fuel, it, h1, h2⟩
  have hwf1 := wf_pushAll (List.replicate (2 ^ 32 - 1) ((0 : Nat), ()))
    (wf_Prepare (wf_new : (new : ImageInfoPageTable Unit).WF) (2 ^ 32))
  have hfree : ((((new : ImageInfoPageTable Unit).Prepare (2 ^ 32)).pushAll
      (List.replicate (2 ^ 32 - 1) (0, ()))).free_id + 1) % 2 ^ 32 = INVALID_ID := by
    rw [next_index_pass _ _ _ (by rw [List.length_replicate]; norm_num), List.length_replicate]
    rfl
  have hhead : ((((new : ImageInfoPageTable Unit).Prepare (2 ^ 32)).pushAll
      (List.replicate (2 ^ 32 - 1) (0, ()))).Push 0 ()).headAt (0 >>> PAGE_BITS) = INVALID_ID := by
    rw [headAt_Push, hfree, if_pos ⟨rfl, by rw [hwf1.len_heads]; exact page_lt 0 (by norm_num)⟩]
  unfold AddressLinkedList at h1
  rw [hhead, seek_of_match _ _ _ _ (Or.inl rfl)] at h1
  simp only [Option.map_some', Option.some.injEq] at h1
  rw [← h1] at h2
  simp [Iterator.Valid] at h2

/-! ### Where the loops of `AddressLinkedList` and `Next` stop -/

namespace ImageInfoPageTable

variable {Info : Type} [Inhabited Info]

theorem AddressLinkedList_result (t : ImageInfoPageTable Info) (a fuel : Nat) (it : Iterator)
    (h : t.AddressLinkedList fuel a = some it) :
    it.gpu_addr = a ∧ (it.Valid = true → (t.entryAt it.id).gpu_addr = a) := by
  unfold AddressLinkedList at h
  obtain ⟨r, hr, hit⟩ := Option.map_eq_some'.mp h
  rw [← hit]
  refine ⟨rfl, ?_⟩
  intro hv
  rcases seek_result t a _ _ _ hr with h1 | h1
  · simp [Iterator.Valid, h1] at hv
  · exact h1

theorem Next_result (t : ImageInfoPageTable Info) (a fuel : Nat) (it it2 : Iterator)
    (ha : it.gpu_addr = a) (h : it.Next fuel t = some it2) :
    it2.gpu_addr = a ∧ (it2.Valid = true → (t.entryAt it2.id).gpu_addr = a) := by
  unfold Iterator.Next at h
  obtain ⟨r, hr, hit⟩ := Option.map_eq_some'.mp h
  rw [← hit]
  refine ⟨ha, ?_⟩
  intro hv
  rw [ha] at hr
  rcases nextLoop_result t a _ _ _ hr with h1 | h1
  · simp [Iterator.Valid, h1] at hv
  · exact h1

theorem iterate_result (t : ImageInfoPageTable Info) (a inner : Nat) :
    ∀ (fuel : Nat) (it : Iterator) (l : List Info), it.gpu_addr = a →
      (it.Valid = true → (t.entryAt it.id).gpu_addr = a) →
      t.iterate inner fuel it = some l →
      ∀ x ∈ l, ∃ id, id ≠ INVALID_ID ∧ (t.entryAt id).gpu_addr = a ∧ (t.entryAt id).info = x := by
  intro fuel
  induction fuel with
  | zero =>
    intro it l _ _ h x hx
    simp only [iterate] at h
    split at h
    · cases h
    · cases h
      cases hx
  | succ fuel ih =>
    intro it l ha hv h x hx
    simp only [iterate] at h
    split at h
    · rename_i hval
      obtain ⟨it2, h2, h3⟩ := Option.bind_eq_some.mp h
      obtain ⟨l2, h4, h5⟩ := Option.map_eq_some'.mp h3
      rw [← h5] at hx
      rcases List.mem_cons.mp hx with h6 | h6
      · refine ⟨it.id, ?_, hv hval, ?_⟩
        · simpa [Iterator.Valid] using hval
        · rw [h6]
          rfl
      · obtain ⟨h7, h8⟩ := Next_result t a inner it it2 ha h2
        exact ih it2 l2 h7 h8 h4 x h6
    · cases h
      cases hx

end ImageInfoPageTable

/-! ### C10: the chain of an address within one pass -/

namespace ImageInfoPageTable

variable {Info : Type} [Inhabited Info]

/-- A larger bound does not change the result of a loop that ended. -/
theorem seek_mono (t : ImageInfoPageTable Info) (a : Nat) :
    ∀ (f id r : Nat), t.seek a f id = some r → ∀ g, f ≤ g → t.seek a g id = some r := by
  intro f
  induction f with
  | zero =>
    intro id r h g _
    simp only [seek] at h
    split at h
    · cases h
    · rename_i hc
      cases g <;> simp only [seek, hc, if_false] <;> exact h
  | succ f ih =>
    intro id r h g hg
    obtain ⟨g2, rfl⟩ : ∃ g2, g = g2 + 1 := ⟨g - 1, by omega⟩
    simp only [seek] at h ⊢
    split
    · rename_i hc
      rw [if_pos hc] at h
      exact ih _ _ h g2 (by omega)
    · rename_i hc
      rw [if_neg hc] at h
      exact h

theorem nextLoop_mono (t : ImageInfoPageTable Info) (a f id r : Nat)
    (h : t.nextLoop a f id = some r) (g : Nat) (hg : f ≤ g) : t.nextLoop a g id = some r := by
  cases f with
  | zero => simp [nextLoop] at h
  | succ f =>
    obtain ⟨g2, rfl⟩ : ∃ g2, g = g2 + 1 := ⟨g - 1, by omega⟩
    rw [nextLoop_succ] at h ⊢
    exact seek_mono t a f _ r h g2 (by omega)

theorem Next_mono (t : ImageInfoPageTable Info) (f : Nat) (it it2 : Iterator)
    (h : it.Next f t = some it2) (g : Nat) (hg : f ≤ g) : it.Next g t = some it2 := by
  unfold Iterator.Next at h ⊢
  obtain ⟨r, hr, hit⟩ := Option.map_eq_some'.mp h
  rw [nextLoop_mono t _ f _ r hr g hg]
  simp only [Option.map_some', hit]

theorem iterate_mono (t : ImageInfoPageTable Info) (inner inner2 : Nat) (hi : inner ≤ inner2) :
    ∀ (f : Nat) (it : Iterator) (l : List Info), t.iterate inner f it = some l →
      ∀ g, f ≤ g → t.iterate inner2 g it = some l := by
  intro f
  induction f with
  | zero =>
    intro it l h g _
    simp only [iterate] at h
    split at h
    · cases h
    · rename_i hv
      cases g <;> simp only [iterate, hv] <;> exact h
  | succ f ih =>
    intro it l h g hg
    obtain ⟨g2, rfl⟩ : ∃ g2, g = g2 + 1 := ⟨g - 1, by omega⟩
    simp only [iterate] at h ⊢
    split
    · rename_i hv
      rw [if_pos hv] at h
      obtain ⟨it2, h2, h3⟩ := Option.bind_eq_some.mp h
      obtain ⟨l2, h4, h5⟩ := Option.map_eq_some'.mp h3
      rw [Next_mono t inner it it2 h2 inner2 hi]
      simp only [Option.some_bind]
      rw [ih it2 l2 h4 g2 (by omega)]
      simp only [Option.map_some', h5]
    · rename_i hv
      rw [if_neg hv] at h
      exact h

namespace Pass

variable {t : ImageInfoPageTable Info} {k : Nat}

/-- The loop stays among the entries of the pass. -/
theorem seek_bound (h : Pass t k) (a : Nat) :
    ∀ (f id r : Nat), (id = INVALID_ID ∨ id < k) → t.seek a f id = some r →
      r = INVALID_ID ∨ r < k := by
  intro f
  induction f with
  | zero =>
    intro id r hid hs
    simp only [seek] at hs
    split at hs
    · cases hs
    · cases hs
      exact hid
  | succ f ih =>
    intro id r hid hs
    simp only [seek] at hs
    split at hs
    · rename_i hc
      rcases hid with h1 | h1
      · exact absurd h1 hc.1
      · rcases h.links id h1 with h2 | h2
        · exact ih _ _ (Or.inl h2) hs
        · exact ih _ _ (Or.inr (by omega)) hs
    · cases hs
      exact hid

theorem entryAt_Push_of_lt (h : Pass t k) (_hk : k < t.entries.length) (b : Nat) (p : Info)
    {i : Nat} (hi : i < k) : (t.Push b p).entryAt i = t.entryAt i := by
  rw [entryAt_Push, h.next_idx]
  have : ¬ (k = i ∧ k < t.entries.length) := by omega
  simp only [this, if_false]

theorem entryAt_Push_self (h : Pass t k) (hk : k < t.entries.length) (b : Nat) (p : Info) :
    (t.Push b p).entryAt k =
      { info := p, next := t.headAt (b >>> PAGE_BITS), gpu_addr := b } := by
  rw [entryAt_Push, h.next_idx, if_pos ⟨rfl, hk⟩]

/-- A push does not change the loops over the earlier entries. -/
theorem seek_Push (h : Pass t k) (hk : k < t.entries.length) (b : Nat) (p : Info) (a : Nat) :
    ∀ (f id : Nat), (id = INVALID_ID ∨ id < k) →
      (t.Push b p).seek a f id = t.seek a f id := by
  intro f
  induction f with
  | zero =>
    intro id hid
    simp only [seek]
    rcases hid with h1 | h1
    · simp [h1]
    · rw [h.entryAt_Push_of_lt hk b p h1]
  | succ f ih =>
    intro id hid
    simp only [seek]
    rcases hid with h1 | h1
    · simp [h1]
    · rw [h.entryAt_Push_of_lt hk b p h1]
      split
      · rcases h.links id h1 with h2 | h2
        · exact ih _ (Or.inl h2)
        · exact ih _ (Or.inr (by omega))
      · rfl

theorem Next_Push (h : Pass t k) (hk : k < t.entries.length) (b : Nat) (p : Info) (f : Nat)
    (it : Iterator) (hid : it.id < k) : it.Next f (t.Push b p) = it.Next f t := by
  unfold Iterator.Next
  cases f with
  | zero => rfl
  | succ f =>
    rw [nextLoop_succ, nextLoop_succ, h.entryAt_Push_of_lt hk b p hid]
    rcases h.links it.id hid with h2 | h2
    · rw [h.seek_Push hk b p _ f _ (Or.inl h2)]
    · rw [h.seek_Push hk b p _ f _ (Or.inr (by omega))]

theorem Next_bound (h : Pass t k) (f : Nat) (it it2 : Iterator) (hid : it.id < k)
    (hn : it.Next f t = some it2) : it2.id = INVALID_ID ∨ it2.id < k := by
  unfold Iterator.Next at hn
  obtain ⟨r, hr, hit⟩ := Option.map_eq_some'.mp hn
  rw [← hit]
  cases f with
  | zero => simp [nextLoop] at hr
  | succ f =>
    rw [nextLoop_succ] at hr
    rcases h.links it.id hid with h2 | h2
    · exact h.seek_bound _ f _ r (Or.inl h2) hr
    · exact h.seek_bound _ f _ r (Or.inr (by omega)) hr

theorem iterate_Push (h : Pass t k) (hk : k < t.entries.length) (b : Nat) (p : Info)
    (inner : Nat) :
    ∀ (f : Nat) (it : Iterator), (it.id = INVALID_ID ∨ it.id < k) →
      (t.Push b p).iterate inner f it = t.iterate inner f it := by
  intro f
  induction f with
  | zero =>
    intro it _
    rfl
  | succ f ih =>
    intro it hid
    simp only [iterate]
    split
    · rename_i hv
      have hlt : it.id < k := by
        rcases hid with h1 | h1
        · simp [Iterator.Valid, h1] at hv
        · exact h1
      rw [h.Next_Push hk b p inner it hlt]
      cases hn : it.Next inner t with
      | none => rfl
      | some it2 =>
        simp only [Option.some_bind]
        rw [ih it2 (h.Next_bound inner it it2 hlt hn)]
        simp only [Iterator.Info, h.entryAt_Push_of_lt hk b p hlt]
    · rfl

/-- The invariant after `Prepare` on a table whose page heads are all empty. -/
theorem of_Prepare {t0 : ImageInfoPageTable Info} (hwf : t0.WF)
    (hclean : ∀ pg, t0.headAt pg = INVALID_ID) (n : Nat) : Pass (t0.Prepare n) 0 where
  wf := wf_Prepare hwf n
  k_le := Nat.zero_le _
  k_lt := Nat.two_pow_pos 32
  next_idx := by
    rw [free_id_Prepare]
    simp only [INVALID_ID]
    omega
  heads := by
    intro pg
    left
    simp only [headAt, id_page_table_Prepare]
    exact hclean pg
  links := by
    intro i hi
    omega

/-- The invariant is kept by a push that has room in the entry array. -/
theorem push (h : Pass t k) (hk : k < t.entries.length) (h32 : k + 1 < 2 ^ 32) (b : Nat)
    (p : Info) : Pass (t.Push b p) (k + 1) where
  wf := wf_Push h.wf b p
  k_le := by
    simp only [Push, List.length_set]
    omega
  k_lt := h32
  next_idx := by
    rw [free_id_Push, h.next_idx]
    omega
  heads := by
    intro pg
    rw [headAt_Push, h.next_idx]
    split
    · right
      omega
    · rcases h.heads pg with h1 | h1
      · exact Or.inl h1
      · right
        omega
  links := by
    intro i hi
    rcases Nat.lt_or_ge i k with h1 | h1
    · rw [h.entryAt_Push_of_lt hk b p h1]
      exact h.links i h1
    · have h2 : i = k := by omega
      rw [h2, h.entryAt_Push_self hk b p]
      exact h.heads _

end Pass

/-- With an empty page head the iteration yields nothing. -/
theorem yielded_of_head_invalid (t : ImageInfoPageTable Info) (a fuel : Nat)
    (h : t.headAt (a >>> PAGE_BITS) = INVALID_ID) : t.yielded fuel a = some [] := by
  unfold yielded AddressLinkedList
  rw [h, seek_of_match _ _ _ _ (Or.inl rfl)]
  simp only [Option.map_some', Option.some_bind]
  cases fuel <;> simp [iterate, Iterator.Valid]

theorem pushedUnder_concat (ps : List (Nat × Info)) (b : Nat) (p : Info) (a : Nat) :
    pushedUnder (ps ++ [(b, p)]) a =
      if b = a then p :: pushedUnder ps a else pushedUnder ps a := by
  unfold pushedUnder
  rw [List.filter_append]
  by_cases h : b = a
  · simp [h]
  · simp [h]

/-- The pass invariant and the chains after the pushes `ps` of a pass. -/
theorem pass_pushAll {t0 : ImageInfoPageTable Info} (hwf : t0.WF)
    (hclean : ∀ pg, t0.headAt pg = INVALID_ID) (n : Nat) (ps : List (Nat × Info)) :
    ps.length ≤ n → ps.length < 2 ^ 32 →
      Pass ((t0.Prepare n).pushAll ps) ps.length ∧
      ∀ a fuel, a < 2 ^ 40 → ps.length ≤ fuel →
        ((t0.Prepare n).pushAll ps).yielded fuel a = some (pushedUnder ps a) := by
  induction ps using List.reverseRecOn with
  | nil =>
    intro _ _
    have hp := Pass.of_Prepare hwf hclean n
    refine ⟨hp, ?_⟩
    intro a fuel _ _
    have hh : ((t0.Prepare n).pushAll []).headAt (a >>> PAGE_BITS) = INVALID_ID := by
      rcases hp.heads (a >>> PAGE_BITS) with h1 | h1
      · exact h1
      · exact absurd h1 (Nat.not_lt_zero _)
    unfold yielded AddressLinkedList
    rw [hh, seek_of_match _ _ _ _ (Or.inl rfl)]
    simp only [Option.map_some', Option.some_bind]
    cases fuel <;> simp [iterate, Iterator.Valid, pushedUnder]
  | append_singleton ps q ih =>
    intro hn h32
    rw [List.length_append, List.length_singleton] at hn h32
    obtain ⟨hp, hy⟩ := ih (by omega) (by omega)
    have hlen : ((t0.Prepare n).pushAll ps).entries.length = max t0.entries_capacity n := by
      rw [hp.wf.len_entries, entries_capacity_pushAll, entries_capacity_Prepare]
    have hk : ps.length < ((t0.Prepare n).pushAll ps).entries.length := by
      rw [hlen]
      omega
    obtain ⟨b, p⟩ := q
    rw [pushAll_concat, List.length_append, List.length_singleton]
    refine ⟨hp.push hk h32 b p, ?_⟩
    intro a fuel ha hfuel
    obtain ⟨f, rfl⟩ : ∃ f, fuel = f + 1 := ⟨fuel - 1, by omega⟩
    have hf : ps.length ≤ f := by omega
    -- the chain of `a` before the push, with the smaller bound
    have hy0 := hy a f ha hf
    unfold yielded AddressLinkedList at hy0
    obtain ⟨it, h1, h2⟩ := Option.bind_eq_some.mp hy0
    obtain ⟨r, hr, hit⟩ := Option.map_eq_some'.mp h1
    have hh0 := hp.heads (a >>> PAGE_BITS)
    have hrb := hp.seek_bound a f _ r hh0 hr
    rw [← hit] at h2
    have hvalid : ps.length ≠ INVALID_ID := by
      simp only [INVALID_ID]
      omega
    rw [pushedUnder_concat]
    unfold yielded AddressLinkedList
    simp only
    rw [headAt_Push, hp.next_idx]
    by_cases hpage : b >>> PAGE_BITS = a >>> PAGE_BITS
    · have hin : b >>> PAGE_BITS < ((t0.Prepare n).pushAll ps).id_page_table.length := by
        rw [hp.wf.len_heads, hpage]
        exact page_lt a ha
      rw [if_pos ⟨hpage, hin⟩]
      by_cases hba : b = a
      · rw [if_pos hba, seek_of_match _ _ _ _
          (Or.inr (by rw [hp.entryAt_Push_self hk b p]; exact hba))]
        simp only [Option.map_some', Option.some_bind, iterate, Iterator.Valid, bne_iff_ne, ne_eq,
          hvalid, not_false_eq_true, decide_True, if_true, Iterator.Next]
        rw [nextLoop_succ, hp.entryAt_Push_self hk b p]
        simp only
        rw [hpage, hp.seek_Push hk b p a f _ hh0, hr]
        simp only [Option.map_some', Option.some_bind]
        rw [hp.iterate_Push hk b p (f + 1) f _ hrb,
          iterate_mono _ f (f + 1) (by omega) f _ _ h2 f (Nat.le_refl _)]
        simp only [Option.map_some', Iterator.Info, hp.entryAt_Push_self hk b p]
      · rw [if_neg hba]
        have hs : (((t0.Prepare n).pushAll ps).Push b p).seek a (f + 1) ps.length = some r := by
          have hc : ps.length ≠ INVALID_ID ∧
              ((((t0.Prepare n).pushAll ps).Push b p).entryAt ps.length).gpu_addr ≠ a := by
            refine ⟨hvalid, ?_⟩
            rw [hp.entryAt_Push_self hk b p]
            exact hba
          rw [seek, if_pos hc, hp.entryAt_Push_self hk b p]
          simp only
          rw [hpage, hp.seek_Push hk b p a f _ hh0, hr]
        rw [hs]
        simp only [Option.map_some', Option.some_bind]
        rw [hp.iterate_Push hk b p (f + 1) (f + 1) ⟨a, r⟩ hrb]
        exact iterate_mono _ f (f + 1) (by omega) f _ _ h2 (f + 1) (by omega)
    · have hne : b ≠ a := fun h => hpage (by rw [h])
      have hnc : ¬ (b >>> PAGE_BITS = a >>> PAGE_BITS ∧
          b >>> PAGE_BITS < ((t0.Prepare n).pushAll ps).id_page_table.length) :=
        fun h => hpage h.1
      rw [if_neg hnc, if_neg hne, hp.seek_Push hk b p a (f + 1) _ hh0,
        seek_mono _ a f _ r hr (f + 1) (by omega)]
      simp only [Option.map_some', Option.some_bind]
      rw [hp.iterate_Push hk b p (f + 1) (f + 1) ⟨a, r⟩ hrb]
      exact iterate_mono _ f (f + 1) (by omega) f _ _ h2 (f + 1) (by omega)

/-- Entry `i` of a pass holds the address and the payload of its push number `i`. -/
theorem content_pushAll {t0 : ImageInfoPageTable Info} (hwf : t0.WF)
    (hclean : ∀ pg, t0.headAt pg = INVALID_ID) (n : Nat) (ps : List (Nat × Info)) :
    ps.length ≤ n → ps.length < 2 ^ 32 → ∀ i q, ps[i]? = some q →
      (((t0.Prepare n).pushAll ps).entryAt i).gpu_addr = q.1 ∧
      (((t0.Prepare n).pushAll ps).entryAt i).info = q.2 := by
  induction ps using List.reverseRecOn with
  | nil =>
    intro _ _ i q h
    simp at h
  | append_singleton ps q0 ih =>
    intro hn h32 i q h
    rw [List.length_append, List.length_singleton] at hn h32
    obtain ⟨hp, _⟩ := pass_pushAll hwf hclean n ps (by omega) (by omega)
    have hk : ps.length < ((t0.Prepare n).pushAll ps).entries.length := by
      rw [hp.wf.len_entries, entries_capacity_pushAll, entries_capacity_Prepare]
      omega
    rw [pushAll_concat]
    rcases Nat.lt_or_ge i ps.length with h1 | h1
    · rw [List.getElem?_append_left h1] at h
      rw [hp.entryAt_Push_of_lt hk _ _ h1]
      exact ih (by omega) (by omega) i q h
    · rw [List.getElem?_append_right h1] at h
      have h2 : i = ps.length := by
        by_contra hne
        have h3 : i - ps.length = (i - ps.length - 1) + 1 := by omega
        rw [h3] at h
        simp at h
      subst h2
      simp only [Nat.sub_self, List.getElem?_cons_zero, Option.some.injEq] at h
      rw [hp.entryAt_Push_self hk, ← h]
      exact ⟨rfl, rfl⟩

/-- In a pass, a valid position reached from a page head or by `Next` is the index of a
push of the pass. -/
theorem position_pushAll {t0 : ImageInfoPageTable Info} (hwf : t0.WF)
    (hclean : ∀ pg, t0.headAt pg = INVALID_ID) (n : Nat) (ps : List (Nat × Info))
    (hn : ps.length ≤ n) (h32 : ps.length < 2 ^ 32) (a fuel : Nat) (it : Iterator)
    (hit : ((t0.Prepare n).pushAll ps).AddressLinkedList fuel a = some it ∨
      ∃ it0 : Iterator, it0.gpu_addr = a ∧ it0.id < ps.length ∧
        it0.Next fuel ((t0.Prepare n).pushAll ps) = some it)
    (hv : it.Valid = true) :
    ∃ q, ps[it.id]? = some q ∧ q.1 = a ∧ q.2 = it.Info ((t0.Prepare n).pushAll ps) := by
  obtain ⟨hp, _⟩ := pass_pushAll hwf hclean n ps hn h32
  have hne : it.id ≠ INVALID_ID := by simpa [Iterator.Valid] using hv
  have hlt : it.id < ps.length := by
    rcases hit with h1 | ⟨it0, _, h2, h3⟩
    · unfold AddressLinkedList at h1
      obtain ⟨r, hr, hr2⟩ := Option.map_eq_some'.mp h1
      rw [← hr2] at hne ⊢
      rcases hp.seek_bound a fuel _ r (hp.heads _) hr with h4 | h4
      · exact absurd h4 hne
      · exact h4
    · rcases hp.Next_bound fuel it0 it h2 h3 with h4 | h4
      · exact absurd h4 hne
      · exact h4
  have haddr : (((t0.Prepare n).pushAll ps).entryAt it.id).gpu_addr = a := by
    rcases hit with h1 | ⟨it0, h1, _, h3⟩
    · exact (AddressLinkedList_result _ a fuel it h1).2 hv
    · exact (Next_result _ a fuel it0 it h1 h3).2 hv
  refine ⟨ps[it.id], List.getElem?_eq_getElem hlt, ?_, ?_⟩
  · rw [← (content_pushAll hwf hclean n ps hn h32 it.id _ (List.getElem?_eq_getElem hlt)).1]
    exact haddr
  · exact ((content_pushAll hwf hclean n ps hn h32 it.id _ (List.getElem?_eq_getElem hlt)).2).symm

end ImageInfoPageTable

/-! ### C9: what an iterator yields -/

namespace ImageInfoPageTable

theorem entries_Prepare_grow {Info : Type} [Inhabited Info] (t : ImageInfoPageTable Info)
    (n : Nat) (h : t.entries_capacity < n) :
    (t.Prepare n).entries = List.replicate n zeroEntry := by
  unfold Prepare
  rw [if_pos h]

end ImageInfoPageTable

/-- Counterexample for C9: a head that no `Restore` has reset survives `Prepare`.  After
`Prepare(4)`, the push of the payload 10 under address 5 and `Prepare(8)`, which
replaces the entries by zeroed ones, the head of page 0 still holds index 0, and entry 0
has the address field 0: for every loop bound `AddressLinkedList(0)` returns a valid
iterator, on entry 0, whose `Info()` is the zeroed payload, although nothing was ever
pushed under address 0 (and nothing at all in this pass: the range is empty). -/
theorem ImageInfoPageTable.stale_head_yields_unpushed :
    ((((new : ImageInfoPageTable Nat).Prepare 4).Push 5 10).Prepare 8).range = [] ∧
    ∀ fuel, ∃ it,
      ((((new : ImageInfoPageTable Nat).Prepare 4).Push 5 10).Prepare 8).AddressLinkedList
        fuel 0 = some it ∧
      it.Valid = true ∧ it.id = 0 ∧
      it.Info ((((new : ImageInfoPageTable Nat).Prepare 4).Push 5 10).Prepare 8) = 0 := by
  have hnum : ((((new : ImageInfoPageTable Nat).Prepare 4).Push 5 10).Prepare 8).numEntries =
      0 := by
    unfold numEntries
    rw [free_id_Prepare]
    decide
  refine ⟨by rw [range, hnum, List.take_zero], ?_⟩
  intro fuel
  have hcap : (((new : ImageInfoPageTable Nat).Prepare 4).Push 5 10).entries_capacity < 8 := by
    rw [entries_capacity_Push, entries_capacity_Prepare]
    decide
  have hent : ((((new : ImageInfoPageTable Nat).Prepare 4).Push 5 10).Prepare 8).entryAt 0 =
      zeroEntry := by
    unfold entryAt
    rw [entries_Prepare_grow _ _ hcap]
    rfl
  have hhead : ((((new : ImageInfoPageTable Nat).Prepare 4).Push 5 10).Prepare 8).headAt
      (0 >>> PAGE_BITS) = 0 := by
    have hwf := wf_Prepare (wf_new : (new : ImageInfoPageTable Nat).WF) 4
    have h0 : (0 : Nat) >>> PAGE_BITS = 0 := Nat.zero_shiftRight _
    rw [h0, headAt, id_page_table_Prepare]
    show (((new : ImageInfoPageTable Nat).Prepare 4).Push 5 10).headAt 0 = 0
    rw [headAt_Push, free_id_Prepare, if_pos]
    · decide
    · refine ⟨by decide, ?_⟩
      rw [hwf.len_heads]
      decide
  refine ⟨{ gpu_addr := 0, id := 0 }, ?_, by decide, rfl, ?_⟩
  · unfold AddressLinkedList
    rw [hhead, seek_of_match _ _ _ _ (Or.inr (by rw [hent]; rfl))]
    rfl
  · show (((((new : ImageInfoPageTable Nat).Prepare 4).Push 5 10).Prepare 8).entryAt 0).info = 0
    rw [hent]
    rfl

/-- C9, as amended: in every table state and for every address `a`, every entry the
iterator of `AddressLinkedList(a)` stands on while `Valid()` (the first one and every one
reached by `Next()`) has `a` in its address field `gpu_addr`, the field in which `Push`
records the address pushed under; so every payload yielded comes from such an entry, and
the entry just pushed under a different address `b` is never the one the iterator
stands on, also when `b` maps to the same page.  In a pass that started with all page
heads empty (`Prepare(n)`, then at most `n` and fewer than `2 ^ 32` pushes `ps`) such an
entry was pushed under exactly the address `a` in this pass: its index `id` is below
the number of pushes and push number `id` was made under `a`, with the payload `Info()`
returns. -/
theorem ImageInfoPageTable.iterator_yields_own_address {Info : Type} [Inhabited Info]
    (t : ImageInfoPageTable Info) (a fuel : Nat) :
    (∀ it, t.AddressLinkedList fuel a = some it →
      it.gpu_addr = a ∧ (it.Valid = true → (t.entryAt it.id).gpu_addr = a)) ∧
    (∀ it it2 : Iterator, it.gpu_addr = a → it.Next fuel t = some it2 →
      it2.gpu_addr = a ∧ (it2.Valid = true → (t.entryAt it2.id).gpu_addr = a)) ∧
    (∀ l, t.yielded fuel a = some l → ∀ x ∈ l,
      ∃ id, id ≠ INVALID_ID ∧ (t.entryAt id).gpu_addr = a ∧ (t.entryAt id).info = x) ∧
    (∀ b p, b ≠ a → (t.free_id + 1) % 2 ^ 32 < t.entries.length →
      ((t.Push b p).entryAt (t.Push b p).free_id).gpu_addr = b ∧
      ∀ it, ((t.Push b p).AddressLinkedList fuel a = some it ∨
          ∃ it0 : Iterator, it0.gpu_addr = a ∧ it0.Next fuel (t.Push b p) = some it) →
        it.Valid = true → it.id ≠ (t.Push b p).free_id) ∧
    (∀ (t0 : ImageInfoPageTable Info) (n : Nat) (ps : List (Nat × Info)), t0.WF →
      (∀ pg, t0.headAt pg = INVALID_ID) → ps.length ≤ n → ps.length < 2 ^ 32 →
      t = (t0.Prepare n).pushAll ps →
      ∀ it, (t.AddressLinkedList fuel a = some it ∨
          ∃ it0 : Iterator, it0.gpu_addr = a ∧ it0.id < ps.length ∧
            it0.Next fuel t = some it) →
        it.Valid = true → ∃ q, ps[it.id]? = some q ∧ q.1 = a ∧ q.2 = it.Info t) := by
  refine ⟨fun it h => AddressLinkedList_result t a fuel it h,
    fun it it2 ha h => Next_result t a fuel it it2 ha h, ?_, ?_, ?_⟩
  rotate_left 2
  · intro t0 n ps hwf hclean hn h32 ht it hit hv
    subst ht
    exact position_pushAll hwf hclean n ps hn h32 a fuel it hit hv
  · intro l h x hx
    unfold yielded at h
    obtain ⟨it, h1, h2⟩ := Option.bind_eq_some.mp h
    obtain ⟨h3, h4⟩ := AddressLinkedList_result t a fuel it h1
    exact iterate_result t a fuel fuel it l h3 h4 h2 x hx
  · intro b p hne hlen
    have hentry : ((t.Push b p).entryAt (t.Push b p).free_id).gpu_addr = b := by
      rw [entryAt_Push, free_id_Push, if_pos ⟨rfl, hlen⟩]
    refine ⟨hentry, ?_⟩
    intro it hit hv hid
    have h1 : ((t.Push b p).entryAt it.id).gpu_addr = a := by
      rcases hit with h2 | ⟨it0, h2, h3⟩
      · exact (AddressLinkedList_result _ a fuel it h2).2 hv
      · exact (Next_result _ a fuel it0 it h2 h3).2 hv
    rw [hid, hentry] at h1
    exact hne h1

/-- Witness for C9: after pushes under the addresses 5, 7 and 5 of one page, the
chain of address 7 yields the payload pushed under 7 alone. -/
theorem ImageInfoPageTable.iterator_yields_own_address_witness :
    ∀ x ∈ [(11 : Nat)], ∃ id, id ≠ INVALID_ID ∧
      ((((new : ImageInfoPageTable Nat).Prepare 4).pushAll
        [(5, 10), (7, 11), (5, 12)]).entryAt id).gpu_addr = 7 ∧
      ((((new : ImageInfoPageTable Nat).Prepare 4).pushAll
        [(5, 10), (7, 11), (5, 12)]).entryAt id).info = x :=
  (ImageInfoPageTable.iterator_yields_own_address
    (((new : ImageInfoPageTable Nat).Prepare 4).pushAll [(5, 10), (7, 11), (5, 12)]) 7 3).2.2.1
    [11] (by decide)

/-- C10, as amended: starting from a table whose page heads are all empty, after
`Prepare(n)` and a sequence of at most `n` and at most `2 ^ 32 - 1` pushes (no
`Restore`), iterating `AddressLinkedList(a)` for an address `a < 2 ^ 40` with `Next()`
until it is no longer `Valid()` ends (a loop bound of the number of pushes suffices) and
yields exactly the payloads pushed under `a` during this pass, each once, in reverse
push order, and nothing when no push used `a`. -/
theorem ImageInfoPageTable.yielded_pass {Info : Type} [Inhabited Info]
    (t0 : ImageInfoPageTable Info) (n : Nat) (ps : List (Nat × Info)) (a fuel : Nat)
    (hwf : t0.WF) (hclean : ∀ pg, t0.headAt pg = INVALID_ID) (hn : ps.length ≤ n)
    (h32 : ps.length < 2 ^ 32) (ha : a < 2 ^ 40) (hfuel : ps.length ≤ fuel) :
    ((t0.Prepare n).pushAll ps).yielded fuel a = some (pushedUnder ps a) ∧
    pushedUnder ps a = ((ps.filter fun q => decide (q.1 = a)).map Prod.snd).reverse ∧
    ((∀ q ∈ ps, q.1 ≠ a) → ((t0.Prepare n).pushAll ps).yielded fuel a = some []) := by
  have h1 := (pass_pushAll hwf hclean n ps hn h32).2 a fuel ha hfuel
  refine ⟨h1, rfl, ?_⟩
  intro hno
  rw [h1]
  have h2 : (ps.filter fun q => decide (q.1 = a)) = [] := by
    apply List.filter_eq_nil_iff.mpr
    intro q hq
    simpa using hno q hq
  simp [pushedUnder, h2]

/-- Witness for C10: a new table, `Prepare(4)` and four pushes, three of them in the page
of address 5, two of them under address 5. -/
theorem ImageInfoPageTable.yielded_pass_witness :
    (((new : ImageInfoPageTable Nat).Prepare 4).pushAll
        [(5, 10), (7, 11), (5, 12), (2 ^ 20, 13)]).yielded 4 5 = some [12, 10] :=
  (ImageInfoPageTable.yielded_pass new 4 [(5, 10), (7, 11), (5, 12), (2 ^ 20, 13)] 5 4 wf_new
    (by intro pg; simp only [headAt, new, List.getD_eq_getElem?_getD, List.getElem?_replicate]
        split <;> rfl)
    (by decide) (by decide) (by decide) (by decide)).1

/-- Counterexample to C10 as stated: on a new table, after `Prepare(2 ^ 32)` and `2 ^ 32`
pushes under address 0, the last push has the index `0xFFFFFFFF`, which is `INVALID_ID`,
so the head of page 0 reads as empty: for no loop bound does the iteration yield the
payloads pushed under address 0. -/
theorem ImageInfoPageTable.yielded_pass_fails :
    (List.replicate (2 ^ 32 - 1) ((0 : Nat), ()) ++ [(0, ())]).length ≤ 2 ^ 32 ∧
    ¬ ∃ fuel,
      (((new : ImageInfoPageTable Unit).Prepare (2 ^ 32)).pushAll
          (List.replicate (2 ^ 32 - 1) (0, ()) ++ [(0, ())])).yielded fuel 0 =
        some (pushedUnder (List.replicate (2 ^ 32 - 1) ((0 : Nat), ()) ++ [(0, ())]) 0) := by
  refine ⟨by rw [List.length_append, List.length_replicate]; norm_num, ?_⟩
  rintro ⟨fuel, h⟩
  have hwf1 := wf_pushAll (List.replicate (2 ^ 32 - 1) ((0 : Nat), ()))
    (wf_Prepare (wf_new : (new : ImageInfoPageTable Unit).WF) (2 ^ 32))
  have hfree : ((((new : ImageInfoPageTable Unit).Prepare (2 ^ 32)).pushAll
      (List.replicate (2 ^ 32 - 1) (0, ()))).free_id + 1) % 2 ^ 32 = INVALID_ID := by
    rw [next_index_pass _ _ _ (by rw [List.length_replicate]; norm_num), List.length_replicate]
    rfl
  have hhead : ((((new : ImageInfoPageTable Unit).Prepare (2 ^ 32)).pushAll
      (List.replicate (2 ^ 32 - 1) (0, ()))).Push 0 ()).headAt (0 >>> PAGE_BITS) = INVALID_ID := by
    rw [headAt_Push, hfree, if_pos ⟨rfl, by rw [hwf1.len_heads]; exact page_lt 0 (by norm_num)⟩]
  rw [pushAll_concat, pushedUnder_concat, if_pos rfl, yielded_of_head_invalid _ _ _ hhead] at h
  cases h

/-! ### C11: the range `[begin(), end())` -/

namespace ImageInfoPageTable

variable {Info : Type} [Inhabited Info]

/-- The cursor after `Prepare` and the pushes `ps`, whatever their number. -/
theorem next_index_any (t0 : ImageInfoPageTable Info) (n : Nat) (ps : List (Nat × Info)) :
    (((t0.Prepare n).pushAll ps).free_id + 1) % 2 ^ 32 = ps.length % 2 ^ 32 := by
  rcases free_id_pushAll ps (t0.Prepare n) with h1 | ⟨h1, h2⟩
  · rw [h1, free_id_Prepare]
    simp only [INVALID_ID]
    omega
  · rw [h2, free_id_Prepare, h1]
    simp only [INVALID_ID, List.length_nil]
    omega

theorem numEntries_any (t0 : ImageInfoPageTable Info) (n : Nat) (ps : List (Nat × Info)) :
    ((t0.Prepare n).pushAll ps).numEntries = ps.length % 2 ^ 32 :=
  next_index_any t0 n ps

theorem range_of_numEntries_zero (t : ImageInfoPageTable Info) (h : t.numEntries = 0) :
    t.range = [] := by
  rw [range, h, List.take_zero]

theorem length_entries_pass {t0 : ImageInfoPageTable Info} (hwf : t0.WF) (n : Nat)
    (ps : List (Nat × Info)) :
    ((t0.Prepare n).pushAll ps).entries.length = max t0.entries_capacity n := by
  rw [(wf_pushAll ps (wf_Prepare hwf n)).len_entries, entries_capacity_pushAll,
    entries_capacity_Prepare]

/-- Entry `i` holds the address and the payload of push number `i`, whatever the page
heads were at `Prepare`. -/
theorem entry_pushAll {t0 : ImageInfoPageTable Info} (hwf : t0.WF) (n : Nat)
    (ps : List (Nat × Info)) :
    ps.length ≤ n → ps.length < 2 ^ 32 → ∀ i q, ps[i]? = some q →
      (((t0.Prepare n).pushAll ps).entryAt i).gpu_addr = q.1 ∧
      (((t0.Prepare n).pushAll ps).entryAt i).info = q.2 := by
  induction ps using List.reverseRecOn with
  | nil =>
    intro _ _ i q h
    simp at h
  | append_singleton ps q0 ih =>
    intro hn h32 i q h
    rw [List.length_append, List.length_singleton] at hn h32
    have hidx := next_index_pass t0 n ps (by omega)
    have hlen := length_entries_pass hwf n ps
    rw [pushAll_concat, entryAt_Push, hidx]
    rcases Nat.lt_or_ge i ps.length with h1 | h1
    · rw [List.getElem?_append_left h1] at h
      have hne : ¬ (ps.length = i ∧ ps.length < ((t0.Prepare n).pushAll ps).entries.length) := by
        omega
      rw [if_neg hne]
      exact ih (by omega) (by omega) i q h
    · rw [List.getElem?_append_right h1] at h
      have h2 : i = ps.length := by
        by_contra hne
        have h3 : i - ps.length = (i - ps.length - 1) + 1 := by omega
        rw [h3] at h
        simp at h
      subst h2
      simp only [Nat.sub_self, List.getElem?_cons_zero, Option.some.injEq] at h
      rw [if_pos ⟨rfl, by rw [hlen]; omega⟩, ← h]
      exact ⟨rfl, rfl⟩

theorem range_pushAll {t0 : ImageInfoPageTable Info} (hwf : t0.WF) (n : Nat)
    (ps : List (Nat × Info)) (hn : ps.length ≤ n) (h32 : ps.length < 2 ^ 32) :
    ((t0.Prepare n).pushAll ps).range.map (fun e => (e.gpu_addr, e.info)) = ps := by
  apply List.ext_getElem?
  intro i
  have hnum : ((t0.Prepare n).pushAll ps).numEntries = ps.length := by
    unfold numEntries
    exact next_index_pass t0 n ps h32
  have hlen := length_entries_pass hwf n ps
  rw [List.getElem?_map, range, hnum, List.getElem?_take]
  rcases Nat.lt_or_ge i ps.length with h1 | h1
  · rw [if_pos h1]
    have h2 : i < ((t0.Prepare n).pushAll ps).entries.length := by
      rw [hlen]
      omega
    have h3 := entry_pushAll hwf n ps hn h32 i _ (List.getElem?_eq_getElem h1)
    rw [List.getElem?_eq_getElem h2, List.getElem?_eq_getElem h1]
    simp only [entryAt, List.getD_eq_getElem?_getD, List.getElem?_eq_getElem h2,
      Option.getD_some] at h3
    simp only [Option.map_some', Option.some.injEq]
    exact Prod.ext h3.1 h3.2
  · rw [if_neg (by omega), List.getElem?_eq_none h1]
    rfl

end ImageInfoPageTable

/-- C11, as amended: `Prepare` resets the bump cursor to empty: immediately after
`Prepare` the range `[begin(), end())` contains no entry (`free_id + 1` wraps to 0), and
after `k` further pushes, with `k` at most `max_entries` and less than `2 ^ 32`, it contains
exactly `k` entries, the `i`-th being the `i`-th pushed (address, payload) pair. -/
theorem ImageInfoPageTable.range_of_pass {Info : Type} [Inhabited Info]
    (t0 : ImageInfoPageTable Info) (max_entries : Nat) (ps : List (Nat × Info)) (hwf : t0.WF)
    (hn : ps.length ≤ max_entries) (h32 : ps.length < 2 ^ 32) :
    (t0.Prepare max_entries).numEntries = 0 ∧
    (t0.Prepare max_entries).range = [] ∧
    ((t0.Prepare max_entries).pushAll ps).numEntries = ps.length ∧
    ((t0.Prepare max_entries).pushAll ps).range.length = ps.length ∧
    ((t0.Prepare max_entries).pushAll ps).range.map (fun e => (e.gpu_addr, e.info)) = ps := by
  have h0 : (t0.Prepare max_entries).numEntries = 0 := by
    unfold numEntries
    rw [free_id_Prepare]
    simp only [INVALID_ID]
    omega
  have hr := range_pushAll hwf max_entries ps hn h32
  refine ⟨h0, by rw [range, h0, List.take_zero], ?_, ?_, hr⟩
  · unfold numEntries
    exact next_index_pass t0 max_entries ps h32
  · have := congrArg List.length hr
    rw [List.length_map] at this
    exact this

/-- Witness for C11: a new table, `Prepare(4)` and three pushes. -/
theorem ImageInfoPageTable.range_of_pass_witness :
    (((new : ImageInfoPageTable Nat).Prepare 4).pushAll
        [(5, 10), (7, 11), (5, 12)]).range.map (fun e => (e.gpu_addr, e.info)) =
      [(5, 10), (7, 11), (5, 12)] :=
  (ImageInfoPageTable.range_of_pass new 4 [(5, 10), (7, 11), (5, 12)] wf_new (by decide)
    (by decide)).2.2.2.2

/-- Counterexample to C11 as stated: on a new table, after `Prepare(2 ^ 32)` and `2 ^ 32`
pushes, `free_id` is `0xFFFFFFFF` again and the range `[begin(), end())` is empty. -/
theorem ImageInfoPageTable.range_wraps :
    (List.replicate (2 ^ 32) ((0 : Nat), ())).length = 2 ^ 32 ∧
    (((new : ImageInfoPageTable Unit).Prepare (2 ^ 32)).pushAll
        (List.replicate (2 ^ 32) (0, ()))).numEntries = 0 ∧
    (((new : ImageInfoPageTable Unit).Prepare (2 ^ 32)).pushAll
        (List.replicate (2 ^ 32) (0, ()))).range = [] := by
  have h0 : (((new : ImageInfoPageTable Unit).Prepare (2 ^ 32)).pushAll
      (List.replicate (2 ^ 32) (0, ()))).numEntries = 0 := by
    rw [numEntries_any, List.length_replicate]
    exact Nat.mod_self _
  exact ⟨List.length_replicate _ _, h0, range_of_numEntries_zero _ h0⟩

/-! ### C12: `Restore` -/

namespace ImageInfoPageTable

variable {Info : Type} [Inhabited Info]

theorem entryAt_Restore (t : ImageInfoPageTable Info) (e : Entry Info) (i : Nat) :
    (t.Restore e).entryAt i = t.entryAt i := rfl

theorem headAt_Restore (t : ImageInfoPageTable Info) (e : Entry Info) (pg : Nat) :
    (t.Restore e).headAt pg =
      if e.gpu_addr >>> PAGE_BITS = pg ∧ e.gpu_addr >>> PAGE_BITS < t.id_page_table.length then
        INVALID_ID
      else t.headAt pg := by
  simp only [headAt, Restore, getD_set_eq]

/-- The head of the page of `e` reads as empty after `Restore(e)`. -/
theorem headAt_Restore_self (t : ImageInfoPageTable Info) (e : Entry Info) :
    (t.Restore e).headAt (e.gpu_addr >>> PAGE_BITS) = INVALID_ID := by
  rw [headAt_Restore]
  split
  · rfl
  · rename_i h
    have h2 : t.id_page_table.length ≤ e.gpu_addr >>> PAGE_BITS := by
      by_contra h3
      exact h ⟨rfl, by omega⟩
    exact List.getD_eq_default _ _ h2

theorem seek_Restore (t : ImageInfoPageTable Info) (e : Entry Info) (a : Nat) :
    ∀ (f id : Nat), (t.Restore e).seek a f id = t.seek a f id := by
  intro f
  induction f with
  | zero => intro id; rfl
  | succ f ih =>
    intro id
    simp only [seek, entryAt_Restore]
    split
    · exact ih _
    · rfl

theorem nextLoop_Restore (t : ImageInfoPageTable Info) (e : Entry Info) (a f id : Nat) :
    (t.Restore e).nextLoop a f id = t.nextLoop a f id := by
  cases f with
  | zero => rfl
  | succ f => rw [nextLoop_succ, nextLoop_succ, entryAt_Restore, seek_Restore]

theorem Next_Restore (t : ImageInfoPageTable Info) (e : Entry Info) (f : Nat) (it : Iterator) :
    it.Next f (t.Restore e) = it.Next f t := by
  unfold Iterator.Next
  rw [nextLoop_Restore]

theorem iterate_Restore (t : ImageInfoPageTable Info) (e : Entry Info) (inner : Nat) :
    ∀ (f : Nat) (it : Iterator), (t.Restore e).iterate inner f it = t.iterate inner f it := by
  intro f
  induction f with
  | zero => intro it; rfl
  | succ f ih =>
    intro it
    simp only [iterate, Next_Restore, ih]
    rfl

end ImageInfoPageTable

/-- C12: `Restore(entry)` resets only the head pointer of the page
`entry.gpu_addr >> 20` to empty: afterwards `AddressLinkedList(a)` returns an iterator
that is not `Valid()` for every address `a` in that page (whatever address the entries of
that page were pushed under), while the head pointer and the chain of every other page
(what `AddressLinkedList`, `Next` and the whole iteration give), the stored entries and the
cursor are unchanged. -/
theorem ImageInfoPageTable.Restore_resets_one_page {Info : Type} [Inhabited Info]
    (t : ImageInfoPageTable Info) (e : Entry Info) :
    (∀ a fuel, a >>> PAGE_BITS = e.gpu_addr >>> PAGE_BITS →
      ∃ it, (t.Restore e).AddressLinkedList fuel a = some it ∧ it.Valid = false) ∧
    (∀ pg, pg ≠ e.gpu_addr >>> PAGE_BITS → (t.Restore e).headAt pg = t.headAt pg) ∧
    (∀ a fuel, a >>> PAGE_BITS ≠ e.gpu_addr >>> PAGE_BITS →
      (t.Restore e).AddressLinkedList fuel a = t.AddressLinkedList fuel a ∧
      (t.Restore e).yielded fuel a = t.yielded fuel a) ∧
    (∀ fuel (it : Iterator), it.Next fuel (t.Restore e) = it.Next fuel t) ∧
    (t.Restore e).entries = t.entries ∧
    (t.Restore e).entries_capacity = t.entries_capacity ∧
    (t.Restore e).free_id = t.free_id ∧
    (t.Restore e).range = t.range := by
  have hother : ∀ pg, pg ≠ e.gpu_addr >>> PAGE_BITS → (t.Restore e).headAt pg = t.headAt pg := by
    intro pg hpg
    rw [headAt_Restore, if_neg (fun h => hpg h.1.symm)]
  refine ⟨?_, hother, ?_, fun fuel it => Next_Restore t e fuel it, rfl, rfl, rfl, rfl⟩
  · intro a fuel ha
    refine ⟨{ gpu_addr := a, id := INVALID_ID }, ?_, ?_⟩
    · unfold AddressLinkedList
      rw [ha, headAt_Restore_self, seek_of_match _ _ _ _ (Or.inl rfl)]
      rfl
    · simp [Iterator.Valid]
  · intro a fuel ha
    have h1 : (t.Restore e).AddressLinkedList fuel a = t.AddressLinkedList fuel a := by
      unfold AddressLinkedList
      rw [hother _ ha, seek_Restore]
    refine ⟨h1, ?_⟩
    unfold yielded
    rw [h1]
    congr 1
    funext it
    exact iterate_Restore t e fuel fuel it

/-- Witness for C12: after three pushes into the pages 0, 0 and 1, `Restore` of the first
entry empties the chain of address 5 (page 0) and leaves that of address `2 ^ 20`. -/
theorem ImageInfoPageTable.Restore_resets_one_page_witness :
    (∃ it, ((((new : ImageInfoPageTable Nat).Prepare 4).pushAll
        [(5, 10), (7, 11), (2 ^ 20, 12)]).Restore ⟨10, INVALID_ID, 5⟩).AddressLinkedList 3 5 =
          some it ∧ it.Valid = false) ∧
    ((((new : ImageInfoPageTable Nat).Prepare 4).pushAll
        [(5, 10), (7, 11), (2 ^ 20, 12)]).Restore ⟨10, INVALID_ID, 5⟩).yielded 3 (2 ^ 20) =
      (((new : ImageInfoPageTable Nat).Prepare 4).pushAll
        [(5, 10), (7, 11), (2 ^ 20, 12)]).yielded 3 (2 ^ 20) :=
  ⟨(ImageInfoPageTable.Restore_resets_one_page _ ⟨10, INVALID_ID, 5⟩).1 5 3 (by decide),
   ((ImageInfoPageTable.Restore_resets_one_page _ ⟨10, INVALID_ID, 5⟩).2.2.1 (2 ^ 20) 3
     (by decide)).2⟩

/-! ### C13: the accesses of `Push` are in bounds -/

/-- C13, as amended: `Prepare(max_entries)` grows the backing storage if needed and never
shrinks it (capacity afterwards = max(previous capacity, `max_entries`)); after it, the
`k`-th `Push` writes entry index `(k - 1) mod 2 ^ 32`, which is `k - 1` for `k` up to
`2 ^ 32`, so with at most `max_entries` pushes and addresses below `2 ^ 40` every access
of `Push` to the entry array and to the page-head array is in bounds.  Here `ps` are
the `k - 1` pushes made so far. -/
theorem ImageInfoPageTable.push_in_bounds {Info : Type} [Inhabited Info]
    (t0 : ImageInfoPageTable Info) (max_entries : Nat) (ps : List (Nat × Info)) (addr : Nat)
    (info : Info) (hwf : t0.WF) (hn : ps.length < max_entries) (ha : addr < 2 ^ 40) :
    (t0.Prepare max_entries).entries_capacity = max t0.entries_capacity max_entries ∧
    (t0.Prepare max_entries).entries.length = max t0.entries_capacity max_entries ∧
    (((t0.Prepare max_entries).pushAll ps).Push addr info).free_id = ps.length % 2 ^ 32 ∧
    (ps.length < 2 ^ 32 →
      (((t0.Prepare max_entries).pushAll ps).Push addr info).free_id = ps.length) ∧
    ((t0.Prepare max_entries).pushAll ps).PushInBounds addr = true ∧
    (((t0.Prepare max_entries).pushAll ps).Push addr info).entryAt (ps.length % 2 ^ 32) =
      { info := info
        next := ((t0.Prepare max_entries).pushAll ps).headAt (addr >>> PAGE_BITS)
        gpu_addr := addr } := by
  have hidx := next_index_any t0 max_entries ps
  have hlen := length_entries_pass hwf max_entries ps
  have hlt : ps.length % 2 ^ 32 < ((t0.Prepare max_entries).pushAll ps).entries.length := by
    rw [hlen]
    have := Nat.mod_le ps.length (2 ^ 32)
    omega
  refine ⟨entries_capacity_Prepare t0 max_entries, ?_, ?_, ?_, ?_, ?_⟩
  · rw [(wf_Prepare hwf max_entries).len_entries, entries_capacity_Prepare]
  · rw [free_id_Push, hidx]
  · intro h32
    rw [free_id_Push, hidx, Nat.mod_eq_of_lt h32]
  · simp only [PushInBounds, Bool.and_eq_true, decide_eq_true_eq]
    refine ⟨by rw [hidx]; exact hlt, ?_⟩
    rw [(wf_pushAll ps (wf_Prepare hwf max_entries)).len_heads]
    exact page_lt addr ha
  · rw [entryAt_Push, hidx, if_pos ⟨rfl, hlt⟩]

/-- Witness for C13: a new table, `Prepare(4)`, one push, then the push under address 5. -/
theorem ImageInfoPageTable.push_in_bounds_witness :
    (((new : ImageInfoPageTable Nat).Prepare 4).pushAll [(7, 11)]).PushInBounds 5 = true :=
  (ImageInfoPageTable.push_in_bounds new 4 [(7, 11)] 5 12 wf_new (by decide)
    (by decide)).2.2.2.2.1

/-- Counterexample to C13 as stated: on a new table, after `Prepare(2 ^ 32 + 1)` and
`2 ^ 32` pushes, the next push, number `2 ^ 32 + 1`, writes entry index 0 and not
`2 ^ 32`. -/
theorem ImageInfoPageTable.push_index_wraps :
    (List.replicate (2 ^ 32) ((0 : Nat), ())).length < 2 ^ 32 + 1 ∧
    ((((new : ImageInfoPageTable Unit).Prepare (2 ^ 32 + 1)).pushAll
        (List.replicate (2 ^ 32) (0, ()))).Push 0 ()).free_id = 0 ∧
    ((((new : ImageInfoPageTable Unit).Prepare (2 ^ 32 + 1)).pushAll
        (List.replicate (2 ^ 32) (0, ()))).Push 0 ()).free_id ≠
      (List.replicate (2 ^ 32) ((0 : Nat), ())).length := by
  have h0 : ((((new : ImageInfoPageTable Unit).Prepare (2 ^ 32 + 1)).pushAll
      (List.replicate (2 ^ 32) (0, ()))).Push 0 ()).free_id = 0 := by
    rw [free_id_Push, next_index_any, List.length_replicate]
    exact Nat.mod_self _
  refine ⟨by rw [List.length_replicate]; exact Nat.lt_succ_self _, h0, ?_⟩
  rw [h0, List.length_replicate]
  norm_num

/-! ### C19: what `Prepare` leaves unchanged -/

/-- C19: `Prepare` modifies only the bump cursor and, when it grows, the backing entry
storage: every page head pointer has the same value after `Prepare` as before it, so a
head set by a push of the previous pass and not reset by `Restore` still holds the index
that push wrote, an index of the previous pass. -/
theorem ImageInfoPageTable.Prepare_keeps_heads {Info : Type} [Inhabited Info]
    (t : ImageInfoPageTable Info) (n : Nat) :
    (t.Prepare n).id_page_table = t.id_page_table ∧
    (∀ pg, (t.Prepare n).headAt pg = t.headAt pg) ∧
    (t.Prepare n).free_id = INVALID_ID ∧
    (n ≤ t.entries_capacity →
      (t.Prepare n).entries = t.entries ∧ (t.Prepare n).entries_capacity = t.entries_capacity) ∧
    (t.entries_capacity < n →
      (t.Prepare n).entries = List.replicate n zeroEntry ∧ (t.Prepare n).entries_capacity = n) ∧
    (∀ b p, t.WF → b < 2 ^ 40 →
      ((t.Push b p).Prepare n).headAt (b >>> PAGE_BITS) = (t.Push b p).free_id ∧
      (t.Push b p).free_id = (t.free_id + 1) % 2 ^ 32) := by
  have hh : ∀ (u : ImageInfoPageTable Info) pg, (u.Prepare n).headAt pg = u.headAt pg := by
    intro u pg
    simp only [headAt, id_page_table_Prepare]
  refine ⟨id_page_table_Prepare t n, hh t, free_id_Prepare t n, ?_, ?_, ?_⟩
  · intro h
    unfold Prepare
    rw [if_neg (by omega)]
    exact ⟨rfl, rfl⟩
  · intro h
    unfold Prepare
    rw [if_pos h]
    exact ⟨rfl, rfl⟩
  · intro b p hwf hb
    refine ⟨?_, rfl⟩
    rw [hh, headAt_Push, if_pos ⟨rfl, by rw [hwf.len_heads]; exact page_lt b hb⟩]
    rfl

/-- Witness for C19: the head of page 0 set by the push under address 5 in a pass of
4 entries still holds index 0 after `Prepare(8)`. -/
theorem ImageInfoPageTable.Prepare_keeps_heads_witness :
    (((((new : ImageInfoPageTable Nat).Prepare 4).Push 5 10).Prepare 8).headAt (5 >>> PAGE_BITS)) =
      (((new : ImageInfoPageTable Nat).Prepare 4).Push 5 10).free_id :=
  ((ImageInfoPageTable.Prepare_keeps_heads ((new : ImageInfoPageTable Nat).Prepare 4) 8).2.2.2.2.2
    5 10 (wf_Prepare wf_new 4) (by decide)).1

/-! ### C20: `insert` and the invalid handle -/

/-- C20, as amended: in every pool state reached while at most `2 ^ 31` handles are live
at any time (the new one included), `insert` returns a valid handle: the index of the
returned `SlotId` is not the reserved `INVALID_INDEX` (`0xFFFFFFFF`), so its bool
conversion is true, whereas a default-constructed `SlotId` is invalid. -/
theorem SlotVector.insert_returns_valid {T : Type} (s : SlotVector T) (L : List SlotId)
    (p : Nat) (v : T) (hr : Reach s L p) (hp : max p (L.length + 1) ≤ 2 ^ 31) :
    (s.insert v).2.index ≠ SlotId.INVALID_INDEX ∧
    (s.insert v).2.toBool = true ∧
    SlotId.invalid.index = SlotId.INVALID_INDEX ∧
    SlotId.invalid.toBool = false := by
  have hinv := (hr.inv (by omega)).insert (by omega : L.length < 2 ^ 63) v
  have hlt := hinv.index_lt_capacity (by omega) (List.mem_cons_self _ _)
  have hc : (s.insert v).1.values_capacity < 2 ^ 32 := by
    rcases hinv.cap_pow with h0 | ⟨_, h1⟩
    · omega
    · omega
  have hne : (s.insert v).2.index ≠ SlotId.INVALID_INDEX := by
    simp only [SlotId.INVALID_INDEX]
    omega
  refine ⟨hne, ?_, rfl, ?_⟩
  · simp only [SlotId.toBool, bne_iff_ne, ne_eq]
    exact hne
  · simp [SlotId.toBool, SlotId.invalid]

/-- Witness for C20: the third insert into an empty `SlotVector<Nat>`. -/
theorem SlotVector.insert_returns_valid_witness :
    (((SlotVector.empty.insert 7).1.insert 8).1.insert (9 : Nat)).2.toBool = true :=
  (SlotVector.insert_returns_valid _ _ _ 9 (Reach.insert 8 (Reach.insert 7 Reach.empty))
    (by decide)).2.1

/-- Counterexample to C20 as stated: the pool reached by `2 ^ 31` inserts is full with
`2 ^ 31` slots; the next insert doubles it and returns the last new index, the reserved
`INVALID_INDEX`, whose bool conversion is false. -/
theorem SlotVector.insert_returns_invalid :
    Reach (SlotVector.insertMany () (2 ^ 31)).1 (SlotVector.insertMany () (2 ^ 31)).2 (2 ^ 31) ∧
    ((SlotVector.insertMany () (2 ^ 31)).1.insert ()).2.index = SlotId.INVALID_INDEX ∧
    ((SlotVector.insertMany () (2 ^ 31)).1.insert ()).2.toBool = false := by
  refine ⟨SlotVector.reach_insertMany _ _, ?_, ?_⟩
  · rw [SlotVector.insertMany_overflow_handle ()]
    rfl
  · rw [SlotVector.insertMany_overflow_handle ()]
    simp [SlotId.toBool, SlotId.INVALID_INDEX]

/-! ### C18: the pages `ForEachPage` visits -/

namespace TextureCache

theorem ForEachPageLoop_succ {σ : Type} (page_end : Nat) (func : Nat → σ → Bool × σ)
    (fuel page : Nat) (st : σ) :
    ForEachPageLoop page_end func (fuel + 1) page st =
      if page ≤ page_end then
        ForEachPageLoop page_end func fuel ((page + 1) % 2 ^ 64) (func page st).2
      else st := by
  simp only [ForEachPageLoop, RETURNS_BOOL, Bool.false_eq_true, if_false]

/-- The loop calls `func` on the pages from `page` to `page_end`, in this order. -/
theorem ForEachPageLoop_eq_foldl {σ : Type} (page_end : Nat) (func : Nat → σ → Bool × σ)
    (hpe : page_end + 1 < 2 ^ 64) :
    ∀ (fuel page : Nat) (st : σ), page_end + 1 - page ≤ fuel →
      ForEachPageLoop page_end func fuel page st =
        (List.range' page (page_end + 1 - page)).foldl (fun st p => (func p st).2) st := by
  intro fuel
  induction fuel with
  | zero =>
    intro page st h
    have h0 : page_end + 1 - page = 0 := by omega
    rw [h0]
    rfl
  | succ fuel ih =>
    intro page st h
    rw [ForEachPageLoop_succ]
    by_cases hp : page ≤ page_end
    · rw [if_pos hp, Nat.mod_eq_of_lt (by omega : page + 1 < 2 ^ 64), ih _ _ (by omega)]
      have h1 : page_end + 1 - page = (page_end + 1 - (page + 1)) + 1 := by omega
      rw [h1, List.range'_succ]
      rfl
    · rw [if_neg hp]
      have h0 : page_end + 1 - page = 0 := by omega
      rw [h0]
      rfl

/-- The loop of `ForEachPage` ends by its own condition: a larger bound on its
iterations gives the same result. -/
theorem ForEachPageLoop_fuel {σ : Type} (page_end : Nat) (func : Nat → σ → Bool × σ)
    (hpe : page_end + 1 < 2 ^ 64) (page extra : Nat) (st : σ) :
    ForEachPageLoop page_end func (page_end + 1 - page + extra) page st =
      ForEachPageLoop page_end func (page_end + 1 - page) page st := by
  rw [ForEachPageLoop_eq_foldl page_end func hpe _ _ _ (by omega),
    ForEachPageLoop_eq_foldl page_end func hpe _ _ _ (Nat.le_refl _)]

theorem pageEnd_lt (addr size : Nat) : pageEnd addr size + 1 < 2 ^ 64 := by
  simp only [pageEnd, PAGE_SHIFT, Nat.shiftRight_eq_div_pow]
  omega

theorem pageEnd_eq (addr size : Nat) (hs : 1 ≤ size) (h64 : addr + size ≤ 2 ^ 64) :
    pageEnd addr size = (addr + size - 1) >>> PAGE_SHIFT := by
  have h : ((addr + size) % 2 ^ 64 + 2 ^ 64 - 1) % 2 ^ 64 = addr + size - 1 := by omega
  rw [pageEnd, h]

/-- What `ForEachPage` computes, for every `addr` and `size`: the calls of `func` on the
pages from `addr >> PAGE_SHIFT` to `page_end`. -/
theorem ForEachPage_eq_foldl {σ : Type} (addr size : Nat) (func : Nat → σ → Bool × σ) (st : σ) :
    ForEachPage addr size func st =
      (List.range' (addr >>> PAGE_SHIFT) (pageEnd addr size + 1 - (addr >>> PAGE_SHIFT))).foldl
        (fun st p => (func p st).2) st :=
  ForEachPageLoop_eq_foldl _ func (pageEnd_lt addr size) _ _ st (Nat.le_refl _)

theorem foldl_trace (l acc : List Nat) :
    l.foldl (fun (st : List Nat) p => st ++ [p]) acc = acc ++ l := by
  induction l generalizing acc with
  | nil => simp
  | cons x xs ih => simp [ih]

end TextureCache

/-- C18: for every `addr` and every `size >= 1` with `addr + size <= 2 ^ 64`,
`ForEachPage(addr, size, func)` calls `func` exactly once on each page index `p` with
`addr >> 20 <= p <= (addr + size - 1) >> 20`, in ascending order, and on no other index
(whatever `func` returns); these are exactly the 1 MiB pages that intersect
`[addr, addr + size)`. -/
theorem TextureCache.ForEachPage_visits {σ : Type} (addr size : Nat)
    (func : Nat → σ → Bool × σ) (st : σ) (hs : 1 ≤ size) (h64 : addr + size ≤ 2 ^ 64) :
    ForEachPage addr size func st =
      (List.range' (addr >>> PAGE_SHIFT)
          ((addr + size - 1) >>> PAGE_SHIFT + 1 - (addr >>> PAGE_SHIFT))).foldl
        (fun st p => (func p st).2) st ∧
    (∀ r : Nat → Bool,
      ForEachPage addr size (fun p (l : List Nat) => (r p, l ++ [p])) [] =
        List.range' (addr >>> PAGE_SHIFT)
          ((addr + size - 1) >>> PAGE_SHIFT + 1 - (addr >>> PAGE_SHIFT))) ∧
    (List.range' (addr >>> PAGE_SHIFT)
        ((addr + size - 1) >>> PAGE_SHIFT + 1 - (addr >>> PAGE_SHIFT))).Pairwise
      (fun p q => p < q) ∧
    (∀ p, p ∈ List.range' (addr >>> PAGE_SHIFT)
        ((addr + size - 1) >>> PAGE_SHIFT + 1 - (addr >>> PAGE_SHIFT)) ↔
      (addr >>> PAGE_SHIFT ≤ p ∧ p ≤ (addr + size - 1) >>> PAGE_SHIFT)) ∧
    (∀ p, (addr >>> PAGE_SHIFT ≤ p ∧ p ≤ (addr + size - 1) >>> PAGE_SHIFT) ↔
      (p * 2 ^ 20 < addr + size ∧ addr < (p + 1) * 2 ^ 20)) := by
  have hpe := pageEnd_eq addr size hs h64
  refine ⟨?_, ?_, List.pairwise_lt_range' _ _, ?_, ?_⟩
  · rw [ForEachPage_eq_foldl, hpe]
  · intro r
    rw [ForEachPage_eq_foldl, hpe]
    exact foldl_trace _ []
  · intro p
    rw [List.mem_range'_1]
    simp only [PAGE_SHIFT, Nat.shiftRight_eq_div_pow]
    omega
  · intro p
    simp only [PAGE_SHIFT, Nat.shiftRight_eq_div_pow]
    constructor
    · rintro ⟨h1, h2⟩
      constructor <;> omega
    · rintro ⟨h1, h2⟩
      constructor <;> omega

/-- Witness for C18: the two bytes at `2 ^ 20 - 1` and `2 ^ 20` lie in the pages 0 and 1. -/
theorem TextureCache.ForEachPage_visits_witness :
    ForEachPage (2 ^ 20 - 1) 2 (fun p (l : List Nat) => (true, l ++ [p])) [] =
      List.range' ((2 ^ 20 - 1) >>> PAGE_SHIFT)
        ((2 ^ 20 - 1 + 2 - 1) >>> PAGE_SHIFT + 1 - ((2 ^ 20 - 1) >>> PAGE_SHIFT)) :=
  (TextureCache.ForEachPage_visits (2 ^ 20 - 1) 2 (fun p (l : List Nat) => (true, l ++ [p])) []
    (by decide) (by decide)).2.1 (fun _ => true)

/-! ### C17: deferred destruction -/

namespace TextureCache

namespace DelayedDestructionRing

variable {T : Type}

theorem getD_set_list (l : List (List T)) (i j : Nat) (a : List T) :
    (l.set i a).getD j [] = if i = j ∧ i < l.length then a else l.getD j [] := by
  simp only [List.getD_eq_getElem?_getD, List.getElem?_set]
  by_cases h : i = j
  · subst h
    by_cases h2 : i < l.length
    · simp [h2]
    · simp [h2, List.getElem?_eq_none (Nat.le_of_not_lt h2)]
  · simp [h]

theorem run_tick : ∀ (r : DelayedDestructionRing T) (ops : List (Option T)),
    (r.run ops).1.tick = r.tick + ticks ops := by
  intro r ops
  induction ops generalizing r with
  | nil => rfl
  | cons op ops ih =>
    cases op with
    | some y =>
      simp only [run, ticks]
      rw [ih]
      rfl
    | none =>
      simp only [run, ticks]
      rw [ih]
      simp only [Tick]
      omega

/-- The object `x` sits in slot `s` alone, and `m` more ticks clear that slot. -/
theorem run_sentenced (x : T) (s : Nat) :
    ∀ (ops : List (Option T)) (r : DelayedDestructionRing T) (m : Nat),
      r.elements.length = TICKS_TO_DESTROY → s < TICKS_TO_DESTROY →
      x ∈ r.elements.getD s [] → (∀ j, j ≠ s → x ∉ r.elements.getD j []) →
      1 ≤ m → m ≤ TICKS_TO_DESTROY → (r.tick + m) % TICKS_TO_DESTROY = s →
      (∀ y, some y ∈ ops → y ≠ x) →
      (ticks ops < m → x ∉ (r.run ops).2 ∧ x ∈ (r.run ops).1.elements.getD s []) ∧
      (m ≤ ticks ops → x ∈ (r.run ops).2) := by
  intro ops
  induction ops with
  | nil =>
    intro r m _ _ hx _ hm _ _ _
    refine ⟨fun _ => ⟨by simp [run], hx⟩, fun h => ?_⟩
    simp only [ticks] at h
    omega
  | cons op ops ih =>
    intro r m hlen hs hx hother hm1 hm6 hmod hne
    have hne2 : ∀ y, some y ∈ ops → y ≠ x := fun y hy => hne y (List.mem_cons_of_mem _ hy)
    cases op with
    | some y =>
      have hyx : y ≠ x := hne y (List.mem_cons_self _ _)
      have hcount : ticks (some y :: ops) = ticks ops := rfl
      rw [hcount]
      simp only [run]
      refine ih (r.Push y) m ?_ hs ?_ ?_ hm1 hm6 hmod hne2
      · simp only [Push, List.length_set]
        exact hlen
      · simp only [Push, getD_set_list]
        split
        · rename_i h
          rw [h.1] at *
          exact List.mem_append_left _ hx
        · exact hx
      · intro j hj
        simp only [Push, getD_set_list]
        split
        · rename_i h
          rw [h.1] at *
          intro hmem
          rcases List.mem_append.mp hmem with h1 | h1
          · exact hother j hj h1
          · exact hyx (List.mem_singleton.mp h1).symm
        · exact hother j hj
    | none =>
      have hcount : ticks ((none : Option T) :: ops) = ticks ops + 1 := rfl
      rw [hcount]
      simp only [run, List.mem_append]
      unfold TICKS_TO_DESTROY at hlen hs hm6 hmod
      by_cases hm : m = 1
      · -- this tick clears the slot of `x`
        have hslot : (r.tick + 1) % TICKS_TO_DESTROY = s := by
          unfold TICKS_TO_DESTROY
          rw [hm] at hmod
          exact hmod
        refine ⟨fun h => by omega, fun _ => Or.inl ?_⟩
        simp only [Tick, hslot]
        exact hx
      · have hslot : (r.tick + 1) % TICKS_TO_DESTROY ≠ s := by
          unfold TICKS_TO_DESTROY
          omega
        have hnot : x ∉ r.Tick.2 := by
          simp only [Tick]
          exact hother _ hslot
        have hlen1 : r.Tick.1.elements.length = TICKS_TO_DESTROY := by
          simp only [Tick, List.length_set]
          exact hlen
        have hx1 : x ∈ r.Tick.1.elements.getD s [] := by
          simp only [Tick, getD_set_list]
          rw [if_neg (fun h => hslot h.1)]
          exact hx
        have hother1 : ∀ j, j ≠ s → x ∉ r.Tick.1.elements.getD j [] := by
          intro j hj
          simp only [Tick, getD_set_list]
          split
          · exact List.not_mem_nil _
          · exact hother j hj
        have hmod1 : (r.Tick.1.tick + (m - 1)) % TICKS_TO_DESTROY = s := by
          simp only [Tick]
          unfold TICKS_TO_DESTROY
          have : r.tick + 1 + (m - 1) = r.tick + m := by omega
          rw [this]
          exact hmod
        obtain ⟨h1, h2⟩ := ih r.Tick.1 (m - 1) hlen1 (by unfold TICKS_TO_DESTROY; exact hs) hx1
          hother1 (by omega) (by unfold TICKS_TO_DESTROY; omega) hmod1 hne2
        refine ⟨fun h => ?_, fun h => Or.inr (h2 (by omega))⟩
        obtain ⟨h3, h4⟩ := h1 (by omega)
        exact ⟨fun h5 => h5.elim hnot h3, h4⟩

end DelayedDestructionRing

end TextureCache

/-- C17, settled on a model of the ring: an erased object (an Image, an ImageView or a
Framebuffer, one ring for each) is not destroyed when it is erased: it is moved into a
ring of fixed depth `TICKS_TO_DESTROY = 6`, where it stays, not destroyed, while fewer
than 6 `TickFrame`s have followed; the sixth `TickFrame` destroys it, whatever other
objects are moved into the ring meanwhile.  Here `x` is an object that is not in the ring
`r` before its move and `ops` are the later moves (of other objects) and ticks. -/
theorem TextureCache.DelayedDestructionRing.destroyed_after_depth {T : Type}
    (r : DelayedDestructionRing T) (x : T) (ops : List (Option T))
    (hwf : r.elements.length = TICKS_TO_DESTROY) (hfresh : ∀ l ∈ r.elements, x ∉ l)
    (hne : ∀ y, some y ∈ ops → y ≠ x) :
    TICKS_TO_DESTROY = 6 ∧
    x ∈ (r.Push x).elements.getD (r.tick % TICKS_TO_DESTROY) [] ∧
    (ticks ops < 6 →
      x ∉ ((r.Push x).run ops).2 ∧
      x ∈ ((r.Push x).run ops).1.elements.getD (r.tick % TICKS_TO_DESTROY) []) ∧
    (ticks ops = 5 →
      x ∉ ((r.Push x).run ops).2 ∧ x ∈ (((r.Push x).run ops).1.Tick).2) ∧
    (6 ≤ ticks ops → x ∈ ((r.Push x).run ops).2) := by
  have hs : r.tick % TICKS_TO_DESTROY < TICKS_TO_DESTROY := Nat.mod_lt _ (by decide)
  have hother0 : ∀ j, x ∉ r.elements.getD j [] := by
    intro j
    by_cases hj : j < r.elements.length
    · rw [List.getD_eq_getElem _ _ hj]
      exact hfresh _ (List.getElem_mem hj)
    · rw [List.getD_eq_default _ _ (Nat.le_of_not_lt hj)]
      exact List.not_mem_nil _
  have hx : x ∈ (r.Push x).elements.getD (r.tick % TICKS_TO_DESTROY) [] := by
    simp only [Push, getD_set_list]
    rw [if_pos ⟨trivial, by rw [hwf]; exact hs⟩]
    exact List.mem_append_right _ (List.mem_singleton_self x)
  have hother : ∀ j, j ≠ r.tick % TICKS_TO_DESTROY →
      x ∉ (r.Push x).elements.getD j [] := by
    intro j hj
    simp only [Push, getD_set_list]
    rw [if_neg (fun h => hj h.1.symm)]
    exact hother0 j
  have hlen : (r.Push x).elements.length = TICKS_TO_DESTROY := by
    simp only [Push, List.length_set]
    exact hwf
  have hmod : ((r.Push x).tick + 6) % TICKS_TO_DESTROY = r.tick % TICKS_TO_DESTROY := by
    simp only [Push, TICKS_TO_DESTROY]
    omega
  obtain ⟨h1, h2⟩ := run_sentenced x (r.tick % TICKS_TO_DESTROY) ops (r.Push x) 6 hlen hs hx
    hother (by decide) (by decide) hmod hne
  refine ⟨rfl, hx, h1, ?_, h2⟩
  intro h5
  obtain ⟨h3, h4⟩ := h1 (by omega)
  refine ⟨h3, ?_⟩
  have hlast : (((r.Push x).run ops).1.tick + 1) % TICKS_TO_DESTROY = r.tick % TICKS_TO_DESTROY := by
    have := run_tick (r.Push x) ops
    rw [this, h5]
    simp only [Push, TICKS_TO_DESTROY]
    omega
  simp only [Tick, hlast]
  exact h4

/-- Witness for C17: the object 7 moved into the empty ring, followed by five ticks and
the move of another object, is not destroyed by them and is destroyed by the sixth
tick. -/
theorem TextureCache.DelayedDestructionRing.destroyed_after_depth_witness :
    7 ∉ (((new : DelayedDestructionRing Nat).Push 7).run
        [none, some 3, none, none, none, none]).2 ∧
      7 ∈ ((((new : DelayedDestructionRing Nat).Push 7).run
        [none, some 3, none, none, none, none]).1.Tick).2 :=
  (TextureCache.DelayedDestructionRing.destroyed_after_depth (new : DelayedDestructionRing Nat) 7
    [none, some 3, none, none, none, none] rfl (by decide)
    (by
      intro y hy
      simp only [List.mem_cons, Option.some.injEq, List.mem_singleton, List.not_mem_nil,
        or_false, false_or, reduceCtorEq] at hy
      omega)).2.2.2.1 rfl

/-! ### C16: framebuffer cache -/

namespace TextureCache

namespace FramebufferCache

variable {RenderTargets Framebuffer : Type} [DecidableEq RenderTargets]

theorem GetFramebufferId_hit (create : RenderTargets → Framebuffer)
    (c : FramebufferCache RenderTargets Framebuffer) (key : RenderTargets) (id : SlotId)
    (h : c.framebuffers.lookup key = some id) : GetFramebufferId create c key = (c, id) := by
  simp only [GetFramebufferId, h]

theorem GetFramebufferId_miss (create : RenderTargets → Framebuffer)
    (c : FramebufferCache RenderTargets Framebuffer) (key : RenderTargets)
    (h : c.framebuffers.lookup key = none) :
    (GetFramebufferId create c key).1.created = c.created + 1 ∧
      (GetFramebufferId create c key).1.framebuffers.lookup key =
        some (GetFramebufferId create c key).2 ∧
      (GetFramebufferId create c key).1.render_targets = c.render_targets := by
  simp only [GetFramebufferId, h, List.lookup_cons, beq_self_eq_true, and_self]

/-- A key that is cached stays cached under the same handle, whatever is requested. -/
theorem lookup_GetFramebufferId (create : RenderTargets → Framebuffer)
    (c : FramebufferCache RenderTargets Framebuffer) (key k : RenderTargets) (id : SlotId)
    (h : c.framebuffers.lookup key = some id) :
    (GetFramebufferId create c k).1.framebuffers.lookup key = some id := by
  cases hk : c.framebuffers.lookup k with
  | some id2 => rw [GetFramebufferId_hit create c k id2 hk]; exact h
  | none =>
    have hne : (key == k) = false := by
      rw [beq_eq_false_iff_ne]
      intro heq
      rw [heq, hk] at h
      exact Option.noConfusion h
    simp only [GetFramebufferId, hk, List.lookup_cons, hne]
    exact h

theorem lookup_requestAll (create : RenderTargets → Framebuffer) (key : RenderTargets)
    (id : SlotId) : ∀ (ks : List RenderTargets) (c : FramebufferCache RenderTargets Framebuffer),
    c.framebuffers.lookup key = some id →
    (requestAll create c ks).framebuffers.lookup key = some id := by
  intro ks
  induction ks with
  | nil => intro c h; exact h
  | cons k ks ih =>
    intro c h
    exact ih _ (lookup_GetFramebufferId create c key k id h)

/-- After a request for `key`, the key is cached under the handle returned. -/
theorem lookup_after_GetFramebufferId (create : RenderTargets → Framebuffer)
    (c : FramebufferCache RenderTargets Framebuffer) (key : RenderTargets) :
    (GetFramebufferId create c key).1.framebuffers.lookup key =
      some (GetFramebufferId create c key).2 := by
  cases hk : c.framebuffers.lookup key with
  | some id => rw [GetFramebufferId_hit create c key id hk]; exact hk
  | none => exact (GetFramebufferId_miss create c key hk).2.1

end FramebufferCache

end TextureCache

/-- C16, settled on a model of the framebuffer cache: two `GetFramebuffer()` calls made
with identical RenderTargets keys return the same Framebuffer handle, also with requests
for other keys `ks` between them, and the second call changes nothing in the cache;
the two calls, the first of which finds the key not yet cached, trigger exactly one
backend framebuffer creation: the first call creates the framebuffer and the second is a
hit. -/
theorem TextureCache.FramebufferCache.GetFramebuffer_idempotent
    {RenderTargets Framebuffer : Type} [DecidableEq RenderTargets]
    (create : RenderTargets → Framebuffer) (c : FramebufferCache RenderTargets Framebuffer)
    (ks : List RenderTargets) :
    GetFramebuffer create (GetFramebuffer create c).1 =
      ((GetFramebuffer create c).1, (GetFramebuffer create c).2) ∧
    GetFramebufferId create (requestAll create (GetFramebuffer create c).1 ks)
        c.render_targets =
      (requestAll create (GetFramebuffer create c).1 ks, (GetFramebuffer create c).2) ∧
    (c.framebuffers.lookup c.render_targets = none →
      (GetFramebuffer create c).1.created = c.created + 1 ∧
      (GetFramebuffer create (GetFramebuffer create c).1).1.created = c.created + 1) := by
  have h1 := lookup_after_GetFramebufferId create c c.render_targets
  have hrt : (GetFramebuffer create c).1.render_targets = c.render_targets := by
    cases hk : c.framebuffers.lookup c.render_targets with
    | some id => simp only [GetFramebuffer, GetFramebufferId_hit create c _ id hk]
    | none => exact (GetFramebufferId_miss create c _ hk).2.2
  have h2 : GetFramebuffer create (GetFramebuffer create c).1 =
      ((GetFramebuffer create c).1, (GetFramebuffer create c).2) := by
    unfold GetFramebuffer at hrt ⊢
    rw [hrt]
    exact GetFramebufferId_hit create _ _ _ h1
  refine ⟨h2, ?_, ?_⟩
  · exact GetFramebufferId_hit create _ _ _ (lookup_requestAll create _ _ ks _ h1)
  · intro hk
    rw [h2]
    exact ⟨(GetFramebufferId_miss create c _ hk).1, (GetFramebufferId_miss create c _ hk).1⟩

/-- Witness for C16: on the empty cache bound to the key 5 the first call creates the
framebuffer and the second returns it. -/
theorem TextureCache.FramebufferCache.GetFramebuffer_idempotent_witness :
    (GetFramebuffer id (GetFramebuffer id (new 5 : FramebufferCache Nat Nat)).1).1.created =
      (new 5 : FramebufferCache Nat Nat).created + 1 :=
  ((TextureCache.FramebufferCache.GetFramebuffer_idempotent id
    (new 5 : FramebufferCache Nat Nat) []).2.2 rfl).2

/-! ### C14: invalidation -/

namespace TextureCache

namespace ImageRegistry

variable {Info : Type}

theorem markCpuModified_twice (image : ImageBase Info) :
    image.markCpuModified.markCpuModified = image.markCpuModified := rfl

end ImageRegistry

end TextureCache

namespace TextureCache

namespace ImageRegistry

end ImageRegistry

end TextureCache

namespace TextureCache

theorem rangesIntersect_comm (a s b t : Nat) :
    rangesIntersect a s b t = rangesIntersect b t a s := by
  simp only [rangesIntersect, Bool.and_comm]

/-- Ranges that do not intersect, in the sense of `rangesIntersect`, have no address
in common. -/
theorem rangesIntersect_false (a s b t x : Nat) (h : rangesIntersect a s b t = false)
    (h1 : a ≤ x ∧ x < a + s) : ¬ (b ≤ x ∧ x < b + t) := by
  simp only [rangesIntersect, Bool.and_eq_false_iff, decide_eq_false_iff_not] at h
  omega

namespace ImageCache

variable {Info Options : Type} [DecidableEq Info]

/-- On a miss no candidate exactly matches, so every live image that intersects the
requested range is removed. -/
theorem FindImage_none (rules : ImageRules Info Options) (c : ImageCache Info) (info : Info)
    (gpu_addr : Nat) (options : Options) (h : FindImage rules c info gpu_addr options = none)
    (e : SlotId × ImageBase Info) (he : e ∈ c.live)
    (hi : rangesIntersect e.2.gpu_addr e.2.guest_size_bytes gpu_addr (rules.guestSize info) =
      true) : exact info gpu_addr e = false := by
  unfold FindImage at h
  cases hf : (candidates rules c info gpu_addr).find? (exact info gpu_addr) with
  | some e2 => rw [hf] at h; exact Option.noConfusion h
  | none =>
    have hall := List.find?_eq_none.mp hf e (List.mem_filter.mpr ⟨he, hi⟩)
    simpa using hall

theorem NoOverlap_InsertImage (rules : ImageRules Info Options) (c : ImageCache Info)
    (info : Info) (gpu_addr : Nat) (options : Options) (h : c.NoOverlap)
    (hmiss : FindImage rules c info gpu_addr options = none) :
    (InsertImage rules c info gpu_addr).1.NoOverlap := by
  unfold NoOverlap InsertImage
  simp only [List.pairwise_cons]
  refine ⟨?_, List.Pairwise.sublist (List.filter_sublist _) h⟩
  intro e he
  rcases List.mem_filter.mp he with ⟨hmem, hkeep⟩
  rw [rangesIntersect_comm]
  cases hi : rangesIntersect e.2.gpu_addr e.2.guest_size_bytes gpu_addr (rules.guestSize info)
  · rfl
  · have hex := FindImage_none rules c info gpu_addr options hmiss e hmem hi
    rw [hi, hex] at hkeep
    exact absurd hkeep (by decide)

theorem NoOverlap_FindOrInsertImage (rules : ImageRules Info Options) (c : ImageCache Info)
    (info : Info) (gpu_addr : Nat) (options : Options) (h : c.NoOverlap) :
    (FindOrInsertImage rules c info gpu_addr options).1.NoOverlap := by
  unfold FindOrInsertImage
  cases hf : FindImage rules c info gpu_addr options with
  | some id => exact h
  | none => exact NoOverlap_InsertImage rules c info gpu_addr options h hf

theorem NoOverlap_findOrInsertAll (rules : ImageRules Info Options) :
    ∀ (requests : List (Info × Nat × Options)) (c : ImageCache Info),
      c.NoOverlap → (findOrInsertAll rules c requests).NoOverlap := by
  intro requests
  induction requests with
  | nil => intro c h; exact h
  | cons r rs ih =>
    intro c h
    exact ih _ (NoOverlap_FindOrInsertImage rules c r.1 r.2.1 r.2.2 h)

end ImageCache

end TextureCache

/-- C15, settled on a model of `FindOrInsertImage`: after every sequence of
`FindOrInsertImage` calls on the cache without images (so after each call of a
sequence), no two live Images have intersecting guest address ranges, and no address
lies in the ranges of two of them: the images a request overlaps without a match are
removed, by merge or by eviction, before the new Image is inserted. -/
theorem TextureCache.ImageCache.live_images_disjoint {Info Options : Type} [DecidableEq Info]
    (rules : ImageRules Info Options) (requests : List (Info × Nat × Options)) :
    (findOrInsertAll rules new requests).live.Pairwise (fun a b =>
      rangesIntersect a.2.gpu_addr a.2.guest_size_bytes b.2.gpu_addr b.2.guest_size_bytes =
        false) ∧
    (findOrInsertAll rules new requests).live.Pairwise (fun a b =>
      ∀ x, a.2.gpu_addr ≤ x ∧ x < a.2.gpu_addr + a.2.guest_size_bytes →
        ¬ (b.2.gpu_addr ≤ x ∧ x < b.2.gpu_addr + b.2.guest_size_bytes)) := by
  have h : (findOrInsertAll rules (new : ImageCache Info) requests).NoOverlap :=
    NoOverlap_findOrInsertAll rules requests new List.Pairwise.nil
  exact ⟨h, List.Pairwise.imp (fun hab x hx => rangesIntersect_false _ _ _ _ x hab hx) h⟩

/-- Witness for C15: three requests, the third a hit on the first image, leave the two
images at 0x3000 and 0x1000 live; they do not intersect. -/
theorem TextureCache.ImageCache.live_images_disjoint_witness :
    ((findOrInsertAll exampleRules new
        [(0x1000, 0x1000, ()), (0x1000, 0x3000, ()), (0x1000, 0x1000, ())]).live.map
      fun e => e.2.gpu_addr) = [0x3000, 0x1000] ∧
    (findOrInsertAll exampleRules new
        [(0x1000, 0x1000, ()), (0x1000, 0x3000, ()), (0x1000, 0x1000, ())]).live.Pairwise
      (fun a b =>
        rangesIntersect a.2.gpu_addr a.2.guest_size_bytes b.2.gpu_addr b.2.guest_size_bytes =
          false) :=
  ⟨by decide,
   (TextureCache.ImageCache.live_images_disjoint exampleRules
    [(0x1000, 0x1000, ()), (0x1000, 0x3000, ()), (0x1000, 0x1000, ())]).1⟩

end VideoCommon

/-! ### C28: `DivCeil` and `DivCeilLog2` -/

/-- C28: for numbers of an unsigned type of `w` bits, a divisor `d > 0` and `n` such that
`n + d - 1` does not overflow, `DivCeil(n, d)` is the ceiling of `n / d`, the least `q`
with `q * d >= n`; and for every `k < w` (the shift does not overflow),
`DivCeilLog2(n, k)` equals `DivCeil(n, 2 ^ k)`. -/
theorem Common.DivCeil_is_ceiling (w n d : Nat) (_hn : n < 2 ^ w) (hd : 0 < d)
    (hdw : d < 2 ^ w) (hsum : n + d - 1 < 2 ^ w) :
    (∃ q, DivCeil w n d = some q ∧ q = (n + d - 1) / d ∧ n ≤ q * d ∧
      ∀ r, n ≤ r * d → q ≤ r) ∧
    (∀ k, k < w → DivCeilLog2 w n k = DivCeil w n (2 ^ k)) := by
  constructor
  · have hval : ((n + d) % 2 ^ w + 2 ^ w - 1) % 2 ^ w = n + d - 1 := by
      have hp : 0 < 2 ^ w := Nat.two_pow_pos w
      rcases Nat.lt_or_ge (n + d) (2 ^ w) with h | h
      · rw [Nat.mod_eq_of_lt h]
        have : n + d + 2 ^ w - 1 = (n + d - 1) + 2 ^ w := by omega
        rw [this, Nat.add_mod_right, Nat.mod_eq_of_lt hsum]
      · have h2 : n + d = 2 ^ w := by omega
        rw [h2, Nat.mod_self, Nat.zero_add, Nat.mod_eq_of_lt (by omega)]
    refine ⟨(n + d - 1) / d, ?_, rfl, ?_, ?_⟩
    · simp only [DivCeil, Nat.ne_of_gt hd, if_false, hval]
    · have h1 : n + d - 1 < ((n + d - 1) / d + 1) * d := by
        have := Nat.lt_succ_self ((n + d - 1) / d)
        exact (Nat.div_lt_iff_lt_mul hd).mp this
      rw [Nat.add_mul, Nat.one_mul] at h1
      omega
    · intro r hr
      have h1 : (n + d - 1) / d < r + 1 := by
        rw [Nat.div_lt_iff_lt_mul hd, Nat.add_mul, Nat.one_mul]
        omega
      omega
  · intro k hk
    have hpk : 0 < 2 ^ k := Nat.two_pow_pos k
    have hlt : 2 ^ k < 2 ^ w := Nat.pow_lt_pow_right (by decide) hk
    simp only [DivCeilLog2, DivCeil, Nat.not_le.mpr hk, if_false, Nat.ne_of_gt hpk,
      Nat.one_shiftLeft, Nat.mod_eq_of_lt hlt, Nat.shiftRight_eq_div_pow]

/-- Witness for C28: in 32 bits, `DivCeil(10, 4) = 3 = DivCeilLog2(10, 2)`. -/
theorem Common.DivCeil_is_ceiling_witness :
    DivCeilLog2 32 10 2 = DivCeil 32 10 (2 ^ 2) :=
  (Common.DivCeil_is_ceiling 32 10 4 (by decide) (by decide) (by decide) (by decide)).2 2
    (by decide)

/-! ### C29: the index into `map_lut` -/

set_option maxRecDepth 8192 in
theorem Tegra.Decoder.VP9.length_map_lut : map_lut.length = 254 := by
  decide

/-- C29: for all probabilities `new_prob` and `old_prob` in 1..255 with
`new_prob != old_prob`, the index computed by `RemapProbability` lies in 0..253, within
the bounds of the 254-entry `map_lut`, so that the function returns an entry of the
table. -/
theorem Tegra.Decoder.VP9.remapIndex_in_bounds (new_prob old_prob : Int)
    (hn : 1 ≤ new_prob ∧ new_prob ≤ 255) (ho : 1 ≤ old_prob ∧ old_prob ≤ 255)
    (hne : new_prob ≠ old_prob) :
    0 ≤ remapIndex new_prob old_prob ∧ remapIndex new_prob old_prob ≤ 253 ∧
    map_lut.length = 254 ∧
    ∃ v, RemapProbability new_prob old_prob = some v ∧ v ∈ map_lut := by
  have hidx : 0 ≤ remapIndex new_prob old_prob ∧ remapIndex new_prob old_prob ≤ 253 := by
    unfold remapIndex RecenterNonNeg
    split <;> split <;> (try split) <;> omega
  have hlen : map_lut.length = 254 := length_map_lut
  refine ⟨hidx.1, hidx.2, hlen, ?_⟩
  have hlt : (remapIndex new_prob old_prob).toNat < map_lut.length := by
    rw [hlen]
    omega
  refine ⟨map_lut[(remapIndex new_prob old_prob).toNat], ?_, List.getElem_mem hlt⟩
  unfold RemapProbability
  rw [if_pos hidx.1, List.getElem?_eq_getElem hlt]

/-- Witness for C29: `RemapProbability(255, 1)` reads `map_lut[253]`. -/
theorem Tegra.Decoder.VP9.remapIndex_in_bounds_witness :
    remapIndex 255 1 ≤ 253 :=
  (Tegra.Decoder.VP9.remapIndex_in_bounds 255 1 (by decide) (by decide) (by decide)).2.1

/-! ### C24: the callback that returns `bool` -/

/-- C24, the divergence: `ForEachPage` never stops early.  Its constant `RETURNS_BOOL` is
false for every callback, so the value the callback returns is dropped: the walk is the
same as with a callback that returns `false` on every page, and on the two pages of
`[0, 2 ^ 21)` a callback that returns `true` at once is still called on both. -/
theorem VideoCommon.TextureCache.ForEachPage_never_breaks :
    (∀ (σ : Type) (addr size : Nat) (func : Nat → σ → Bool × σ) (st : σ),
      ForEachPage addr size func st =
        ForEachPage addr size (fun p s => (false, (func p s).2)) st) ∧
    ForEachPage 0 (2 ^ 21) (fun p (l : List Nat) => (true, l ++ [p])) [] = [0, 1] := by
  refine ⟨?_, ?_⟩
  · intro σ addr size func st
    rw [ForEachPage_eq_foldl, ForEachPage_eq_foldl]
  · rw [ForEachPage_eq_foldl]
    have h1 : (0 : Nat) >>> PAGE_SHIFT = 0 := Nat.zero_shiftRight _
    have h2 : pageEnd 0 (2 ^ 21) = 1 := by
      rw [pageEnd_eq 0 (2 ^ 21) (by norm_num) (by norm_num)]
      simp only [PAGE_SHIFT, Nat.shiftRight_eq_div_pow]
      omega
    rw [h1, h2]
    rfl

/-! ### C25: the empty range -/

/-- What `ForEachPage(addr, 0, func)` does: nothing when `addr` is a multiple of the page
size `2 ^ 20` other than 0; one call of `func`, on the page of `addr`, when `addr` is not
a multiple of the page size; and for `addr = 0`, where the `u64` expression
`addr + size - 1` wraps, a call on every page from 0 to `2 ^ 44 - 1`. -/
theorem VideoCommon.TextureCache.ForEachPage_size_zero {σ : Type} (addr : Nat)
    (func : Nat → σ → Bool × σ) (st : σ) (h64 : addr < 2 ^ 64) :
    (addr ≠ 0 → addr % 2 ^ 20 = 0 → ForEachPage addr 0 func st = st) ∧
    (addr % 2 ^ 20 ≠ 0 →
      ForEachPage addr 0 func st = (func (addr >>> PAGE_SHIFT) st).2) ∧
    (addr = 0 →
      ForEachPage addr 0 func st =
        (List.range' 0 (2 ^ 44)).foldl (fun st p => (func p st).2) st) := by
  refine ⟨?_, ?_, ?_⟩
  · intro h0 hal
    have hc : pageEnd addr 0 + 1 - (addr >>> PAGE_SHIFT) = 0 := by
      simp only [pageEnd, PAGE_SHIFT, Nat.shiftRight_eq_div_pow]
      omega
    rw [ForEachPage_eq_foldl, hc]
    rfl
  · intro hal
    have hc : pageEnd addr 0 + 1 - (addr >>> PAGE_SHIFT) = 1 := by
      simp only [pageEnd, PAGE_SHIFT, Nat.shiftRight_eq_div_pow]
      omega
    rw [ForEachPage_eq_foldl, hc]
    rfl
  · intro h0
    subst h0
    have h1 : (0 : Nat) >>> PAGE_SHIFT = 0 := Nat.zero_shiftRight _
    have hc : pageEnd 0 0 + 1 - 0 = 2 ^ 44 := by
      simp only [pageEnd, PAGE_SHIFT, Nat.shiftRight_eq_div_pow]
      omega
    rw [ForEachPage_eq_foldl, h1, hc]

/-- C25, the divergence: `ForEachPage(addr, 0, func)` calls `func` although the range
`[addr, addr + 0)` is empty.  For `addr = 5` it calls `func` on page 0, and for
`addr = 0` the `u64` expression `addr + size - 1` wraps to `2 ^ 64 - 1` and `func` is
called on all the `2 ^ 44` pages from 0 to `2 ^ 44 - 1`. -/
theorem VideoCommon.TextureCache.ForEachPage_empty_range_visits :
    ForEachPage 5 0 (fun p (l : List Nat) => (false, l ++ [p])) [] = [0] ∧
    ForEachPage 0 0 (fun p (l : List Nat) => (false, l ++ [p])) [] = List.range' 0 (2 ^ 44) ∧
    (List.range' 0 (2 ^ 44)).length = 2 ^ 44 := by
  refine ⟨?_, ?_, List.length_range' _ _ _⟩
  · rw [(ForEachPage_size_zero 5 _ _ (by norm_num)).2.1 (by decide)]
    rfl
  · rw [(ForEachPage_size_zero 0 _ _ (by norm_num)).2.2 rfl]
    exact (foldl_trace _ []).trans (List.nil_append _)

/-! ### C27: `FindBufferMap` -/

/-- C27, the divergence: `FindBufferMap` returns a mapping that does not contain the
address.  With the one mapping `[0x2000, 0x3000)` added by `AddBufferMap`, the call
`FindBufferMap(0x1000)` searches the empty range before `upper_bound(0x1000)`, so that
`find_if` returns `upper_bound(0x1000)` itself, the position of that mapping, which is
not `end()`: the assertion holds and the mapping is returned.  And whenever the
function returns, it returns a mapping: never `std::nullopt`. -/
theorem Service.Nvidia.Devices.nvhost_vic.FindBufferMap_returns_other_mapping :
    FindBufferMap (AddBufferMap [] 0x2000 0x1000 0 true) 0x1000 =
      some (some { start_addr := 0x2000, end_addr := 0x3000, cpu_addr := 0,
                   is_allocated := true }) ∧
    ¬ (0x2000 ≤ 0x1000 ∧ 0x1000 < 0x3000) ∧
    ∀ (buffer_mappings : List (Nat × BufferMap)) (gpu_addr : Nat),
      FindBufferMap buffer_mappings gpu_addr ≠ some none := by
  refine ⟨by decide, by decide, ?_⟩
  intro buffer_mappings gpu_addr
  unfold FindBufferMap
  split
  · exact fun h => Option.noConfusion h
  · rename_i hne
    have hle : find_if buffer_mappings (upper_bound buffer_mappings gpu_addr)
        (fun entry => decide (gpu_addr ≥ entry.2.StartAddr) &&
          decide (gpu_addr < entry.2.EndAddr)) ≤ buffer_mappings.length := by
      unfold find_if
      refine Nat.le_trans (List.findIdx_le_length _) ?_
      rw [List.length_take]
      exact Nat.min_le_right _ _
    have hlt := Nat.lt_of_le_of_ne hle hne
    rw [List.getElem?_eq_getElem hlt]
    intro h
    cases h

/-! ### C21: `GetCurrentFrame` buffers two frames -/

namespace Tegra.Decoder.VP9

variable {Rest : Type}

theorem length_readFrame (info : Vp9PictureInfo Rest) (memory : Nat → Nat) :
    (readFrame info memory).bit_stream.length = info.bitstream_size := by
  simp only [readFrame, List.length_map, List.length_range]

/-- A call with both buffers filled: the frame of `a` comes out, `b` and `x` stay in. -/
theorem GetCurrentFrame_steady (a b x : Vp9PictureInfo Rest × (Nat → Nat))
    (ha : a.1.bitstream_size ≠ 0) (hb : b.1.bitstream_size ≠ 0) :
    GetCurrentFrame
        { next_frame := withShowFrame (readFrame a.1 a.2) b.1.last_frame_shown,
          next_next_frame := readFrame b.1 b.2 } x.1 x.2 =
      (withShowFrame (readFrame a.1 a.2) b.1.last_frame_shown,
       { next_frame := withShowFrame (readFrame b.1 b.2) x.1.last_frame_shown,
         next_next_frame := readFrame x.1 x.2 }) := by
  have h1 : (readFrame b.1 b.2).bit_stream.length ≠ 0 := by
    rw [length_readFrame]
    exact hb
  have h2 : (withShowFrame (readFrame a.1 a.2) b.1.last_frame_shown).bit_stream.length ≠ 0 := by
    simp only [withShowFrame]
    rw [length_readFrame]
    exact ha
  simp only [GetCurrentFrame, h1, h2, ne_eq, not_false_eq_true, if_true]
  rfl

theorem getFrames_steady :
    ∀ (xs : List (Vp9PictureInfo Rest × (Nat → Nat)))
      (a b : Vp9PictureInfo Rest × (Nat → Nat)),
      a.1.bitstream_size ≠ 0 → b.1.bitstream_size ≠ 0 →
      (∀ x ∈ xs, x.1.bitstream_size ≠ 0) →
      getFrames
          { next_frame := withShowFrame (readFrame a.1 a.2) b.1.last_frame_shown,
            next_next_frame := readFrame b.1 b.2 } xs = delayed a b xs := by
  intro xs
  induction xs with
  | nil => intro a b _ _ _; rfl
  | cons x xs ih =>
    intro a b ha hb hxs
    simp only [getFrames, delayed, GetCurrentFrame_steady a b x ha hb]
    rw [ih b x hb (hxs x (List.mem_cons_self _ _))
      (fun y hy => hxs y (List.mem_cons_of_mem _ hy))]

theorem getElem?_delayed :
    ∀ (xs : List (Vp9PictureInfo Rest × (Nat → Nat)))
      (a b : Vp9PictureInfo Rest × (Nat → Nat)) (i : Nat)
      (u v : Vp9PictureInfo Rest × (Nat → Nat)),
      (a :: b :: xs)[i]? = some u → (a :: b :: xs)[i + 1]? = some v → i < xs.length →
      (delayed a b xs)[i]? = some (withShowFrame (readFrame u.1 u.2) v.1.last_frame_shown) := by
  intro xs
  induction xs with
  | nil => intro a b i u v _ _ hi; exact absurd hi (Nat.not_lt_zero _)
  | cons x xs ih =>
    intro a b i u v hu hv hi
    cases i with
    | zero =>
      simp only [List.getElem?_cons_zero, Option.some.injEq, Nat.zero_add,
        List.getElem?_cons_succ] at hu hv
      subst hu
      subst hv
      simp only [delayed, List.getElem?_cons_zero]
    | succ i =>
      simp only [List.getElem?_cons_succ] at hu hv
      simp only [delayed, List.getElem?_cons_succ]
      exact ih b x i u v hu (by rw [List.getElem?_cons_succ]; exact hv) (by simpa using hi)

end Tegra.Decoder.VP9

/-- C21: `GetCurrentFrame` buffers two frames.  For every sequence of submitted frames
with non-empty bit streams, on a decoder whose two buffers are empty, the n-th call for
`n >= 3` (here `n = i + 3`) returns the bit stream and the picture info of the frame read
at call `n - 2`, with its `show_frame` flag replaced by the `last_frame_shown` flag of
the frame read at call `n - 1`.  The first call returns its own frame, and the second
call the first frame, with the flag of the second. -/
theorem Tegra.Decoder.VP9.GetCurrentFrame_two_behind {Rest : Type} [Inhabited Rest]
    (frames : List (Vp9PictureInfo Rest × (Nat → Nat)))
    (hne : ∀ x ∈ frames, x.1.bitstream_size ≠ 0) :
    (getFrames new frames).length = frames.length ∧
    (∀ (i : Nat) (u v : Vp9PictureInfo Rest × (Nat → Nat)),
      frames[i]? = some u → frames[i + 1]? = some v → i + 2 < frames.length →
      (getFrames new frames)[i + 2]? =
        some { info := { (readFrame u.1 u.2).info with show_frame := v.1.last_frame_shown },
               bit_stream := (readFrame u.1 u.2).bit_stream }) ∧
    (∀ u, frames[0]? = some u → (getFrames new frames)[0]? = some (readFrame u.1 u.2)) ∧
    (∀ u v, frames[0]? = some u → frames[1]? = some v →
      (getFrames new frames)[1]? =
        some (withShowFrame (readFrame u.1 u.2) v.1.last_frame_shown)) := by
  match frames, hne with
  | [], _ =>
    refine ⟨rfl, ?_, ?_, ?_⟩
    · intro i u v _ _ h
      exact absurd h (Nat.not_lt_zero _)
    · intro u h
      cases h
    · intro u v h
      cases h
  | [a], _ =>
    refine ⟨rfl, ?_, ?_, ?_⟩
    · intro i u v _ _ h
      simp only [List.length_singleton] at h
      omega
    · intro u h
      simp only [List.getElem?_cons_zero, Option.some.injEq] at h
      subst h
      rfl
    · intro u v _ h
      cases h
  | a :: b :: xs, hne =>
    have ha : a.1.bitstream_size ≠ 0 := hne a (List.mem_cons_self _ _)
    have hb : b.1.bitstream_size ≠ 0 :=
      hne b (List.mem_cons_of_mem _ (List.mem_cons_self _ _))
    have hxs : ∀ x ∈ xs, x.1.bitstream_size ≠ 0 := fun x hx =>
      hne x (List.mem_cons_of_mem _ (List.mem_cons_of_mem _ hx))
    have h1 : GetCurrentFrame (new : VP9 Rest) a.1 a.2 =
        (readFrame a.1 a.2, { next_frame := emptyFrame, next_next_frame := readFrame a.1 a.2 }) := by
      simp only [GetCurrentFrame, new, emptyFrame, List.length_nil, ne_eq, not_true_eq_false,
        if_false]
    have hla : (readFrame a.1 a.2).bit_stream.length ≠ 0 := by
      rw [length_readFrame]
      exact ha
    have h2 : GetCurrentFrame
        ({ next_frame := emptyFrame, next_next_frame := readFrame a.1 a.2 } : VP9 Rest)
        b.1 b.2 =
        (withShowFrame (readFrame a.1 a.2) b.1.last_frame_shown,
         { next_frame := withShowFrame (readFrame a.1 a.2) b.1.last_frame_shown,
           next_next_frame := readFrame b.1 b.2 }) := by
      simp only [GetCurrentFrame, hla, emptyFrame, List.length_nil, ne_eq, not_true_eq_false,
        not_false_eq_true, if_false, if_true]
      rfl
    have hall : getFrames (new : VP9 Rest) (a :: b :: xs) =
        readFrame a.1 a.2 :: withShowFrame (readFrame a.1 a.2) b.1.last_frame_shown ::
          delayed a b xs := by
      simp only [getFrames, h1, h2]
      rw [getFrames_steady xs a b ha hb hxs]
    have hlen : ∀ (ys : List (Vp9PictureInfo Rest × (Nat → Nat))) (p q : _),
        (delayed p q ys).length = ys.length := by
      intro ys
      induction ys with
      | nil => intro p q; rfl
      | cons y ys ih => intro p q; simp only [delayed, List.length_cons, ih]
    rw [hall]
    refine ⟨by simp only [List.length_cons, hlen], ?_, ?_, ?_⟩
    · intro i u v hu hv hi
      simp only [List.getElem?_cons_succ]
      rw [getElem?_delayed xs a b i u v hu hv (by simpa using hi)]
      rfl
    · intro u h
      simp only [List.getElem?_cons_zero, Option.some.injEq] at h
      subst h
      rfl
    · intro u v hu hv
      simp only [List.getElem?_cons_zero, Option.some.injEq, List.getElem?_cons_succ] at hu hv
      subst hu
      subst hv
      simp only [List.getElem?_cons_succ, List.getElem?_cons_zero]

/-- Witness for C21: the third call returns the first frame, one byte `0x11`, shown since
the second frame has `last_frame_shown` set. -/
theorem Tegra.Decoder.VP9.GetCurrentFrame_two_behind_witness :
    (getFrames new exampleFrames)[2]? =
      some { info := { last_frame_shown := false, show_frame := true, bitstream_size := 1,
                       rest := () },
             bit_stream := [0x11] } :=
  (Tegra.Decoder.VP9.GetCurrentFrame_two_behind exampleFrames
    (by
      intro x hx
      simp only [exampleFrames, List.mem_cons, List.mem_singleton, List.not_mem_nil,
        or_false] at hx
      rcases hx with rfl | rfl | rfl <;> decide)).2.1 0 _ _ rfl rfl (by decide)

/-! ### C22: the pass protocol of the scratch table -/

namespace VideoCommon.ImageInfoPageTable

variable {Info : Type} [Inhabited Info]

/-- A page head after pushes is the one before, unless a push went to the page. -/
theorem headAt_pushAll_cases (pg : Nat) :
    ∀ (ps : List (Nat × Info)) (t : ImageInfoPageTable Info),
      (t.pushAll ps).headAt pg = t.headAt pg ∨ ∃ q ∈ ps, q.1 >>> PAGE_BITS = pg := by
  intro ps
  induction ps with
  | nil => intro t; exact Or.inl rfl
  | cons q ps ih =>
    intro t
    have h1 : t.pushAll (q :: ps) = (t.Push q.1 q.2).pushAll ps := rfl
    rw [h1]
    rcases ih (t.Push q.1 q.2) with h2 | ⟨r, hr, h2⟩
    · rw [h2, headAt_Push]
      split
      · rename_i hc
        exact Or.inr ⟨q, List.mem_cons_self _ _, hc.1⟩
      · exact Or.inl rfl
    · exact Or.inr ⟨r, List.mem_cons_of_mem _ hr, h2⟩

theorem headAt_foldl_Restore_invalid (pg : Nat) :
    ∀ (es : List (Entry Info)) (t : ImageInfoPageTable Info),
      t.headAt pg = INVALID_ID → (es.foldl Restore t).headAt pg = INVALID_ID := by
  intro es
  induction es with
  | nil => intro t h; exact h
  | cons e es ih =>
    intro t h
    apply ih
    rw [headAt_Restore]
    split
    · rfl
    · exact h

/-- The head of a page is empty after the `Restore` of an entry of the page. -/
theorem headAt_foldl_Restore (pg : Nat) :
    ∀ (es : List (Entry Info)) (t : ImageInfoPageTable Info),
      (∃ e ∈ es, e.gpu_addr >>> PAGE_BITS = pg) →
      (es.foldl Restore t).headAt pg = INVALID_ID := by
  intro es
  induction es with
  | nil =>
    intro t h
    obtain ⟨e, he, _⟩ := h
    cases he
  | cons e es ih =>
    intro t h
    obtain ⟨e2, he2, hp⟩ := h
    rw [List.foldl_cons]
    rcases List.mem_cons.mp he2 with h1 | h1
    · apply headAt_foldl_Restore_invalid
      rw [← hp, h1]
      exact headAt_Restore_self t e
    · exact ih _ ⟨e2, h1, hp⟩

/-- Pushes to other pages leave the head of a page as it is. -/
theorem headAt_pushAll_other (pg : Nat) (ps : List (Nat × Info)) (t : ImageInfoPageTable Info)
    (h : ∀ q ∈ ps, q.1 >>> PAGE_BITS ≠ pg) : (t.pushAll ps).headAt pg = t.headAt pg := by
  rcases headAt_pushAll_cases pg ps t with h1 | ⟨q, hq, h1⟩
  · exact h1
  · exact absurd h1 (h q hq)

theorem headAt_new (pg : Nat) : (new : ImageInfoPageTable Info).headAt pg = INVALID_ID := by
  simp only [headAt, new, List.getD_eq_getElem?_getD, List.getElem?_replicate]
  split <;> rfl

end VideoCommon.ImageInfoPageTable

/-- Counterexample for C22: on a new table, after `Prepare(2 ^ 32)` and `2 ^ 32` pushes, the
first to page 1 and the others to page 0, the `u32` cursor has wrapped and the range
`[begin(), end())` is empty: no `Restore` is made and the head of page 1 is not empty
after the pass. -/
theorem VideoCommon.ImageInfoPageTable.restoreAll_leaves_head :
    ([((2 : Nat) ^ 20, ())] ++ List.replicate (2 ^ 32 - 1) ((0 : Nat), ())).length ≤ 2 ^ 32 ∧
    (((new : ImageInfoPageTable Unit).Prepare (2 ^ 32)).pushAll
        ([(2 ^ 20, ())] ++ List.replicate (2 ^ 32 - 1) (0, ()))).restoreAll.headAt 1 = 0 ∧
    (0 : Nat) ≠ INVALID_ID := by
  refine ⟨by rw [List.length_append, List.length_replicate]; norm_num, ?_, by decide⟩
  have hnum : (((new : ImageInfoPageTable Unit).Prepare (2 ^ 32)).pushAll
      ([(2 ^ 20, ())] ++ List.replicate (2 ^ 32 - 1) (0, ()))).numEntries = 0 := by
    rw [numEntries_any, List.length_append, List.length_replicate]
    norm_num
  rw [restoreAll, range_of_numEntries_zero _ hnum, List.foldl_nil, pushAll_append,
    headAt_pushAll_other]
  · have hwf := wf_Prepare (wf_new : (new : ImageInfoPageTable Unit).WF) (2 ^ 32)
    have h1 : ((new : ImageInfoPageTable Unit).Prepare (2 ^ 32)).pushAll [(2 ^ 20, ())] =
        ((new : ImageInfoPageTable Unit).Prepare (2 ^ 32)).Push (2 ^ 20) () := rfl
    rw [h1, headAt_Push, free_id_Prepare, if_pos]
    · decide
    · refine ⟨by decide, ?_⟩
      rw [hwf.len_heads]
      decide
  · intro q hq
    rw [List.eq_of_mem_replicate hq]
    decide

/-- C22, as amended: if every page head is empty when `Prepare(n)` is called, then after
at most `n` and fewer than `2 ^ 32` pushes, at addresses below `2 ^ 40`, followed by
`Restore(e)` for every entry `e` of the range `[begin(), end())`, every page head is
empty again; the range holds one entry per push. -/
theorem VideoCommon.ImageInfoPageTable.restoreAll_cleans {Info : Type} [Inhabited Info]
    (t0 : ImageInfoPageTable Info) (n : Nat) (ps : List (Nat × Info)) (hwf : t0.WF)
    (hclean : ∀ pg, t0.headAt pg = INVALID_ID) (hn : ps.length ≤ n) (h32 : ps.length < 2 ^ 32)
    (_haddr : ∀ q ∈ ps, q.1 < 2 ^ 40) :
    ((t0.Prepare n).pushAll ps).range.length = ps.length ∧
    ∀ pg, ((t0.Prepare n).pushAll ps).restoreAll.headAt pg = INVALID_ID := by
  have hr := range_pushAll hwf n ps hn h32
  refine ⟨by have := congrArg List.length hr; rwa [List.length_map] at this, ?_⟩
  intro pg
  rcases headAt_pushAll_cases pg ps (t0.Prepare n) with h1 | ⟨q, hq, h1⟩
  · apply headAt_foldl_Restore_invalid
    rw [h1, headAt, id_page_table_Prepare]
    exact hclean pg
  · apply headAt_foldl_Restore
    rw [← hr] at hq
    obtain ⟨e, he, heq⟩ := List.mem_map.mp hq
    refine ⟨e, he, ?_⟩
    rw [← h1, ← heq]

/-- Witness for C22: a new table, `Prepare(4)`, three pushes to two pages and the
`Restore` of the three entries; the head of page 0 is empty again. -/
theorem VideoCommon.ImageInfoPageTable.restoreAll_cleans_witness :
    (((new : ImageInfoPageTable Nat).Prepare 4).pushAll
        [(5, 10), (2 ^ 20, 11), (7, 12)]).restoreAll.headAt 0 = INVALID_ID :=
  (VideoCommon.ImageInfoPageTable.restoreAll_cleans new 4 [(5, 10), (2 ^ 20, 11), (7, 12)]
    wf_new headAt_new (by decide) (by decide) (by decide)).2 0

/-! ### C23: the chains have no cycle -/

namespace VideoCommon.ImageInfoPageTable

variable {Info : Type} [Inhabited Info]

/-- The loop of `AddressLinkedList` ends: from an entry `id` of the pass it runs its body
at most `id + 1` times, since every link leads to a smaller index. -/
theorem Pass.seek_terminates {t : ImageInfoPageTable Info} {k : Nat} (h : Pass t k) (a : Nat) :
    ∀ (f id : Nat), (id = INVALID_ID ∨ (id < k ∧ id < f)) → ∃ r, t.seek a f id = some r := by
  intro f
  induction f with
  | zero =>
    intro id hid
    rcases hid with h1 | ⟨_, h1⟩
    · exact ⟨id, seek_of_match t a 0 id (Or.inl h1)⟩
    · exact absurd h1 (Nat.not_lt_zero _)
  | succ f ih =>
    intro id hid
    by_cases hc : id ≠ INVALID_ID ∧ (t.entryAt id).gpu_addr ≠ a
    · have hs : t.seek a (f + 1) id = t.seek a f (t.entryAt id).next := by
        simp only [seek, hc, ne_eq, not_false_eq_true, and_self, if_true]
      rw [hs]
      rcases hid with h1 | ⟨h1, h2⟩
      · exact absurd h1 hc.1
      · rcases h.links id h1 with h3 | h3
        · exact ih _ (Or.inl h3)
        · exact ih _ (Or.inr ⟨by omega, by omega⟩)
    · refine ⟨id, seek_of_match t a (f + 1) id ?_⟩
      by_cases h1 : id = INVALID_ID
      · exact Or.inl h1
      · right
        by_contra h2
        exact hc ⟨h1, h2⟩

end VideoCommon.ImageInfoPageTable

/-- The three pushes after `2 ^ 32 - 2` pushes of a pass: to page 1, to page 2 and to page 1
again.  The third has the index 0 and links entry 0 to entry `2 ^ 32 - 2`. -/
theorem VideoCommon.ImageInfoPageTable.Pass.wrapped_link {tA : ImageInfoPageTable Unit}
    (hpA : Pass tA (2 ^ 32 - 2)) (hcapA : tA.entries.length = 2 ^ 32 + 1) :
    ((((tA.Push (2 ^ 20) ()).Push (2 ^ 21) ()).Push (2 ^ 20) ()).entryAt 0).next =
      2 ^ 32 - 2 := by
  have hheads : tA.id_page_table.length = NUM_PAGES := hpA.wf.len_heads
  have hfB : (tA.Push (2 ^ 20) ()).free_id = 2 ^ 32 - 2 := by
    rw [free_id_Push, hpA.next_idx]
  have hhB : (tA.Push (2 ^ 20) ()).headAt 1 = 2 ^ 32 - 2 := by
    rw [headAt_Push, hpA.next_idx, if_pos]
    refine ⟨by decide, ?_⟩
    rw [hheads]
    decide
  have hfC : ((tA.Push (2 ^ 20) ()).Push (2 ^ 21) ()).free_id = 2 ^ 32 - 1 := by
    rw [free_id_Push, hfB]
    omega
  have hhC : ((tA.Push (2 ^ 20) ()).Push (2 ^ 21) ()).headAt 1 = 2 ^ 32 - 2 := by
    rw [headAt_Push, if_neg, hhB]
    intro hc
    exact absurd hc.1 (by decide)
  have hlC : ((tA.Push (2 ^ 20) ()).Push (2 ^ 21) ()).entries.length = 2 ^ 32 + 1 := by
    simp only [Push, List.length_set]
    exact hcapA
  have hpg : (2 : Nat) ^ 20 >>> PAGE_BITS = 1 := by decide
  rw [entryAt_Push, hfC, if_pos, hpg, hhC]
  refine ⟨by omega, ?_⟩
  rw [hlC]
  omega

/-- Counterexample for C23: on a new table, after `Prepare(2 ^ 32 + 1)` and `2 ^ 32 + 1`
pushes (the first `2 ^ 32 - 1` and the last to page 1, the one between to page 2), the
`u32` cursor has wrapped: the last push rewrites entry 0 and links it to the head of
page 1, entry `2 ^ 32 - 2`, which is neither the invalid id nor smaller than 0. -/
theorem VideoCommon.ImageInfoPageTable.link_to_later_entry :
    (List.replicate (2 ^ 32 - 2) ((2 : Nat) ^ 20, ()) ++ [(2 ^ 20, ())] ++ [(2 ^ 21, ())] ++
        [(2 ^ 20, ())]).length ≤ 2 ^ 32 + 1 ∧
    ((((new : ImageInfoPageTable Unit).Prepare (2 ^ 32 + 1)).pushAll
        (List.replicate (2 ^ 32 - 2) (2 ^ 20, ()) ++ [(2 ^ 20, ())] ++ [(2 ^ 21, ())] ++
          [(2 ^ 20, ())])).entryAt 0).next = 2 ^ 32 - 2 ∧
    (2 : Nat) ^ 32 - 2 ≠ INVALID_ID := by
  refine ⟨?_, ?_, by decide⟩
  · rw [List.length_append, List.length_append, List.length_append, List.length_replicate]
    simp only [List.length_singleton]
    omega
  · have hpA := (pass_pushAll (wf_new : (new : ImageInfoPageTable Unit).WF) headAt_new
      (2 ^ 32 + 1) (List.replicate (2 ^ 32 - 2) ((2 : Nat) ^ 20, ()))
      (by rw [List.length_replicate]; omega) (by rw [List.length_replicate]; omega)).1
    rw [List.length_replicate] at hpA
    have hcap := length_entries_pass (wf_new : (new : ImageInfoPageTable Unit).WF)
      (2 ^ 32 + 1) (List.replicate (2 ^ 32 - 2) ((2 : Nat) ^ 20, ()))
    have hcapA : (((new : ImageInfoPageTable Unit).Prepare (2 ^ 32 + 1)).pushAll
        (List.replicate (2 ^ 32 - 2) ((2 : Nat) ^ 20, ()))).entries.length = 2 ^ 32 + 1 := by
      rw [hcap]
      exact Nat.max_eq_right (Nat.zero_le _)
    rw [pushAll_concat, pushAll_concat, pushAll_concat]
    exact hpA.wrapped_link hcapA

/-- C23, as amended: in every table state reached from all-empty page heads by
`Prepare(n)` and at most `n` and fewer than `2 ^ 32` pushes, the next link of each entry of
the pass is either the invalid id or strictly smaller than the entry's own index, so
that no chain contains a cycle, and the loops of `AddressLinkedList`, for every address
below `2 ^ 40`, and of `Iterator::Next`, for every valid iterator of the pass, end
after at most as many runs of their body as there were pushes. -/
theorem VideoCommon.ImageInfoPageTable.chains_end {Info : Type} [Inhabited Info]
    (t0 : ImageInfoPageTable Info) (n : Nat) (ps : List (Nat × Info)) (hwf : t0.WF)
    (hclean : ∀ pg, t0.headAt pg = INVALID_ID) (hn : ps.length ≤ n)
    (h32 : ps.length < 2 ^ 32) :
    (∀ i, i < ps.length →
      (((t0.Prepare n).pushAll ps).entryAt i).next = INVALID_ID ∨
        (((t0.Prepare n).pushAll ps).entryAt i).next < i) ∧
    (∀ a fuel, a < 2 ^ 40 → ps.length ≤ fuel →
      ∃ it, ((t0.Prepare n).pushAll ps).AddressLinkedList fuel a = some it ∧
        (it.id = INVALID_ID ∨ it.id < ps.length)) ∧
    (∀ (it : Iterator) fuel, it.id < ps.length → ps.length ≤ fuel →
      ∃ it2, it.Next fuel ((t0.Prepare n).pushAll ps) = some it2 ∧
        (it2.id = INVALID_ID ∨ it2.id < ps.length)) := by
  have hp := (pass_pushAll hwf hclean n ps hn h32).1
  refine ⟨hp.links, ?_, ?_⟩
  · intro a fuel _ hfuel
    have hhead := hp.heads (a >>> PAGE_BITS)
    obtain ⟨r, hr⟩ := hp.seek_terminates a ps.length _
      (hhead.imp id (fun h => ⟨h, h⟩))
    have hr2 := seek_mono _ a _ _ _ hr fuel hfuel
    refine ⟨{ gpu_addr := a, id := r }, ?_, hp.seek_bound a _ _ r hhead hr⟩
    simp only [AddressLinkedList, hr2, Option.map_some']
  · intro it fuel hid hfuel
    obtain ⟨f, hf⟩ : ∃ f, fuel = f + 1 := ⟨fuel - 1, by omega⟩
    have hnext : (((t0.Prepare n).pushAll ps).entryAt it.id).next = INVALID_ID ∨
        ((((t0.Prepare n).pushAll ps).entryAt it.id).next < ps.length ∧
          (((t0.Prepare n).pushAll ps).entryAt it.id).next < ps.length - 1) := by
      rcases hp.links it.id hid with h1 | h1
      · exact Or.inl h1
      · exact Or.inr ⟨by omega, by omega⟩
    obtain ⟨r, hr⟩ := hp.seek_terminates it.gpu_addr (ps.length - 1) _ hnext
    have hr2 := seek_mono _ it.gpu_addr _ _ _ hr f (by omega)
    have hN : it.Next fuel ((t0.Prepare n).pushAll ps) =
        some { gpu_addr := it.gpu_addr, id := r } := by
      simp only [Iterator.Next, hf, nextLoop_succ, hr2, Option.map_some']
    refine ⟨_, hN, ?_⟩
    exact hp.Next_bound fuel it _ hid hN

/-- Witness for C23: a new table, `Prepare(4)` and three pushes to page 0; the loop of
`AddressLinkedList(9)` ends within three runs, at the end of the chain. -/
theorem VideoCommon.ImageInfoPageTable.chains_end_witness :
    ∃ it, (((new : ImageInfoPageTable Nat).Prepare 4).pushAll
        [(5, 10), (7, 11), (5, 12)]).AddressLinkedList 3 9 = some it ∧
      (it.id = INVALID_ID ∨ it.id < 3) :=
  (VideoCommon.ImageInfoPageTable.chains_end new 4 [(5, 10), (7, 11), (5, 12)] wf_new
    headAt_new (by decide) (by decide)).2.1 9 3 (by decide) (by decide)

/-! ### C26: the bit stream writer -/

namespace Tegra.Decoder

/-- The bits of `x >> s` below the sign extension are those of `x`. -/
theorem sar32_testBit (x s r : Nat) (hx : x < 2 ^ 32) (h : s + r < 32) :
    (sar32 x s).testBit r = x.testBit (s + r) := by
  unfold sar32
  split
  · rw [Nat.testBit_shiftRight]
  · rw [Nat.testBit_shiftRight, Nat.add_comm x, Nat.mul_comm,
      Nat.testBit_mul_pow_two_add _ hx, if_pos h]

theorem getD_append_cases {α : Type} (l l2 : List α) (d : α) (n : Nat) :
    (l ++ l2).getD n d = if n < l.length then l.getD n d else l2.getD (n - l.length) d := by
  split
  · rename_i h
    exact List.getD_append l l2 d n h
  · rename_i h
    exact List.getD_append_right l l2 d n (Nat.le_of_not_lt h)

theorem length_lowBits (v n : Nat) : (lowBits v n).length = n := by
  simp only [lowBits, List.length_map, List.length_range]

theorem getD_lowBits (v n j : Nat) :
    (lowBits v n).getD j false = (decide (j < n) && v.testBit (n - 1 - j)) := by
  by_cases h : j < n
  · simp only [lowBits, List.getD_eq_getElem?_getD, List.getElem?_map,
      List.getElem?_range h, Option.map_some', Option.getD_some, h, decide_True, Bool.true_and]
  · rw [List.getD_eq_default _ _ (by rw [length_lowBits]; omega)]
    simp only [h, decide_False, Bool.false_and]

theorem getD_take_drop (l : List Bool) (a c j : Nat) :
    ((l.drop a).take c).getD j false = (decide (j < c) && l.getD (a + j) false) := by
  simp only [List.getD_eq_getElem?_getD, List.getElem?_take, List.getElem?_drop]
  by_cases h : j < c
  · simp only [h, if_true, decide_True, Bool.true_and]
  · simp only [h, if_false, decide_False, Bool.false_and, Option.getD_none]

set_option maxRecDepth 100000 in
/-- A byte is the byte of its eight bits. -/
theorem byteOfBits_testBit :
    ∀ x, x < 256 →
      byteOfBits (x.testBit 7) (x.testBit 6) (x.testBit 5) (x.testBit 4) (x.testBit 3)
        (x.testBit 2) (x.testBit 1) (x.testBit 0) = x := by
  decide

namespace VpxBitStreamWriter

theorem Rep.buffer_lt {w : VpxBitStreamWriter} {bs : List Bool} (h : Rep w bs) :
    w.buffer < 2 ^ 8 := by
  apply Nat.lt_pow_two_of_testBit
  intro i hi
  rw [h.buf]
  have : ¬ i < 8 := by omega
  simp only [this, decide_False, Bool.false_and]

theorem Rep.of_new : Rep new [] where
  size := rfl
  pos_le := Nat.zero_le _
  len := rfl
  bytes := by
    intro i hi
    exact absurd hi (Nat.not_lt_zero _)
  buf := by
    intro m
    simp only [new, Nat.zero_testBit, List.getD_eq_getElem?_getD, List.getElem?_nil,
      Option.getD_none, Bool.and_false]

/-- The flush of a full buffer keeps the bits. -/
theorem Rep.flush_full {w : VpxBitStreamWriter} {bs : List Bool} (h : Rep w bs)
    (hp : w.buffer_pos = 8) : Rep w.Flush bs ∧ w.Flush.buffer_pos = 0 := by
  have hne : ¬ w.buffer_pos = 0 := by omega
  have hF : w.Flush =
      { w with
        byte_array := w.byte_array ++ [w.buffer % 2 ^ 8]
        buffer := 0
        buffer_pos := 0 } := by
    simp only [Flush, hne, if_false]
  rw [hF]
  refine ⟨?_, rfl⟩
  have hlen := h.len
  constructor
  · exact h.size
  · exact Nat.zero_le _
  · simp only [List.length_append, List.length_singleton]
    omega
  · intro i hi m
    simp only [List.length_append, List.length_singleton] at hi
    show ((w.byte_array ++ [w.buffer % 2 ^ 8]).getD i 0).testBit m = _
    rw [getD_append_cases]
    split
    · rename_i h1
      exact h.bytes i h1 m
    · rename_i h1
      have h2 : i = w.byte_array.length := by omega
      rw [h2, Nat.sub_self, Nat.mod_eq_of_lt h.buffer_lt]
      exact h.buf m
  · intro m
    show Nat.testBit 0 m = _
    rw [Nat.zero_testBit, List.getD_eq_default]
    · simp only [Bool.and_false]
    · simp only [List.length_append, List.length_singleton]
      omega

/-- After `GetFreeBufferBits` the buffer has room. -/
theorem Rep.getFree {w : VpxBitStreamWriter} {bs : List Bool} (h : Rep w bs) :
    Rep (GetFreeBufferBits w).1 bs ∧ (GetFreeBufferBits w).1.buffer_pos < 8 ∧
      (GetFreeBufferBits w).2 = 8 - (GetFreeBufferBits w).1.buffer_pos := by
  by_cases hp : w.buffer_pos = 8
  · have hG : GetFreeBufferBits w = (w.Flush, w.Flush.buffer_size - w.Flush.buffer_pos) := by
      simp only [GetFreeBufferBits, h.size, hp, if_true]
    obtain ⟨h1, h2⟩ := h.flush_full hp
    rw [hG]
    dsimp only
    refine ⟨h1, by rw [h2]; decide, ?_⟩
    rw [h1.size]
  · have hG : GetFreeBufferBits w = (w, w.buffer_size - w.buffer_pos) := by
      simp only [GetFreeBufferBits, h.size, hp, if_false]
    have := h.pos_le
    rw [hG]
    dsimp only
    refine ⟨h, by omega, ?_⟩
    rw [h.size]

end VpxBitStreamWriter

end Tegra.Decoder

namespace Tegra.Decoder

/-- The bits of the masked and shifted piece of `value` that one run of the loop of
`WriteBits` puts into the buffer. -/
theorem piece_testBit (value remaining copy d m : Nat) (hv : value < 2 ^ 32)
    (hcr : copy ≤ remaining) (hr : remaining ≤ 32) (hd : d + copy ≤ 8) :
    ((((sar32 value (remaining - copy)) &&& ((1 <<< copy) % 2 ^ 32 - 1)) <<< d) %
        2 ^ 32).testBit m =
      (decide (d ≤ m ∧ m < d + copy) && value.testBit (remaining - copy + (m - d))) := by
  have hpow : (2 : Nat) ^ copy < 2 ^ 32 := Nat.pow_lt_pow_right (by decide) (by omega)
  rw [Nat.testBit_mod_two_pow, Nat.testBit_shiftLeft, Nat.testBit_and, Nat.one_shiftLeft,
    Nat.mod_eq_of_lt hpow, Nat.testBit_two_pow_sub_one]
  by_cases hm : d ≤ m ∧ m < d + copy
  · have h1 : m < 32 := by omega
    have h2 : m ≥ d := hm.1
    have h3 : m - d < copy := by omega
    rw [sar32_testBit value _ _ hv (by omega)]
    simp only [h1, h2, h3, hm, decide_True, Bool.true_and, Bool.and_true, and_self]
  · simp only [hm, decide_False, Bool.false_and]
    by_cases h2 : m ≥ d
    · have h3 : ¬ m - d < copy := by omega
      simp only [h3, decide_False, Bool.and_false]
    · simp only [h2, decide_False, Bool.false_and, Bool.and_false]

namespace VpxBitStreamWriter

/-- One run of the body of the loop of `WriteBits` appends the next `copy` bits of the
remaining `remaining` low bits of `value`. -/
theorem Rep.write_chunk {w : VpxBitStreamWriter} {bs : List Bool} (h : Rep w bs)
    (value remaining copy : Nat) (hv : value < 2 ^ 32) (hcr : copy ≤ remaining)
    (hcf : copy ≤ 8 - w.buffer_pos) (hr : remaining ≤ 32) (chunk : List Bool)
    (hlen : chunk.length = copy)
    (hbits : ∀ j, chunk.getD j false =
      (decide (j < copy) && value.testBit (remaining - 1 - j))) :
    Rep
      { w with
        buffer := w.buffer |||
          (((sar32 value (remaining - copy)) &&& ((1 <<< copy) % 2 ^ 32 - 1)) <<<
            (w.buffer_size - w.buffer_pos - copy)) % 2 ^ 32
        buffer_pos := w.buffer_pos + copy }
      (bs ++ chunk) := by
  have hpos := h.pos_le
  have hL := h.len
  constructor
  · exact h.size
  · show w.buffer_pos + copy ≤ 8
    omega
  · show (bs ++ chunk).length = 8 * w.byte_array.length + (w.buffer_pos + copy)
    rw [List.length_append, hlen]
    omega
  · intro i hi m
    show (w.byte_array.getD i 0).testBit m = _
    have hi2 : i < w.byte_array.length := hi
    rw [h.bytes i hi2 m]
    by_cases hm : m < 8
    · rw [getD_append_cases, if_pos (by omega)]
    · simp only [hm, decide_False, Bool.false_and]
  · intro m
    show (w.buffer ||| _).testBit m =
      (decide (m < 8) && (bs ++ chunk).getD (8 * w.byte_array.length + (7 - m)) false)
    rw [Nat.testBit_or, h.buf, h.size,
      piece_testBit value remaining copy _ m hv hcr hr (by omega), getD_append_cases, hbits]
    by_cases hm : m < 8
    · by_cases h1 : 7 - m < w.buffer_pos
      · have h2 : 8 * w.byte_array.length + (7 - m) < bs.length := by omega
        have h3 : ¬ (8 - w.buffer_pos - copy ≤ m ∧ m < 8 - w.buffer_pos - copy + copy) := by
          omega
        simp only [h2, h3, if_true, decide_False, Bool.false_and, Bool.or_false]
      · have h2 : ¬ 8 * w.byte_array.length + (7 - m) < bs.length := by omega
        have h4 : bs.getD (8 * w.byte_array.length + (7 - m)) false = false :=
          List.getD_eq_default _ _ (by omega)
        rw [h4, if_neg h2]
        by_cases h5 : 7 - m < w.buffer_pos + copy
        · have h6 : 8 - w.buffer_pos - copy ≤ m ∧ m < 8 - w.buffer_pos - copy + copy := by
            omega
          have h7 : 8 * w.byte_array.length + (7 - m) - bs.length < copy := by omega
          have h8 : remaining - copy + (m - (8 - w.buffer_pos - copy)) =
              remaining - 1 - (8 * w.byte_array.length + (7 - m) - bs.length) := by omega
          simp only [hm, h6, h7, h8, decide_True, Bool.true_and, Bool.and_false,
            Bool.false_or, and_self]
        · have h6 : ¬ (8 - w.buffer_pos - copy ≤ m ∧ m < 8 - w.buffer_pos - copy + copy) := by
            omega
          have h7 : ¬ 8 * w.byte_array.length + (7 - m) - bs.length < copy := by omega
          simp only [h6, h7, decide_False, Bool.false_and, Bool.and_false, Bool.or_false]
    · have h3 : ¬ (8 - w.buffer_pos - copy ≤ m ∧ m < 8 - w.buffer_pos - copy + copy) := by
        omega
      simp only [hm, h3, decide_False, Bool.false_and, Bool.or_false]

end VpxBitStreamWriter

end Tegra.Decoder

namespace Tegra.Decoder.VpxBitStreamWriter

/-- The loop of `WriteBits` ends within `remaining` runs of its body and appends the low
`bit_count` bits of `value`. -/
theorem WriteBitsLoop_spec (value bit_count : Nat) (hv : value < 2 ^ 32) (hb : bit_count ≤ 32)
    (bs0 : List Bool) :
    ∀ (fuel : Nat) (w : VpxBitStreamWriter) (value_pos remaining : Nat),
      Rep w (bs0 ++ (lowBits value bit_count).take value_pos) →
      value_pos + remaining = bit_count → remaining ≤ fuel →
      ∃ w2, WriteBitsLoop value bit_count fuel w value_pos remaining = some w2 ∧
        Rep w2 (bs0 ++ lowBits value bit_count) := by
  have hdone : ∀ (w : VpxBitStreamWriter) (value_pos : Nat),
      Rep w (bs0 ++ (lowBits value bit_count).take value_pos) → value_pos = bit_count →
      Rep w (bs0 ++ lowBits value bit_count) := by
    intro w value_pos h hvp
    rw [hvp, List.take_of_length_le (by rw [length_lowBits])] at h
    exact h
  intro fuel
  induction fuel with
  | zero =>
    intro w value_pos remaining h hsum hle
    have h0 : ¬ remaining > 0 := by omega
    exact ⟨w, by simp only [WriteBitsLoop, h0, if_false], hdone w value_pos h (by omega)⟩
  | succ fuel ih =>
    intro w value_pos remaining h hsum hle
    by_cases hrem : remaining > 0
    · obtain ⟨hG1, hG2, hG3⟩ := h.getFree
      simp only [WriteBitsLoop, hrem, if_true]
      generalize GetFreeBufferBits w = G at hG1 hG2 hG3 ⊢
      obtain ⟨w1, free⟩ := G
      simp only at hG1 hG2 hG3 ⊢
      subst hG3
      generalize hcdef :
        (if remaining > 8 - w1.buffer_pos then 8 - w1.buffer_pos else remaining) = copy
      have hc : 1 ≤ copy ∧ copy ≤ remaining ∧ copy ≤ 8 - w1.buffer_pos := by
        split at hcdef <;> omega
      have hsrc : bit_count - value_pos - copy = remaining - copy := by omega
      rw [hsrc]
      refine ih _ _ _ ?_ (by omega) (by omega)
      rw [List.take_add, ← List.append_assoc]
      refine hG1.write_chunk value remaining copy hv hc.2.1 hc.2.2 (by omega) _ ?_ ?_
      · rw [List.length_take, List.length_drop, length_lowBits]
        omega
      · intro j
        rw [getD_take_drop, getD_lowBits]
        by_cases hj : j < copy
        · have h1 : value_pos + j < bit_count := by omega
          have h2 : bit_count - 1 - (value_pos + j) = remaining - 1 - j := by omega
          simp only [hj, h1, h2, decide_True, Bool.true_and]
        · simp only [hj, decide_False, Bool.false_and]
    · exact ⟨w, by simp only [WriteBitsLoop, hrem, if_false], hdone w value_pos h (by omega)⟩

/-- The call `WriteU(value, n)` returns and appends the low `n` bits of `value`. -/
theorem WriteU_spec {w : VpxBitStreamWriter} {bs : List Bool} (h : Rep w bs) (value n : Nat)
    (hv : value < 2 ^ 32) (hn : n ≤ 32) :
    ∃ w2, w.WriteU value n = some w2 ∧ Rep w2 (bs ++ lowBits value n) := by
  unfold WriteU WriteBits
  exact WriteBitsLoop_spec value n hv hn bs n w 0 n
    (by rw [List.take_zero, List.append_nil]; exact h) (by omega) (Nat.le_refl _)

theorem writeAll_spec :
    ∀ (calls : List (Nat × Nat)) (w : VpxBitStreamWriter) (bs : List Bool), Rep w bs →
      (∀ c ∈ calls, c.1 < 2 ^ 32 ∧ c.2 ≤ 32) →
      ∃ w2, writeAll w calls = some w2 ∧
        Rep w2 (bs ++ calls.flatMap fun c => lowBits c.1 c.2) := by
  intro calls
  induction calls with
  | nil =>
    intro w bs h _
    exact ⟨w, rfl, by rw [List.flatMap_nil, List.append_nil]; exact h⟩
  | cons c cs ih =>
    intro w bs h hall
    obtain ⟨hv, hn⟩ := hall c (List.mem_cons_self _ _)
    obtain ⟨w1, hw1, hr1⟩ := WriteU_spec h c.1 c.2 hv hn
    obtain ⟨w2, hw2, hr2⟩ := ih w1 _ hr1 (fun d hd => hall d (List.mem_cons_of_mem _ hd))
    refine ⟨w2, ?_, ?_⟩
    · simp only [writeAll, hw1, Option.some_bind, hw2]
    · rw [List.flatMap_cons, ← List.append_assoc]
      exact hr2

theorem length_flatMap_lowBits (calls : List (Nat × Nat)) :
    (calls.flatMap fun c => lowBits c.1 c.2).length = (calls.map Prod.snd).sum := by
  induction calls with
  | nil => rfl
  | cons c cs ih =>
    rw [List.flatMap_cons, List.length_append, length_lowBits, ih, List.map_cons,
      List.sum_cons]

/-- A list of bytes whose bits are those of `bs`, eight per byte, is `packBits bs`. -/
theorem eq_packBits (l : List Nat) (bs : List Bool) (hlen : l.length = (bs.length + 7) / 8)
    (hb : ∀ i, i < l.length → ∀ m,
      (l.getD i 0).testBit m = (decide (m < 8) && bs.getD (8 * i + (7 - m)) false)) :
    l = packBits bs := by
  apply List.ext_getElem?
  intro n
  unfold packBits
  rw [List.getElem?_map]
  by_cases hn : n < l.length
  · rw [List.getElem?_range (by omega), Option.map_some', List.getElem?_eq_getElem hn]
    have hx : l.getD n 0 = l[n] := by
      rw [List.getD_eq_getElem?_getD, List.getElem?_eq_getElem hn, Option.getD_some]
    have hlt : l[n] < 256 := by
      rw [← hx]
      apply Nat.lt_pow_two_of_testBit (n := 8)
      intro i hi
      rw [hb n hn i]
      have : ¬ i < 8 := by omega
      simp only [this, decide_False, Bool.false_and]
    have hbit : ∀ j, j < 8 → bs.getD (8 * n + j) false = l[n].testBit (7 - j) := by
      intro j hj
      rw [← hx, hb n hn (7 - j)]
      have h1 : 7 - j < 8 := by omega
      have h2 : 7 - (7 - j) = j := by omega
      simp only [h1, h2, decide_True, Bool.true_and]
    have e0 : bs.getD (8 * n) false = l[n].testBit 7 := hbit 0 (by decide)
    have e1 : bs.getD (8 * n + 1) false = l[n].testBit 6 := hbit 1 (by decide)
    have e2 : bs.getD (8 * n + 2) false = l[n].testBit 5 := hbit 2 (by decide)
    have e3 : bs.getD (8 * n + 3) false = l[n].testBit 4 := hbit 3 (by decide)
    have e4 : bs.getD (8 * n + 4) false = l[n].testBit 3 := hbit 4 (by decide)
    have e5 : bs.getD (8 * n + 5) false = l[n].testBit 2 := hbit 5 (by decide)
    have e6 : bs.getD (8 * n + 6) false = l[n].testBit 1 := hbit 6 (by decide)
    have e7 : bs.getD (8 * n + 7) false = l[n].testBit 0 := hbit 7 (by decide)
    rw [e0, e1, e2, e3, e4, e5, e6, e7, byteOfBits_testBit _ hlt]
  · rw [List.getElem?_eq_none (by omega), List.getElem?_eq_none
      (by rw [List.length_range]; omega)]
    rfl

/-- The final `Flush()` gives the bits packed into bytes. -/
theorem Rep.flush_packs {w : VpxBitStreamWriter} {bs : List Bool} (h : Rep w bs) :
    w.Flush.byte_array = packBits bs ∧ w.Flush.byte_array.length = (bs.length + 7) / 8 := by
  have hL := h.len
  have hpos := h.pos_le
  by_cases hp : w.buffer_pos = 0
  · have hF : w.Flush = w := by simp only [Flush, hp, if_true]
    rw [hF]
    have hlen : w.byte_array.length = (bs.length + 7) / 8 := by omega
    exact ⟨eq_packBits _ _ hlen h.bytes, hlen⟩
  · have hF : w.Flush.byte_array = w.byte_array ++ [w.buffer % 2 ^ 8] := by
      simp only [Flush, hp, if_false]
    rw [hF]
    have hlen : (w.byte_array ++ [w.buffer % 2 ^ 8]).length = (bs.length + 7) / 8 := by
      rw [List.length_append, List.length_singleton]
      omega
    refine ⟨eq_packBits _ _ hlen ?_, hlen⟩
    intro i hi m
    rw [List.length_append, List.length_singleton] at hi
    rw [getD_append_cases]
    split
    · rename_i h1
      exact h.bytes i h1 m
    · rename_i h1
      have h2 : i = w.byte_array.length := by omega
      rw [h2, Nat.sub_self, Nat.mod_eq_of_lt h.buffer_lt]
      exact h.buf m

end Tegra.Decoder.VpxBitStreamWriter

/-- C26: for every sequence of `WriteU(v_i, n_i)` calls with `0 <= n_i <= 31` on a new
writer, each call returns, and after the final `Flush()` the byte array equals the
concatenation of the low `n_i` bits of each `v_i`, most significant bit first, packed
into bytes from the most significant bit down, with the last, incomplete byte padded
with zero bits; its length is the ceiling of the sum of the `n_i` over 8.  An `s32` value
`v_i` is given by the number below `2 ^ 32` of its bits. -/
theorem Tegra.Decoder.VpxBitStreamWriter.WriteU_packs_bits (calls : List (Nat × Nat))
    (h : ∀ c ∈ calls, c.1 < 2 ^ 32 ∧ c.2 ≤ 31) :
    ∃ w, writeAll new calls = some w ∧
      w.Flush.byte_array = packBits (calls.flatMap fun c => lowBits c.1 c.2) ∧
      w.Flush.byte_array.length = ((calls.map Prod.snd).sum + 7) / 8 := by
  obtain ⟨w, hw, hr⟩ := writeAll_spec calls new [] Rep.of_new
    (fun c hc => ⟨(h c hc).1, by have := (h c hc).2; omega⟩)
  rw [List.nil_append] at hr
  refine ⟨w, hw, hr.flush_packs.1, ?_⟩
  rw [hr.flush_packs.2, length_flatMap_lowBits]

/-- Witness for C26: the calls `WriteU(5, 3)`, `WriteU(0xFF, 8)` and `WriteU(1, 1)` write
the twelve bits `101 11111111 1`, the two bytes `0xBF` and `0xF0`. -/
theorem Tegra.Decoder.VpxBitStreamWriter.WriteU_packs_bits_witness :
    ∃ w, writeAll new [(5, 3), (0xFF, 8), (1, 1)] = some w ∧
      w.Flush.byte_array = [0xBF, 0xF0] :=
  (Tegra.Decoder.VpxBitStreamWriter.WriteU_packs_bits [(5, 3), (0xFF, 8), (1, 1)]
    (by decide)).imp fun _ hw => ⟨hw.1, hw.2.1.trans (by decide)⟩
